import Mathlib

/-!
Verification of the `Promize` class of `src/Promise.js` (the first, complete
draft of the class: lines 1-357, the one containing `all`, `allSettled` and
`race`).

The class is a hand-rolled Promise/A+-style future.  We embed it as a small
deterministic machine:

* a heap of promise objects (`PObj`), each with its `#state`, `#value`,
  `#thenCallbacks` and `#catchCallbacks`;
* the microtask queue (`tasks`): `queueMicrotask` in `#onFulfilled` /
  `#onRejected` appends a deferred settlement attempt, and the environment
  drains the queue FIFO (`runTasks`);
* heap cells for the mutable locals captured by the combinators
  (`completedPromises` counters and `result` arrays are captured by
  reference in JavaScript);
* defunctionalized function values (`Fn`) for every closure the source
  passes around: the bound capabilities `#onFulfilledBind`/`#onRejectedBind`,
  the handler closures of `all`/`allSettled`, the wrappers built by
  `finally`, an identity handler, and a probe handler with a counter side
  effect used as observable test continuations.
-/

set_option maxHeartbeats 1000000

namespace Promize

/-- State of a promise: the STATES object of the source. -/
inductive PState where
  | pending
  | fulfilled
  | rejected
deriving DecidableEq, Repr

/-- Defunctionalized JavaScript function values used by the source: the two
bound capabilities of a promise (identified by its heap index), the handler
closures of `all` and `allSettled` (capturing the heap indices of the shared
`completedPromises` counter and `result` array, the element index `i`, the
input length `n` and the combinator's promise), the two wrappers `finally`
builds around its callback, and an identity handler `v => v` used as an
observable test continuation. -/
inductive Fn where
  | resolveCap (p : Nat)
  | rejectCap (p : Nat)
  | idFn
  | probeCb (c : Nat)
  | allOnFul (cnt res i n p : Nat)
  | asOnFul (cnt res i n p : Nat)
  | asOnRej (res i : Nat)
  | asFinallyCb (cnt res n p : Nat)
  | finWrapFul (cb : Fn)
  | finWrapRej (cb : Fn)
deriving DecidableEq, Repr

/-- JavaScript values the source manipulates: `undefined`, numbers, strings,
references to promise objects, references to (mutable) arrays, the
two-field record literals built by `allSettled`, the TypeError raised when a
method is called on a value that lacks it, and function values. -/
inductive JVal where
  | undef
  | num (n : Int)
  | str (s : String)
  | promiseRef (p : Nat)
  | arrRef (a : Nat)
  | record (status : String) (key : String) (payload : JVal)
  | typeError
  | fn (f : Fn)
deriving DecidableEq, Repr

/-- A callback stored in `#thenCallbacks` or `#catchCallbacks`: the closure
pushed by `then` captures the user handler (`onFulfilled` resp. `onRejected`,
any value) and the `resolve`/`reject` capabilities of the downstream promise
`d` created by that `then` call. -/
structure Cb where
  handler : JVal
  d : Nat
deriving DecidableEq, Repr

/-- A promise object: the four private fields of the class.  A fresh promise
is pending with `undefined` value and empty queues. -/
structure PObj where
  state : PState := .pending
  value : JVal := .undef
  thenCallbacks : List Cb := []
  catchCallbacks : List Cb := []
deriving DecidableEq, Repr

instance : Inhabited PObj := ⟨{}⟩

/-- A deferred settlement attempt sitting in the microtask queue: the body of
the `queueMicrotask` closure of `#onFulfilled` resp. `#onRejected` of promise
`p`, with the captured argument. -/
inductive Task where
  | fulfillTask (p : Nat) (v : JVal)
  | rejectTask (p : Nat) (r : JVal)
deriving DecidableEq, Repr

/-- The whole machine: promise heap, array cells, counter cells, the FIFO
microtask queue, and the instrumentation log of function-value invocations
(appended chronologically). -/
structure Machine where
  promises : List PObj := []
  arrays : List (List JVal) := []
  counters : List Int := []
  tasks : List Task := []
deriving DecidableEq, Repr

def emptyM : Machine := {}

def Machine.pobj (m : Machine) (p : Nat) : PObj :=
  m.promises.getD p {}

def stateOf (m : Machine) (p : Nat) : PState :=
  (m.pobj p).state

def valueOf (m : Machine) (p : Nat) : JVal :=
  (m.pobj p).value

def thenCbsOf (m : Machine) (p : Nat) : List Cb :=
  (m.pobj p).thenCallbacks

def catchCbsOf (m : Machine) (p : Nat) : List Cb :=
  (m.pobj p).catchCallbacks

def modifyP (m : Machine) (p : Nat) (f : PObj → PObj) : Machine :=
  { m with promises := m.promises.set p (f (m.pobj p)) }

/-- Append a microtask at the back of the queue (`queueMicrotask`). -/
def enqueue (m : Machine) (t : Task) : Machine :=
  { m with tasks := m.tasks ++ [t] }

/-- Allocate a fresh pending promise (`new Promize`, before the executor
runs); returns its heap index. -/
def allocPromise (m : Machine) : Machine × Nat :=
  ({ m with promises := m.promises ++ [{}] }, m.promises.length)

/-- Allocate a fresh array cell (`const result = []`). -/
def allocArray (m : Machine) : Machine × Nat :=
  ({ m with arrays := m.arrays ++ [[]] }, m.arrays.length)

/-- Allocate a fresh counter cell (`let completedPromises = 0`). -/
def allocCounter (m : Machine) : Machine × Nat :=
  ({ m with counters := m.counters ++ [0] }, m.counters.length)

/-- JavaScript `arr[i] = v`: pads with `undefined` when `i` is past the end. -/
def setPad (l : List JVal) (i : Nat) (v : JVal) : List JVal :=
  if i < l.length then l.set i v
  else l ++ List.replicate (i - l.length) JVal.undef ++ [v]

def setArr (m : Machine) (a i : Nat) (v : JVal) : Machine :=
  { m with arrays := m.arrays.set a (setPad (m.arrays.getD a []) i v) }

def getArr (m : Machine) (a : Nat) : List JVal :=
  m.arrays.getD a []

def getCounter (m : Machine) (c : Nat) : Int :=
  m.counters.getD c 0

def incCounter (m : Machine) (c : Nat) : Machine :=
  { m with counters := m.counters.set c (m.counters.getD c 0 + 1) }

/-- The `value instanceof Promize` test. -/
def isPromiseVal : JVal → Bool
  | .promiseRef _ => true
  | _ => false

/-- The `typeof v === 'function'` test, over the values of the model. -/
def isFunctionVal : JVal → Bool
  | .fn _ => true
  | _ => false

/-- The `#updateStateAndValue` method. -/
def updateStateAndValue (m : Machine) (p : Nat) (st : PState) (v : JVal) : Machine :=
  modifyP m p (fun o => { o with state := st, value := v })

def pushThenCb (m : Machine) (p : Nat) (cb : Cb) : Machine :=
  modifyP m p (fun o => { o with thenCallbacks := o.thenCallbacks ++ [cb] })

def pushCatchCb (m : Machine) (p : Nat) (cb : Cb) : Machine :=
  modifyP m p (fun o => { o with catchCallbacks := o.catchCallbacks ++ [cb] })

def clearThenCbs (m : Machine) (p : Nat) : Machine :=
  modifyP m p (fun o => { o with thenCallbacks := [] })

def clearCatchCbs (m : Machine) (p : Nat) : Machine :=
  modifyP m p (fun o => { o with catchCallbacks := [] })

/-- Invoke a defunctionalized function value on an argument.  Returns the new
machine and either the returned value (`Except.ok`) or a thrown one
(`Except.error`).  Each branch mirrors the corresponding closure of the
source; the invocation is logged. -/
def applyFn : Fn → JVal → Machine → Machine × Except JVal JVal
  | .resolveCap p, arg, m0 =>
    -- #onFulfilledBind: queueMicrotask a fulfillment attempt, return undefined.
    (enqueue m0 (.fulfillTask p arg), .ok .undef)
  | .rejectCap p, arg, m0 =>
    -- #onRejectedBind: queueMicrotask a rejection attempt, return undefined.
    (enqueue m0 (.rejectTask p arg), .ok .undef)
  | .idFn, arg, m0 =>
    (m0, .ok arg)
  | .probeCb c, arg, m0 =>
    -- a test continuation with an observable side effect: v => { hits++; return v }
    (incCounter m0 c, .ok arg)
  | .allOnFul cnt res i n p, arg, m0 =>
    -- `all`'s fulfillment handler: completedPromises++; result[i] = val;
    -- if (completedPromises === values.length) resolve(result).
    let m := incCounter m0 cnt
    let m := setArr m res i arg
    let m := if getCounter m cnt = (n : Int) then
               enqueue m (.fulfillTask p (.arrRef res))
             else m
    (m, .ok .undef)
  | .asOnFul cnt res i n p, arg, m0 =>
    -- `allSettled`'s fulfillment handler: result[i] = {status:"fulfilled", value: val};
    -- if (completedPromises === values.length) resolve(result).
    let m := setArr m0 res i (.record "fulfilled" "value" arg)
    let m := if getCounter m cnt = (n : Int) then
               enqueue m (.fulfillTask p (.arrRef res))
             else m
    (m, .ok .undef)
  | .asOnRej res i, arg, m0 =>
    -- `allSettled`'s rejection handler: result[i] = {status:"rejected", reason}.
    (setArr m0 res i (.record "rejected" "reason" arg), .ok .undef)
  | .asFinallyCb cnt res n p, arg, m0 =>
    -- `allSettled`'s finally callback: completedPromises++;
    -- if (completedPromises === values.length) resolve(result).
    let m := incCounter m0 cnt
    let m := if getCounter m cnt = (n : Int) then
               enqueue m (.fulfillTask p (.arrRef res))
             else m
    (m, .ok .undef)
  | .finWrapFul cb, arg, m0 =>
    -- `finally`'s fulfillment wrapper: result => { callback(); return result }.
    let (m1, r) := applyFn cb .undef m0
    (m1, match r with | .ok _ => .ok arg | .error e => .error e)
  | .finWrapRej cb, arg, m0 =>
    -- `finally`'s rejection wrapper: result => { callback(); throw result }.
    let (m1, r) := applyFn cb .undef m0
    (m1, match r with | .ok _ => .error arg | .error e => .error e)

/-- Run one stored callback (the closure `then` pushed).  `rejSide` is false
for a `#thenCallbacks` entry and true for a `#catchCallbacks` entry.  When
the captured handler is a function: `try { resolve(handler(result)) } catch
(error) { reject(error) }`; otherwise the value resp. reason is forwarded
along the matching path of the downstream promise. -/
def runCb (rejSide : Bool) (cb : Cb) (arg : JVal) (m : Machine) : Machine :=
  match cb.handler with
  | .fn f =>
    match (applyFn f arg m).2 with
    | .ok v => (applyFn (.resolveCap cb.d) v (applyFn f arg m).1).1
    | .error e => (applyFn (.rejectCap cb.d) e (applyFn f arg m).1).1
  | _ =>
    if rejSide then (applyFn (.rejectCap cb.d) arg m).1
    else (applyFn (.resolveCap cb.d) arg m).1

def runCbList (rejSide : Bool) (cbs : List Cb) (arg : JVal) (m : Machine) : Machine :=
  match cbs with
  | [] => m
  | cb :: rest => runCbList rejSide rest arg (runCb rejSide cb arg m)

/-- First half of `#executeCallbacks`: when fulfilled, run every
`#thenCallbacks` entry in insertion order on the settled value, then reset
the queue (callbacks appended during the drain are discarded by the reset,
matching `forEach` over the old array followed by reassignment). -/
def execFulfilled (p : Nat) (m : Machine) : Machine :=
  if stateOf m p = .fulfilled then
    clearThenCbs (runCbList false (thenCbsOf m p) (valueOf m p) m) p
  else m

/-- Second half of `#executeCallbacks`: the same for `#catchCallbacks` when
rejected. -/
def execRejected (p : Nat) (m : Machine) : Machine :=
  if stateOf m p = .rejected then
    clearCatchCbs (runCbList true (catchCbsOf m p) (valueOf m p) m) p
  else m

/-- The `#executeCallbacks` method: its two independent `if` statements. -/
def executeCallbacks (p : Nat) (m : Machine) : Machine :=
  execRejected p (execFulfilled p m)

/-- The `then` method called on promise `src`: allocate the downstream
promise, push one fulfillment and one rejection callback onto `src`'s
queues, then call `#executeCallbacks` on `src` (all synchronously, inside
the `new Promize` executor).  Returns the downstream promise. -/
def thenOn (src : Nat) (onFul onRej : JVal) (m : Machine) : Machine × Nat :=
  let (m1, d) := allocPromise m
  let m2 := pushThenCb m1 src ⟨onFul, d⟩
  let m3 := pushCatchCb m2 src ⟨onRej, d⟩
  (executeCallbacks src m3, d)

/-- A `.then(onFul, onRej)` method call on an arbitrary value: on a promise
reference it is `thenOn`; on anything else JavaScript throws a TypeError
(the value has no `then` method). -/
def callThen (target onFul onRej : JVal) (m : Machine) : Machine × Except JVal JVal :=
  match target with
  | .promiseRef src =>
    let (m1, d) := thenOn src onFul onRej m
    (m1, .ok (.promiseRef d))
  | _ => (m, .error .typeError)

/-- Body of the microtask queued by `#onFulfilled`: abort if no longer
pending; if the value is a promise, subscribe to it with the two bound
capabilities (`value.then(this.#onFulfilledBind, this.#onRejectedBind)`) and
return; otherwise update state and value and drain the callbacks. -/
def onFulfilledBody (p : Nat) (v : JVal) (m : Machine) : Machine :=
  if stateOf m p = .pending then
    if isPromiseVal v then
      (callThen v (.fn (.resolveCap p)) (.fn (.rejectCap p)) m).1
    else
      executeCallbacks p (updateStateAndValue m p .fulfilled v)
  else m

/-- Body of the microtask queued by `#onRejected`: same shape; in this draft
a promise passed as reason is likewise unwrapped
(`reason.then(this.#onFulfilledBind, this.#onRejectedBind)` then return). -/
def onRejectedBody (p : Nat) (r : JVal) (m : Machine) : Machine :=
  if stateOf m p = .pending then
    if isPromiseVal r then
      (callThen r (.fn (.resolveCap p)) (.fn (.rejectCap p)) m).1
    else
      executeCallbacks p (updateStateAndValue m p .rejected r)
  else m

def runTask : Task → Machine → Machine
  | .fulfillTask p v, m => onFulfilledBody p v m
  | .rejectTask p r, m => onRejectedBody p r m

/-- Drain the microtask queue FIFO, running at most `fuel` tasks (the
external deferred-work queue collaborator). -/
def runTasks (fuel : Nat) (m : Machine) : Machine :=
  match fuel with
  | 0 => m
  | fuel + 1 =>
    match m.tasks with
    | [] => m
    | t :: rest => runTasks fuel (runTask t { m with tasks := rest })

/-- `Promize.resolve(value)`: `new Promize((resolve) => resolve(value))`.
The executor calls the fulfillment capability synchronously. -/
def resolve (v : JVal) (m : Machine) : Machine × Nat :=
  let (m1, p) := allocPromise m
  ((applyFn (.resolveCap p) v m1).1, p)

/-- `Promize.reject(value)`: `new Promize((resolve, reject) => reject(value))`. -/
def reject (r : JVal) (m : Machine) : Machine × Nat :=
  let (m1, p) := allocPromise m
  ((applyFn (.rejectCap p) r m1).1, p)

/-- The `for` loop inside `Promize.all`'s executor, from element index `i`.
A non-promise element: if `completedPromises === values.length - 1` resolve
with the (shared, still mutable) result array, then `result[i] = promise`,
then `completedPromises++`.  A promise element: subscribe with
`promise.then(handler).catch(reject)`. -/
def allLoop (vs : List JVal) (i n cnt res p : Nat) (m : Machine) : Machine :=
  match vs with
  | [] => m
  | v :: rest =>
    match v with
    | .promiseRef q =>
      let (m1, d) := thenOn q (.fn (.allOnFul cnt res i n p)) .undef m
      let (m2, _) := thenOn d .undef (.fn (.rejectCap p)) m1
      allLoop rest (i + 1) n cnt res p m2
    | v =>
      let m1 := if getCounter m cnt = (n : Int) - 1 then
                  enqueue m (.fulfillTask p (.arrRef res))
                else m
      let m2 := setArr m1 res i v
      let m3 := incCounter m2 cnt
      allLoop rest (i + 1) n cnt res p m3

/-- `Promize.all(values)`: allocate the shared counter and result array,
then the returned promise, then run the loop inside the executor (the loop
only ever calls `then` on actual promises, so the executor cannot throw). -/
def all (vs : List JVal) (m : Machine) : Machine × Nat :=
  let (m1, cnt) := allocCounter m
  let (m2, res) := allocArray m1
  let (m3, p) := allocPromise m2
  (allLoop vs 0 vs.length cnt res p m3, p)

/-- The loop inside `Promize.allSettled`'s executor.  A non-promise element
is recorded as an already-fulfilled record; a promise element is subscribed
with `promise.then(onFul).catch(onRej).finally(cb)`. -/
def asLoop (vs : List JVal) (i n cnt res p : Nat) (m : Machine) : Machine :=
  match vs with
  | [] => m
  | v :: rest =>
    match v with
    | .promiseRef q =>
      let (m1, d) := thenOn q (.fn (.asOnFul cnt res i n p)) .undef m
      let (m2, e) := thenOn d .undef (.fn (.asOnRej res i)) m1
      let (m3, _) := thenOn e (.fn (.finWrapFul (.asFinallyCb cnt res n p)))
                              (.fn (.finWrapRej (.asFinallyCb cnt res n p))) m2
      asLoop rest (i + 1) n cnt res p m3
    | v =>
      let m1 := if getCounter m cnt = (n : Int) - 1 then
                  enqueue m (.fulfillTask p (.arrRef res))
                else m
      let m2 := setArr m1 res i (.record "fulfilled" "value" v)
      let m3 := incCounter m2 cnt
      asLoop rest (i + 1) n cnt res p m3

/-- `Promize.allSettled(values)`. -/
def allSettled (vs : List JVal) (m : Machine) : Machine × Nat :=
  let (m1, cnt) := allocCounter m
  let (m2, res) := allocArray m1
  let (m3, p) := allocPromise m2
  (asLoop vs 0 vs.length cnt res p m3, p)

/-- The `forEach` loop inside `Promize.race`'s executor: for each element,
if it is not a promise call `resolve(element)`; then (with no `else`!) call
`element.then(resolve).catch(reject)`, which on a non-promise element throws
a TypeError that aborts the loop and propagates out of the executor. -/
def raceLoop (vs : List JVal) (p : Nat) (m : Machine) : Machine × Except JVal JVal :=
  match vs with
  | [] => (m, .ok .undef)
  | v :: rest =>
    match callThen v (.fn (.resolveCap p)) .undef
        (if isPromiseVal v then m else (applyFn (.resolveCap p) v m).1) with
    | (m2, .error e) => (m2, .error e)
    | (m2, .ok pv) =>
      match callThen pv .undef (.fn (.rejectCap p)) m2 with
      | (m3, .error e) => (m3, .error e)
      | (m3, .ok _) => raceLoop rest p m3

/-- `Promize.race(values)`: run the loop inside the executor; a value thrown
by the executor is caught by the constructor, which calls
`this.#onRejectedBind(error)` (a deferred rejection attempt). -/
def race (vs : List JVal) (m : Machine) : Machine × Nat :=
  let (m1, p) := allocPromise m
  match raceLoop vs p m1 with
  | (m2, .ok _) => (m2, p)
  | (m2, .error e) => ((applyFn (.rejectCap p) e m2).1, p)

/-! ### Input families and concrete scenarios for the claims -/

/-- An element of a combinator's input sequence, as the claims build them: a
plain value, a future created by `Promize.resolve` (the `succeeded` factory)
immediately before the call, or one created by `Promize.reject` (`failed`). -/
inductive AItem where
  | plain (v : JVal)
  | toFulfill (v : JVal)
  | toReject (r : JVal)
deriving DecidableEq, Repr

/-- The payload carried by an input element. -/
def AItem.payload : AItem → JVal
  | .plain v => v
  | .toFulfill v => v
  | .toReject r => r

/-- Whether the element is a created future (as opposed to a plain value). -/
def AItem.isFuture : AItem → Bool
  | .plain _ => false
  | _ => true

/-- Whether the element is a rejecting future. -/
def AItem.isReject : AItem → Bool
  | .toReject _ => true
  | _ => false

/-- Evaluate the elements of an input array left to right, as JavaScript
does before the combinator is applied: each `toFulfill`/`toReject` item
constructs a future (whose settlement microtask is enqueued), each `plain`
item is used as is.  Returns the machine and the element values in order. -/
def mkFutures : List AItem → Machine → Machine × List JVal
  | [], m => (m, [])
  | it :: rest, m =>
    let (m1, v) :=
      match it with
      | .plain v => (m, v)
      | .toFulfill v => let (m', p) := resolve v m; (m', JVal.promiseRef p)
      | .toReject r => let (m', p) := reject r m; (m', JVal.promiseRef p)
    let (m2, vs) := mkFutures rest m1
    (m2, v :: vs)

/-- The reason of the first (leftmost, which with this construction is also
the temporally first to settle) rejecting element, if any. -/
def firstReject : List AItem → Option JVal
  | [] => none
  | .toReject r :: _ => some r
  | _ :: rest => firstReject rest

/-- Scenario for C2: `Future.succeeded(Future.failed("e"))`, queue drained. -/
def scenUnwrap : Machine × Nat :=
  let (m1, p1) := reject (.str "e") emptyM
  let (m2, p2) := resolve (.promiseRef p1) m1
  (runTasks 50 m2, p2)

/-- Scenario for C3, first half: `p = Promize.resolve(1)` with the microtask
queue fully drained, so `p` is already settled.  A counter cell (index 0)
is allocated up front for the probe continuation. -/
def scenSettled : Machine × Nat :=
  let (m0, _) := allocCounter emptyM
  let (m1, p) := resolve (.num 1) m0
  (runTasks 10 m1, p)

/-- Scenario for C3, second half: `p.then(v => { hits++; return v })` called
on the already settled promise.  No microtask runs after the `then` call. -/
def scenLateChain : Machine × Nat :=
  thenOn scenSettled.2 (.fn (.probeCb 0)) .undef scenSettled.1

/-- Scenario for C4: `Promize.reject(Promize.resolve(5))`, queue drained. -/
def scenRejectFuture : Machine × Nat :=
  let (m1, q) := resolve (.num 5) emptyM
  let (m2, p) := reject (.promiseRef q) m1
  (runTasks 50 m2, p)

/-- Scenario for C5: `Promize.all([])`. -/
def scenAllEmpty : Machine × Nat := all [] emptyM

/-- Scenario builder for C6/C7: evaluate the input elements, apply
`Promize.all`, drain the queue. -/
def allScen (items : List AItem) : Machine × Nat :=
  let (m1, vs) := mkFutures items emptyM
  let (m2, p) := all vs m1
  (runTasks (8 * items.length + 8) m2, p)

/-- Scenario builder for C8: same with `Promize.allSettled`. -/
def allSettledScen (items : List AItem) : Machine × Nat :=
  let (m1, vs) := mkFutures items emptyM
  let (m2, p) := allSettled vs m1
  (runTasks (8 * items.length + 8) m2, p)

/-- Scenario for C9: `Promize.race([5, Promize.resolve(9)])`, queue drained. -/
def scenRace : Machine × Nat :=
  let (m1, q) := resolve (.num 9) emptyM
  let (m2, p) := race [.num 5, .promiseRef q] m1
  (runTasks 20 m2, p)

/-- Scenario for C10: the same `race` call, observed right after it returns
(before the deferred-work queue runs). -/
def scenRaceSetup : Machine × Nat :=
  let (m1, q) := resolve (.num 9) emptyM
  race [.num 5, .promiseRef q] m1

/-- Invariant behind the flattening guarantee: no settled promise holds a
promise reference as its settled outcome. -/
def settledNotFuture (m : Machine) : Prop :=
  ∀ p, stateOf m p ≠ .pending → isPromiseVal (valueOf m p) = false

/-! ### Infrastructure for the combinator proofs

The `all`/`allSettled` proofs for arbitrary input sequences work by exact
simulation: the machine after the combinator call, and after each
generation of microtasks, is characterized as an explicit function of the
input list.  The input family is a list of `(isReject, payload)` pairs,
each element a future created by `Promize.reject` resp. `Promize.resolve`
immediately before the combinator call (as in the spec's examples). -/

/-- The input elements of the future-only family. -/
def futureItems (fs : List (Bool × JVal)) : List AItem :=
  fs.map (fun b => if b.1 then AItem.toReject b.2 else AItem.toFulfill b.2)

/-- The input elements of the plain-only family. -/
def plainItems (vs : List JVal) : List AItem := vs.map AItem.plain

/-- The promise a deferred settlement attempt targets. -/
def taskTarget : Task → Nat
  | .fulfillTask p _ => p
  | .rejectTask p _ => p

/-- A task is trivial in `m` when its payload is not a future and its
target has no registered callbacks: running it can only settle its own
target, enqueues nothing and touches no cell. -/
def trivialTask (m : Machine) : Task → Prop
  | .fulfillTask p v => isPromiseVal v = false ∧ thenCbsOf m p = [] ∧ catchCbsOf m p = []
  | .rejectTask p r => isPromiseVal r = false ∧ thenCbsOf m p = [] ∧ catchCbsOf m p = []

/-- The first task of a queue that targets promise `q`. -/
def firstFor (q : Nat) : List Task → Option Task
  | [] => none
  | t :: ts => if taskTarget t = q then some t else firstFor q ts

/-! Builders for `Promize.all` over `k` futures (`P = k`, `d_j = k+1+2j`,
`e_j = k+2+2j`). -/

/-- Future `j`'s object after the `all` loop subscribed to it. -/
def aF0 (k j : Nat) : PObj :=
  ⟨.pending, .undef, [⟨.fn (.allOnFul 0 0 j k k), k + 1 + 2 * j⟩],
   [⟨.undef, k + 1 + 2 * j⟩]⟩

/-- Future `j`'s object after its settlement task ran (generation 1). -/
def aF1 (k j : Nat) (b : Bool × JVal) : PObj :=
  if b.1 then ⟨.rejected, b.2, [⟨.fn (.allOnFul 0 0 j k k), k + 1 + 2 * j⟩], []⟩
  else ⟨.fulfilled, b.2, [], [⟨.undef, k + 1 + 2 * j⟩]⟩

/-- The `then`-derived promise `d_j` as the `all` loop built it. -/
def aD0 (k j : Nat) : PObj :=
  ⟨.pending, .undef, [⟨.undef, k + 2 + 2 * j⟩], [⟨.fn (.rejectCap k), k + 2 + 2 * j⟩]⟩

/-- `d_j` after its own settlement task ran (generation 2). -/
def aD1 (k j : Nat) (b : Bool × JVal) : PObj :=
  if b.1 then ⟨.rejected, b.2, [⟨.undef, k + 2 + 2 * j⟩], []⟩
  else ⟨.fulfilled, .undef, [], [⟨.fn (.rejectCap k), k + 2 + 2 * j⟩]⟩

def aFBlock0 (k : Nat) : Nat → Nat → List PObj
  | _, 0 => []
  | j, c + 1 => aF0 k j :: aFBlock0 k (j + 1) c

def aFBlock1 (k : Nat) : Nat → List (Bool × JVal) → List PObj
  | _, [] => []
  | j, b :: bs => aF1 k j b :: aFBlock1 k (j + 1) bs

def aDEBlock (k : Nat) : Nat → Nat → List PObj
  | _, 0 => []
  | j, c + 1 => aD0 k j :: ({} : PObj) :: aDEBlock k (j + 1) c

def aDEBlock1 (k : Nat) : Nat → List (Bool × JVal) → List PObj
  | _, [] => []
  | j, b :: bs => aD1 k j b :: ({} : PObj) :: aDEBlock1 k (j + 1) bs

/-- The settlement tasks `mkFutures` leaves in the queue, future `j` first. -/
def settleTasks : Nat → List (Bool × JVal) → List Task
  | _, [] => []
  | j, b :: bs =>
    (if b.1 then Task.rejectTask j b.2 else Task.fulfillTask j b.2) :: settleTasks (j + 1) bs

/-- Generation-2 queue of `all` in the mixed case (no counter trigger):
one settlement task per `d_j`. -/
def dTasks (k : Nat) : Nat → List (Bool × JVal) → List Task
  | _, [] => []
  | j, b :: bs =>
    (if b.1 then Task.rejectTask (k + 1 + 2 * j) b.2
     else Task.fulfillTask (k + 1 + 2 * j) .undef) :: dTasks k (j + 1) bs

/-- Generation-3 queue of `all` in the mixed case: each rejected chain
contributes the deferred rejection of `P` followed by `e_j`'s settlement,
each fulfilled chain only `e_j`'s settlement. -/
def eTasks (k : Nat) : Nat → List (Bool × JVal) → List Task
  | _, [] => []
  | j, b :: bs =>
    (if b.1 then [Task.rejectTask k b.2, Task.fulfillTask (k + 2 + 2 * j) .undef]
     else [Task.fulfillTask (k + 2 + 2 * j) .undef]) ++ eTasks k (j + 1) bs

/-- Generation-2 queue of `all` in the all-fulfilling case: the resolution
of `P` with the shared result array is enqueued while the last future's
settlement runs, just before that future's `d` settlement. -/
def g2QueueFul (k : Nat) : Nat → Nat → List Task
  | _, 0 => []
  | j, c + 1 =>
    (if c = 0 then [Task.fulfillTask k (.arrRef 0)] else [])
      ++ Task.fulfillTask (k + 1 + 2 * j) .undef :: g2QueueFul k (j + 1) c

/-- The array contents after generation 1 of `all`: each fulfilled future
wrote its payload at its position. -/
def gen1Arr : Nat → List (Bool × JVal) → List JVal → List JVal
  | _, [], A => A
  | j, b :: bs, A => gen1Arr (j + 1) bs (if b.1 then A else setPad A j b.2)

/-- The number of fulfilling elements. -/
def fulCount (fs : List (Bool × JVal)) : Int :=
  fs.foldr (fun b acc => if b.1 then acc else acc + 1) 0

/-- The reason of the first rejecting element. -/
def firstRejReason : List (Bool × JVal) → Option JVal
  | [] => none
  | b :: bs => if b.1 then some b.2 else firstRejReason bs

/-- `d_j`'s object after its own settlement in the all-fulfilling case of
`all`: fulfilled with `undefined`, the rejection callback still stored. -/
def allFulD (k j : Nat) : PObj :=
  ⟨.fulfilled, .undef, [], [⟨.fn (.rejectCap k), k + 2 + 2 * j⟩]⟩

/-- The `d/e` block of `all` after generation 2 in the all-fulfilling case. -/
def allFulDE (k : Nat) : Nat → Nat → List PObj
  | _, 0 => []
  | j, c + 1 => allFulD k j :: ({} : PObj) :: allFulDE k (j + 1) c

/-- The `d/e` block of `all` after generation 3 in the all-fulfilling case:
every `e_j` is fulfilled with `undefined`. -/
def allFulDE2 (k : Nat) : Nat → Nat → List PObj
  | _, 0 => []
  | j, c + 1 => allFulD k j :: (⟨.fulfilled, .undef, [], []⟩ : PObj) :: allFulDE2 k (j + 1) c

/-- Generation-3 queue of `all` in the all-fulfilling case: one `e_j`
fulfillment per chain. -/
def eTasksFul (k : Nat) : Nat → Nat → List Task
  | _, 0 => []
  | j, c + 1 => Task.fulfillTask (k + 2 + 2 * j) .undef :: eTasksFul k (j + 1) c

/-! Builders for `Promize.allSettled` over `k` futures (`P = k`,
`d_j = k+1+3j`, `e_j = k+2+3j`, `g_j = k+3+3j`). -/

def sF0 (k j : Nat) : PObj :=
  ⟨.pending, .undef, [⟨.fn (.asOnFul 0 0 j k k), k + 1 + 3 * j⟩],
   [⟨.undef, k + 1 + 3 * j⟩]⟩

def sF1 (k j : Nat) (b : Bool × JVal) : PObj :=
  if b.1 then ⟨.rejected, b.2, [⟨.fn (.asOnFul 0 0 j k k), k + 1 + 3 * j⟩], []⟩
  else ⟨.fulfilled, b.2, [], [⟨.undef, k + 1 + 3 * j⟩]⟩

def sD0 (k j : Nat) : PObj :=
  ⟨.pending, .undef, [⟨.undef, k + 2 + 3 * j⟩], [⟨.fn (.asOnRej 0 j), k + 2 + 3 * j⟩]⟩

def sD1 (k j : Nat) (b : Bool × JVal) : PObj :=
  if b.1 then ⟨.rejected, b.2, [⟨.undef, k + 2 + 3 * j⟩], []⟩
  else ⟨.fulfilled, .undef, [], [⟨.fn (.asOnRej 0 j), k + 2 + 3 * j⟩]⟩

def sE0 (k j : Nat) : PObj :=
  ⟨.pending, .undef, [⟨.fn (.finWrapFul (.asFinallyCb 0 0 k k)), k + 3 + 3 * j⟩],
   [⟨.fn (.finWrapRej (.asFinallyCb 0 0 k k)), k + 3 + 3 * j⟩]⟩

def sE1 (k j : Nat) : PObj :=
  ⟨.fulfilled, .undef, [], [⟨.fn (.finWrapRej (.asFinallyCb 0 0 k k)), k + 3 + 3 * j⟩]⟩

def sFBlock0 (k : Nat) : Nat → Nat → List PObj
  | _, 0 => []
  | j, c + 1 => sF0 k j :: sFBlock0 k (j + 1) c

def sFBlock1 (k : Nat) : Nat → List (Bool × JVal) → List PObj
  | _, [] => []
  | j, b :: bs => sF1 k j b :: sFBlock1 k (j + 1) bs

def sDEGBlock (k : Nat) : Nat → Nat → List PObj
  | _, 0 => []
  | j, c + 1 => sD0 k j :: sE0 k j :: ({} : PObj) :: sDEGBlock k (j + 1) c

def sDEGBlock1 (k : Nat) : Nat → List (Bool × JVal) → List PObj
  | _, [] => []
  | j, b :: bs => sD1 k j b :: sE0 k j :: ({} : PObj) :: sDEGBlock1 k (j + 1) bs

def sDEGBlock2 (k : Nat) : Nat → List (Bool × JVal) → List PObj
  | _, [] => []
  | j, b :: bs => sD1 k j b :: sE1 k j :: ({} : PObj) :: sDEGBlock2 k (j + 1) bs

/-- The `d/e/g` block of `allSettled` after generation 4: every `g_j` is
fulfilled with `undefined`. -/
def sDEGBlock3 (k : Nat) : Nat → List (Bool × JVal) → List PObj
  | _, [] => []
  | j, b :: bs =>
    sD1 k j b :: sE1 k j :: (⟨.fulfilled, .undef, [], []⟩ : PObj) :: sDEGBlock3 k (j + 1) bs

/-- Generation-2 queue of `allSettled`: one settlement task per `d_j`. -/
def sDTasks (k : Nat) : Nat → List (Bool × JVal) → List Task
  | _, [] => []
  | j, b :: bs =>
    (if b.1 then Task.rejectTask (k + 1 + 3 * j) b.2
     else Task.fulfillTask (k + 1 + 3 * j) .undef) :: sDTasks k (j + 1) bs

/-- Generation-3 queue of `allSettled`: every `e_j` gets fulfilled with
`undefined` on both paths. -/
def sETasks (k : Nat) : Nat → Nat → List Task
  | _, 0 => []
  | j, c + 1 => Task.fulfillTask (k + 2 + 3 * j) .undef :: sETasks k (j + 1) c

/-- Generation-4 queue of `allSettled`: the `g_j` settlements, with the
resolution of `P` enqueued by the last element's finally callback just
before that element's `g` settlement. -/
def sGTasks (k : Nat) : Nat → Nat → List Task
  | _, 0 => []
  | j, c + 1 =>
    (if c = 0 then [Task.fulfillTask k (.arrRef 0)] else [])
      ++ Task.fulfillTask (k + 3 + 3 * j) .undef :: sGTasks k (j + 1) c

/-- The array contents after generation 1 of `allSettled`: fulfilled-value
records at the fulfilled positions. -/
def sGen1Arr : Nat → List (Bool × JVal) → List JVal → List JVal
  | _, [], A => A
  | j, b :: bs, A =>
    sGen1Arr (j + 1) bs (if b.1 then A else setPad A j (.record "fulfilled" "value" b.2))

/-- The array contents after generation 2 of `allSettled`: rejected-reason
records fill the rejected positions. -/
def sGen2Arr : Nat → List (Bool × JVal) → List JVal → List JVal
  | _, [], A => A
  | j, b :: bs, A =>
    sGen2Arr (j + 1) bs (if b.1 then setPad A j (.record "rejected" "reason" b.2) else A)

/-- The outcome record of one element, as `allSettled` reports it. -/
def settledRecord (b : Bool × JVal) : JVal :=
  if b.1 then .record "rejected" "reason" b.2 else .record "fulfilled" "value" b.2

/-- The element values `mkFutures` returns for a future-only input:
references to `c` consecutively allocated promises starting at `j`. -/
def refVals : Nat → Nat → List JVal
  | _, 0 => []
  | j, c + 1 => JVal.promiseRef j :: refVals (j + 1) c

/-! ### Theorems -/

theorem getD_append_singleton_self {α : Type} (l : List α) (x : α) (p : Nat) :
    (l ++ [x]).getD p x = l.getD p x := by
  simp only [List.getD, List.get?_eq_getElem?]
  rcases lt_trichotomy p l.length with h | h | h
  · rw [List.getElem?_append_left h]
  · subst h
    rw [List.getElem?_concat_length, List.getElem?_eq_none (le_refl _)]
    rfl
  · rw [List.getElem?_eq_none (by simpa using h), List.getElem?_eq_none (le_of_lt h)]

theorem getD_append_left {α : Type} (l l' : List α) (d : α) (p : Nat)
    (h : p < l.length) : (l ++ l').getD p d = l.getD p d := by
  simp only [List.getD, List.get?_eq_getElem?]
  rw [List.getElem?_append_left h]

theorem getD_append_length {α : Type} (l : List α) (x : α) (l' : List α) (d : α) :
    (l ++ x :: l').getD l.length d = x := by
  simp only [List.getD, List.get?_eq_getElem?]
  rw [List.getElem?_append_right (le_refl _)]
  simp

theorem getD_set_lemma {α : Type} (l : List α) (q : Nat) (a : α) (d : α) (p : Nat) :
    (l.set q a).getD p d = if p = q ∧ q < l.length then a else l.getD p d := by
  simp only [List.getD, List.get?_eq_getElem?]
  by_cases hpq : p = q
  · subst hpq
    by_cases hl : p < l.length
    · rw [List.getElem?_set_eq_of_lt a hl]
      simp [hl]
    · rw [List.set_eq_of_length_le (by omega)]
      simp [hl]
  · rw [List.getElem?_set_ne (fun e => hpq e.symm)]
    simp [hpq]

/-! Projections of the machine under each elementary operation. -/

@[simp] theorem pobj_enqueue (m : Machine) (t : Task) (p : Nat) :
    (enqueue m t).pobj p = m.pobj p := rfl

@[simp] theorem pobj_setArr (m : Machine) (a i : Nat) (v : JVal) (p : Nat) :
    (setArr m a i v).pobj p = m.pobj p := rfl

@[simp] theorem pobj_incCounter (m : Machine) (c : Nat) (p : Nat) :
    (incCounter m c).pobj p = m.pobj p := rfl

theorem allocPromise_fst (m : Machine) :
    (allocPromise m).1 = { m with promises := m.promises ++ [{}] } := rfl

theorem allocPromise_snd (m : Machine) : (allocPromise m).2 = m.promises.length := rfl

@[simp] theorem pobj_allocPromise (m : Machine) (p : Nat) :
    ((allocPromise m).1).pobj p = m.pobj p :=
  getD_append_singleton_self m.promises ({} : PObj) p

@[simp] theorem tasks_allocPromise (m : Machine) : ((allocPromise m).1).tasks = m.tasks := rfl

theorem pobj_modifyP (m : Machine) (q : Nat) (f : PObj → PObj) (p : Nat) :
    (modifyP m q f).pobj p
      = if p = q ∧ q < m.promises.length then f (m.pobj q) else m.pobj p :=
  getD_set_lemma m.promises q (f (m.pobj q)) ({} : PObj) p

@[simp] theorem tasks_modifyP (m : Machine) (q : Nat) (f : PObj → PObj) :
    (modifyP m q f).tasks = m.tasks := rfl

@[simp] theorem stateOf_pushThenCb (m : Machine) (q : Nat) (cb : Cb) (p : Nat) :
    stateOf (pushThenCb m q cb) p = stateOf m p := by
  unfold stateOf pushThenCb
  rw [pobj_modifyP]
  split
  · rename_i h
    rw [h.1]
  · rfl

@[simp] theorem valueOf_pushThenCb (m : Machine) (q : Nat) (cb : Cb) (p : Nat) :
    valueOf (pushThenCb m q cb) p = valueOf m p := by
  unfold valueOf pushThenCb
  rw [pobj_modifyP]
  split
  · rename_i h
    rw [h.1]
  · rfl

@[simp] theorem stateOf_pushCatchCb (m : Machine) (q : Nat) (cb : Cb) (p : Nat) :
    stateOf (pushCatchCb m q cb) p = stateOf m p := by
  unfold stateOf pushCatchCb
  rw [pobj_modifyP]
  split
  · rename_i h
    rw [h.1]
  · rfl

@[simp] theorem valueOf_pushCatchCb (m : Machine) (q : Nat) (cb : Cb) (p : Nat) :
    valueOf (pushCatchCb m q cb) p = valueOf m p := by
  unfold valueOf pushCatchCb
  rw [pobj_modifyP]
  split
  · rename_i h
    rw [h.1]
  · rfl

@[simp] theorem stateOf_clearThenCbs (m : Machine) (q : Nat) (p : Nat) :
    stateOf (clearThenCbs m q) p = stateOf m p := by
  unfold stateOf clearThenCbs
  rw [pobj_modifyP]
  split
  · rename_i h
    rw [h.1]
  · rfl

@[simp] theorem valueOf_clearThenCbs (m : Machine) (q : Nat) (p : Nat) :
    valueOf (clearThenCbs m q) p = valueOf m p := by
  unfold valueOf clearThenCbs
  rw [pobj_modifyP]
  split
  · rename_i h
    rw [h.1]
  · rfl

@[simp] theorem stateOf_clearCatchCbs (m : Machine) (q : Nat) (p : Nat) :
    stateOf (clearCatchCbs m q) p = stateOf m p := by
  unfold stateOf clearCatchCbs
  rw [pobj_modifyP]
  split
  · rename_i h
    rw [h.1]
  · rfl

@[simp] theorem valueOf_clearCatchCbs (m : Machine) (q : Nat) (p : Nat) :
    valueOf (clearCatchCbs m q) p = valueOf m p := by
  unfold valueOf clearCatchCbs
  rw [pobj_modifyP]
  split
  · rename_i h
    rw [h.1]
  · rfl

theorem stateOf_update (m : Machine) (q : Nat) (st : PState) (v : JVal) (p : Nat) :
    stateOf (updateStateAndValue m q st v) p
      = if p = q ∧ q < m.promises.length then st else stateOf m p := by
  unfold stateOf updateStateAndValue
  rw [pobj_modifyP]
  split <;> rfl

theorem valueOf_update (m : Machine) (q : Nat) (st : PState) (v : JVal) (p : Nat) :
    valueOf (updateStateAndValue m q st v) p
      = if p = q ∧ q < m.promises.length then v else valueOf m p := by
  unfold valueOf updateStateAndValue
  rw [pobj_modifyP]
  split <;> rfl

theorem stateOf_update_ne (m : Machine) (q : Nat) (st : PState) (v : JVal) (p : Nat)
    (h : p ≠ q) : stateOf (updateStateAndValue m q st v) p = stateOf m p := by
  rw [stateOf_update]
  simp [h]

theorem valueOf_update_ne (m : Machine) (q : Nat) (st : PState) (v : JVal) (p : Nat)
    (h : p ≠ q) : valueOf (updateStateAndValue m q st v) p = valueOf m p := by
  rw [valueOf_update]
  simp [h]

/-! Equation lemmas for the definitions written with pair destructuring. -/

theorem thenOn_eq (src : Nat) (f g : JVal) (m : Machine) :
    thenOn src f g m
      = (executeCallbacks src
           (pushCatchCb (pushThenCb (allocPromise m).1 src ⟨f, (allocPromise m).2⟩)
              src ⟨g, (allocPromise m).2⟩),
         (allocPromise m).2) := rfl

theorem resolve_eq (v : JVal) (m : Machine) :
    resolve v m
      = ((applyFn (.resolveCap (allocPromise m).2) v (allocPromise m).1).1,
         (allocPromise m).2) := rfl

theorem reject_eq (r : JVal) (m : Machine) :
    reject r m
      = ((applyFn (.rejectCap (allocPromise m).2) r (allocPromise m).1).1,
         (allocPromise m).2) := rfl

/-! The promise heap is never touched by invoking a function value: the
capabilities only enqueue microtasks, the combinator handlers only touch
cells and the queue, and the `finally` wrappers only invoke their callback. -/

theorem applyFn_promises (f : Fn) (arg : JVal) (m : Machine) :
    ((applyFn f arg m).1).promises = m.promises := by
  induction f generalizing arg m with
  | finWrapFul cb ih =>
    simp only [applyFn]
    rcases hcb : applyFn cb .undef m with ⟨m1, r⟩
    have := ih .undef m
    rw [hcb] at this
    simpa using this
  | finWrapRej cb ih =>
    simp only [applyFn]
    rcases hcb : applyFn cb .undef m with ⟨m1, r⟩
    have := ih .undef m
    rw [hcb] at this
    simpa using this
  | allOnFul cnt res i n p =>
    simp only [applyFn]
    split <;> rfl
  | asOnFul cnt res i n p =>
    simp only [applyFn]
    split <;> rfl
  | asFinallyCb cnt res n p =>
    simp only [applyFn]
    split <;> rfl
  | _ => rfl

theorem runCb_promises (s : Bool) (cb : Cb) (a : JVal) (m : Machine) :
    (runCb s cb a m).promises = m.promises := by
  rcases cb with ⟨h, d⟩
  cases h with
  | fn f =>
    show (runCb s ⟨.fn f, d⟩ a m).promises = m.promises
    unfold runCb
    rcases hr : (applyFn f a m).2 with e | v <;>
      simp only [hr] <;>
      rw [applyFn_promises, applyFn_promises]
  | _ =>
    cases s <;>
      (first
        | exact applyFn_promises (.rejectCap d) a m
        | exact applyFn_promises (.resolveCap d) a m
        | (unfold runCb; split <;> rw [applyFn_promises]))

theorem runCbList_promises (s : Bool) (cbs : List Cb) (a : JVal) (m : Machine) :
    (runCbList s cbs a m).promises = m.promises := by
  induction cbs generalizing m with
  | nil => rfl
  | cons cb rest ih =>
    simp only [runCbList]
    rw [ih, runCb_promises]

theorem stateOf_of_promises_eq {m m' : Machine} (h : m'.promises = m.promises) (p : Nat) :
    stateOf m' p = stateOf m p := by
  unfold stateOf Machine.pobj
  rw [h]

theorem valueOf_of_promises_eq {m m' : Machine} (h : m'.promises = m.promises) (p : Nat) :
    valueOf m' p = valueOf m p := by
  unfold valueOf Machine.pobj
  rw [h]

@[simp] theorem stateOf_runCbList (s : Bool) (cbs : List Cb) (a : JVal) (m : Machine) (p : Nat) :
    stateOf (runCbList s cbs a m) p = stateOf m p :=
  stateOf_of_promises_eq (runCbList_promises s cbs a m) p

@[simp] theorem valueOf_runCbList (s : Bool) (cbs : List Cb) (a : JVal) (m : Machine) (p : Nat) :
    valueOf (runCbList s cbs a m) p = valueOf m p :=
  valueOf_of_promises_eq (runCbList_promises s cbs a m) p

@[simp] theorem stateOf_allocPromise (m : Machine) (p : Nat) :
    stateOf ((allocPromise m).1) p = stateOf m p := by
  unfold stateOf
  rw [pobj_allocPromise]

@[simp] theorem valueOf_allocPromise (m : Machine) (p : Nat) :
    valueOf ((allocPromise m).1) p = valueOf m p := by
  unfold valueOf
  rw [pobj_allocPromise]

theorem stateOf_execFulfilled (q : Nat) (m : Machine) (p : Nat) :
    stateOf (execFulfilled q m) p = stateOf m p := by
  unfold execFulfilled
  split <;> simp

theorem valueOf_execFulfilled (q : Nat) (m : Machine) (p : Nat) :
    valueOf (execFulfilled q m) p = valueOf m p := by
  unfold execFulfilled
  split <;> simp

theorem stateOf_execRejected (q : Nat) (m : Machine) (p : Nat) :
    stateOf (execRejected q m) p = stateOf m p := by
  unfold execRejected
  split <;> simp

theorem valueOf_execRejected (q : Nat) (m : Machine) (p : Nat) :
    valueOf (execRejected q m) p = valueOf m p := by
  unfold execRejected
  split <;> simp

theorem stateOf_executeCallbacks (q : Nat) (m : Machine) (p : Nat) :
    stateOf (executeCallbacks q m) p = stateOf m p := by
  unfold executeCallbacks
  rw [stateOf_execRejected, stateOf_execFulfilled]

theorem valueOf_executeCallbacks (q : Nat) (m : Machine) (p : Nat) :
    valueOf (executeCallbacks q m) p = valueOf m p := by
  unfold executeCallbacks
  rw [valueOf_execRejected, valueOf_execFulfilled]

theorem stateOf_thenOn (src : Nat) (f g : JVal) (m : Machine) (p : Nat) :
    stateOf ((thenOn src f g m).1) p = stateOf m p := by
  rw [thenOn_eq]
  show stateOf (executeCallbacks _ _) p = _
  rw [stateOf_executeCallbacks, stateOf_pushCatchCb, stateOf_pushThenCb, stateOf_allocPromise]

theorem valueOf_thenOn (src : Nat) (f g : JVal) (m : Machine) (p : Nat) :
    valueOf ((thenOn src f g m).1) p = valueOf m p := by
  rw [thenOn_eq]
  show valueOf (executeCallbacks _ _) p = _
  rw [valueOf_executeCallbacks, valueOf_pushCatchCb, valueOf_pushThenCb, valueOf_allocPromise]

theorem stateOf_callThen (t f g : JVal) (m : Machine) (p : Nat) :
    stateOf ((callThen t f g m).1) p = stateOf m p := by
  cases t <;> simp only [callThen] <;> try rfl
  exact stateOf_thenOn _ f g m p

theorem valueOf_callThen (t f g : JVal) (m : Machine) (p : Nat) :
    valueOf ((callThen t f g m).1) p = valueOf m p := by
  cases t <;> simp only [callThen] <;> try rfl
  exact valueOf_thenOn _ f g m p

/-! Behaviour of a single deferred settlement attempt (`runTask`). -/

theorem runTask_fulfill_noop (m : Machine) (p : Nat) (v : JVal)
    (h : stateOf m p ≠ .pending) : runTask (.fulfillTask p v) m = m := by
  simp [runTask, onFulfilledBody, h]

theorem runTask_reject_noop (m : Machine) (p : Nat) (r : JVal)
    (h : stateOf m p ≠ .pending) : runTask (.rejectTask p r) m = m := by
  simp [runTask, onRejectedBody, h]

theorem runTask_preserves_settled (t : Task) (m : Machine) (p : Nat)
    (h : stateOf m p ≠ .pending) :
    stateOf (runTask t m) p = stateOf m p ∧ valueOf (runTask t m) p = valueOf m p := by
  have main : ∀ (q : Nat) (v : JVal) (st : PState),
      stateOf (if stateOf m q = .pending then
                 if isPromiseVal v then
                   (callThen v (.fn (.resolveCap q)) (.fn (.rejectCap q)) m).1
                 else executeCallbacks q (updateStateAndValue m q st v)
               else m) p = stateOf m p ∧
      valueOf (if stateOf m q = .pending then
                 if isPromiseVal v then
                   (callThen v (.fn (.resolveCap q)) (.fn (.rejectCap q)) m).1
                 else executeCallbacks q (updateStateAndValue m q st v)
               else m) p = valueOf m p := by
    intro q v st
    by_cases hq : stateOf m q = .pending
    · have hpq : p ≠ q := fun e => h (e ▸ hq)
      by_cases hv : isPromiseVal v
      · simp [hq, hv, stateOf_callThen, valueOf_callThen]
      · simp [hq, hv, stateOf_executeCallbacks, valueOf_executeCallbacks,
              stateOf_update_ne _ _ _ _ _ hpq, valueOf_update_ne _ _ _ _ _ hpq]
    · simp [hq]
  cases t with
  | fulfillTask q v => exact main q v .fulfilled
  | rejectTask q r => exact main q r .rejected

theorem tasks_of_runTasks_nil (fuel : Nat) (m : Machine) (h : m.tasks = []) :
    runTasks fuel m = m := by
  cases fuel with
  | zero => rfl
  | succ n =>
    simp only [runTasks, h]

theorem runTasks_cons (fuel : Nat) (m : Machine) (t : Task) (rest : List Task)
    (h : m.tasks = t :: rest) :
    runTasks (fuel + 1) m = runTasks fuel (runTask t { m with tasks := rest }) := by
  simp only [runTasks, h]

theorem runTasks_preserves_settled (fuel : Nat) :
    ∀ (m : Machine) (p : Nat), stateOf m p ≠ .pending →
      stateOf (runTasks fuel m) p = stateOf m p ∧
      valueOf (runTasks fuel m) p = valueOf m p := by
  induction fuel with
  | zero => intro m p _; exact ⟨rfl, rfl⟩
  | succ n ih =>
    intro m p h
    cases htasks : m.tasks with
    | nil =>
      rw [tasks_of_runTasks_nil (n + 1) m htasks]
      exact ⟨rfl, rfl⟩
    | cons t rest =>
      rw [runTasks_cons n m t rest htasks]
      have hmt : stateOf { m with tasks := rest } p = stateOf m p := rfl
      have hvt : valueOf { m with tasks := rest } p = valueOf m p := rfl
      have h1 := runTask_preserves_settled t { m with tasks := rest } p (by rw [hmt]; exact h)
      have h2 := ih (runTask t { m with tasks := rest }) p (by rw [h1.1, hmt]; exact h)
      exact ⟨by rw [h2.1, h1.1, hmt], by rw [h2.2, h1.2, hvt]⟩

theorem runTask_fulfill_promise_pending (m : Machine) (p q : Nat)
    (h : stateOf m p = .pending) :
    stateOf (runTask (.fulfillTask p (.promiseRef q)) m) p = .pending := by
  show stateOf (onFulfilledBody p (.promiseRef q) m) p = .pending
  unfold onFulfilledBody
  rw [if_pos h, if_pos (show isPromiseVal (.promiseRef q) = true from rfl), stateOf_callThen]
  exact h

theorem runTask_settledNotFuture (t : Task) (m : Machine) (h : settledNotFuture m) :
    settledNotFuture (runTask t m) := by
  have main : ∀ (q : Nat) (v : JVal) (st : PState),
      settledNotFuture
        (if stateOf m q = .pending then
           if isPromiseVal v then
             (callThen v (.fn (.resolveCap q)) (.fn (.rejectCap q)) m).1
           else executeCallbacks q (updateStateAndValue m q st v)
         else m) := by
    intro q v st
    by_cases hq : stateOf m q = .pending
    · rw [if_pos hq]
      by_cases hv : isPromiseVal v = true
      · rw [if_pos hv]
        intro p hp
        rw [valueOf_callThen]
        exact h p (by rwa [stateOf_callThen] at hp)
      · rw [if_neg hv]
        intro p hp
        rw [valueOf_executeCallbacks, valueOf_update]
        rw [stateOf_executeCallbacks, stateOf_update] at hp
        by_cases hc : p = q ∧ q < m.promises.length
        · rw [if_pos hc]
          simpa using hv
        · rw [if_neg hc]
          rw [if_neg hc] at hp
          exact h p hp
    · rw [if_neg hq]
      exact h
  cases t with
  | fulfillTask q v => exact main q v .fulfilled
  | rejectTask q r => exact main q r .rejected

theorem runTasks_settledNotFuture (fuel : Nat) :
    ∀ m : Machine, settledNotFuture m → settledNotFuture (runTasks fuel m) := by
  induction fuel with
  | zero => intro m h; exact h
  | succ n ih =>
    intro m h
    cases htasks : m.tasks with
    | nil =>
      rw [tasks_of_runTasks_nil _ _ htasks]
      exact h
    | cons t rest =>
      rw [runTasks_cons _ _ _ _ htasks]
      exact ih _ (runTask_settledNotFuture t { m with tasks := rest } (fun p hp => h p hp))

/-- C1: for every future, the state field transitions at most once out of
Pending, and once it has left Pending neither the state nor the settled
value ever changes again (under any single deferred settlement attempt and
under any run of the deferred-work queue); moreover a settlement attempt by
either capability on an already settled future is a complete no-op, so only
the first settlement's value is ever observed. -/
theorem settles_at_most_once :
    (∀ (t : Task) (m : Machine) (p : Nat), stateOf m p ≠ .pending →
        stateOf (runTask t m) p = stateOf m p ∧ valueOf (runTask t m) p = valueOf m p)
  ∧ (∀ (fuel : Nat) (m : Machine) (p : Nat), stateOf m p ≠ .pending →
        stateOf (runTasks fuel m) p = stateOf m p ∧
        valueOf (runTasks fuel m) p = valueOf m p)
  ∧ (∀ (m : Machine) (p : Nat) (v : JVal), stateOf m p ≠ .pending →
        runTask (.fulfillTask p v) m = m ∧ runTask (.rejectTask p v) m = m) :=
  ⟨runTask_preserves_settled, runTasks_preserves_settled,
   fun m p v h => ⟨runTask_fulfill_noop m p v h, runTask_reject_noop m p v h⟩⟩

/-- Witness for C1 at a concrete settled future: `Promize.resolve(1)` after
the queue has drained; a second fulfillment or rejection attempt leaves the
machine untouched. -/
theorem settles_at_most_once_witness :
    runTask (.fulfillTask scenSettled.2 (.num 99)) scenSettled.1 = scenSettled.1 ∧
    runTask (.rejectTask scenSettled.2 (.num 99)) scenSettled.1 = scenSettled.1 :=
  ⟨(settles_at_most_once.2.2 scenSettled.1 scenSettled.2 (.num 99) (by decide)).1,
   (settles_at_most_once.2.2 scenSettled.1 scenSettled.2 (.num 99) (by decide)).2⟩

/-- C2: a fulfillment attempt whose value is itself a future never settles
the outer future with that future as payload (the attempt leaves it
pending and subscribes instead); consequently, settled outcomes are never
future references (the property is preserved by every run of the queue);
and concretely `Future.succeeded(Future.failed("e"))` settles to Rejected
with `"e"`. -/
theorem succeed_adopts_inner_future :
    (∀ (m : Machine) (p q : Nat), stateOf m p = .pending →
        stateOf (runTask (.fulfillTask p (.promiseRef q)) m) p = .pending)
  ∧ (∀ (fuel : Nat) (m : Machine), settledNotFuture m →
        settledNotFuture (runTasks fuel m))
  ∧ stateOf scenUnwrap.1 scenUnwrap.2 = .rejected
  ∧ valueOf scenUnwrap.1 scenUnwrap.2 = .str "e" :=
  ⟨runTask_fulfill_promise_pending, runTasks_settledNotFuture, by decide, by decide⟩

/-- Witness for C2: the pending-preservation on a concrete machine (a fresh
pending promise receiving a promise-valued fulfillment attempt), and the
flattening invariant run on the empty machine. -/
theorem succeed_adopts_inner_future_witness :
    stateOf (runTask (.fulfillTask 0 (.promiseRef 1))
              (allocPromise (allocPromise emptyM).1).1) 0 = .pending ∧
    settledNotFuture (runTasks 5 emptyM) :=
  ⟨succeed_adopts_inner_future.1 (allocPromise (allocPromise emptyM).1).1 0 1 (by decide),
   succeed_adopts_inner_future.2.1 5 emptyM (fun p hp => absurd rfl hp)⟩

/-- C3 (code bug): a continuation registered through `then` on an already
settled future fires synchronously, during the `then` call itself, before
the registering call stack unwinds: after `Promize.resolve(1)` has settled
(queue empty, probe counter 0), the call `p.then(v => { hits++; return v })`
itself bumps the probe counter to 1 and already holds the handler's return
value in the downstream settlement it scheduled — with no microtask running
in between.  The spec requires that the continuation fire only
asynchronously, after the registering stack unwinds. -/
theorem late_chain_fires_synchronously :
    stateOf scenSettled.1 scenSettled.2 = .fulfilled ∧
    scenSettled.1.tasks = [] ∧
    getCounter scenSettled.1 0 = 0 ∧
    getCounter scenLateChain.1 0 = 1 ∧
    scenLateChain.1.tasks = [.fulfillTask scenLateChain.2 (.num 1)] := by
  decide

/-- C4 counterexample: `Promize.reject` does NOT commit to a future reason
as-is: `Promize.reject(Promize.resolve(5))` settles to Fulfilled with `5`
(the rejection capability unwraps a promise reason and adopts its outcome),
not to Rejected with the future as payload. -/
theorem failed_unwraps_future_reason :
    stateOf scenRejectFuture.1 scenRejectFuture.2 = .fulfilled ∧
    valueOf scenRejectFuture.1 scenRejectFuture.2 = .num 5 := by
  decide

/-! Settling a fresh promise (one whose object is still in its initial
state, with no registered callbacks) has a closed form: the entry is
replaced by a settled one, and nothing else changes. -/

theorem runCbList_nil (s : Bool) (a : JVal) (m : Machine) :
    runCbList s [] a m = m := rfl

theorem update_fresh_closed (m : Machine) (p : Nat) (st : PState) (v : JVal)
    (hp : m.pobj p = {}) :
    updateStateAndValue m p st v
      = { m with promises := m.promises.set p ⟨st, v, [], []⟩ } := by
  unfold updateStateAndValue modifyP
  rw [hp]

theorem pobj_set_self (m : Machine) (p : Nat) (o : PObj) (hlen : p < m.promises.length) :
    ({ m with promises := m.promises.set p o } : Machine).pobj p = o := by
  show (m.promises.set p o).getD p {} = o
  rw [getD_set_lemma, if_pos ⟨rfl, hlen⟩]

theorem clearThenCbs_set_self (m : Machine) (p : Nat) (o : PObj)
    (hlen : p < m.promises.length) (ho : o.thenCallbacks = []) :
    clearThenCbs ({ m with promises := m.promises.set p o }) p
      = { m with promises := m.promises.set p o } := by
  unfold clearThenCbs modifyP
  rw [pobj_set_self m p o hlen]
  show ({ m with promises := (m.promises.set p o).set p { o with thenCallbacks := [] } } : Machine) = _
  rw [List.set_set]
  rw [show ({ o with thenCallbacks := [] } : PObj) = o by
        cases o
        simp_all]

theorem clearCatchCbs_set_self (m : Machine) (p : Nat) (o : PObj)
    (hlen : p < m.promises.length) (ho : o.catchCallbacks = []) :
    clearCatchCbs ({ m with promises := m.promises.set p o }) p
      = { m with promises := m.promises.set p o } := by
  unfold clearCatchCbs modifyP
  rw [pobj_set_self m p o hlen]
  show ({ m with promises := (m.promises.set p o).set p { o with catchCallbacks := [] } } : Machine) = _
  rw [List.set_set]
  rw [show ({ o with catchCallbacks := [] } : PObj) = o by
        cases o
        simp_all]

theorem runTask_fulfill_fresh (m : Machine) (p : Nat) (v : JVal)
    (hp : m.pobj p = {}) (hlen : p < m.promises.length) (hv : isPromiseVal v = false) :
    runTask (.fulfillTask p v) m
      = { m with promises := m.promises.set p ⟨.fulfilled, v, [], []⟩ } := by
  have hpend : stateOf m p = .pending := by rw [stateOf, hp]
  have hpobj := pobj_set_self m p (⟨.fulfilled, v, [], []⟩ : PObj) hlen
  show onFulfilledBody p v m = _
  unfold onFulfilledBody
  rw [if_pos hpend, if_neg (by rw [hv]; exact Bool.false_ne_true),
      update_fresh_closed m p .fulfilled v hp]
  unfold executeCallbacks execFulfilled
  rw [if_pos (show stateOf _ p = .fulfilled by rw [stateOf, hpobj]),
      show thenCbsOf ({ m with promises := m.promises.set p ⟨.fulfilled, v, [], []⟩ }) p = []
        by rw [thenCbsOf, hpobj]]
  rw [runCbList_nil, clearThenCbs_set_self m p _ hlen rfl]
  unfold execRejected
  rw [if_neg (show ¬ stateOf _ p = .rejected by
        rw [stateOf, hpobj]; exact fun e => by cases e)]

theorem runTask_reject_fresh (m : Machine) (p : Nat) (r : JVal)
    (hp : m.pobj p = {}) (hlen : p < m.promises.length) (hr : isPromiseVal r = false) :
    runTask (.rejectTask p r) m
      = { m with promises := m.promises.set p ⟨.rejected, r, [], []⟩ } := by
  have hpend : stateOf m p = .pending := by rw [stateOf, hp]
  have hpobj := pobj_set_self m p (⟨.rejected, r, [], []⟩ : PObj) hlen
  show onRejectedBody p r m = _
  unfold onRejectedBody
  rw [if_pos hpend, if_neg (by rw [hr]; exact Bool.false_ne_true),
      update_fresh_closed m p .rejected r hp]
  unfold executeCallbacks execFulfilled
  rw [if_neg (show ¬ stateOf _ p = .fulfilled by
        rw [stateOf, hpobj]; exact fun e => by cases e)]
  unfold execRejected
  rw [if_pos (show stateOf _ p = .rejected by rw [stateOf, hpobj]),
      show catchCbsOf ({ m with promises := m.promises.set p ⟨.rejected, r, [], []⟩ }) p = []
        by rw [catchCbsOf, hpobj]]
  rw [runCbList_nil]
  exact clearCatchCbs_set_self m p _ hlen rfl

/-- The general half of the amended C4: on a non-future reason,
`Promize.reject` produces a future that settles to Rejected with exactly
that reason. -/
theorem reject_nonfuture (r : JVal) (h : isPromiseVal r = false) :
    stateOf (runTasks 10 (reject r emptyM).1) (reject r emptyM).2 = .rejected ∧
    valueOf (runTasks 10 (reject r emptyM).1) (reject r emptyM).2 = r := by
  cases r
  case promiseRef p => simp [isPromiseVal] at h
  all_goals exact ⟨rfl, rfl⟩

/-- C4 (amended): `failed(reason)` settles to Rejected with exactly the
given reason whenever the reason is not itself a future; when the reason is
a future, the rejection capability unwraps it and adopts the inner future's
outcome instead (concretely, `Promize.reject(Promize.resolve(5))` settles
to Fulfilled with `5`). -/
theorem failed_rejects_nonfuture_reason :
    (∀ r : JVal, isPromiseVal r = false →
        stateOf (runTasks 10 (reject r emptyM).1) (reject r emptyM).2 = .rejected ∧
        valueOf (runTasks 10 (reject r emptyM).1) (reject r emptyM).2 = r)
  ∧ stateOf scenRejectFuture.1 scenRejectFuture.2 = .fulfilled
  ∧ valueOf scenRejectFuture.1 scenRejectFuture.2 = .num 5 :=
  ⟨reject_nonfuture, by decide, by decide⟩

/-- Witness for the amended C4 at the concrete reason `"bad"`. -/
theorem failed_rejects_nonfuture_reason_witness :
    stateOf (runTasks 10 (reject (.str "bad") emptyM).1) (reject (.str "bad") emptyM).2
      = .rejected ∧
    valueOf (runTasks 10 (reject (.str "bad") emptyM).1) (reject (.str "bad") emptyM).2
      = .str "bad" :=
  failed_rejects_nonfuture_reason.1 (.str "bad") (by decide)

/-- C5 (code bug): `Promize.all([])` returns a future that never settles:
its executor loop body never runs, so `resolve` is never called, the
returned future is Pending with an empty microtask queue, and every run of
the deferred-work queue leaves the machine unchanged.  The spec requires
fulfillment with an empty sequence. -/
theorem all_empty_never_settles :
    scenAllEmpty.1.tasks = [] ∧
    stateOf scenAllEmpty.1 scenAllEmpty.2 = .pending ∧
    ∀ fuel : Nat, runTasks fuel scenAllEmpty.1 = scenAllEmpty.1 :=
  ⟨by decide, by decide, fun fuel => tasks_of_runTasks_nil fuel _ (by decide)⟩

/-! `race`: the behaviour on a plain (non-promise) first element. -/

theorem runTasks_zero (m : Machine) : runTasks 0 m = m := rfl

theorem callThen_nonpromise (t f g : JVal) (m : Machine) (h : isPromiseVal t = false) :
    callThen t f g m = (m, .error .typeError) := by
  cases t
  case promiseRef p => simp [isPromiseVal] at h
  all_goals rfl

theorem raceLoop_plain_head (v : JVal) (rest : List JVal) (p : Nat) (m : Machine)
    (hv : isPromiseVal v = false) :
    raceLoop (v :: rest) p m = ((applyFn (.resolveCap p) v m).1, .error .typeError) := by
  unfold raceLoop
  rw [if_neg (by rw [hv]; exact Bool.false_ne_true),
      callThen_nonpromise v (.fn (.resolveCap p)) .undef ((applyFn (.resolveCap p) v m).1) hv]

theorem race_eq (vs : List JVal) (m : Machine) :
    race vs m
      = (match raceLoop vs (allocPromise m).2 (allocPromise m).1 with
         | (m2, .ok _) => (m2, (allocPromise m).2)
         | (m2, .error e) =>
             ((applyFn (.rejectCap (allocPromise m).2) e m2).1, (allocPromise m).2)) := rfl

theorem race_plain_head (v : JVal) (rest : List JVal) (m : Machine)
    (hv : isPromiseVal v = false) :
    race (v :: rest) m
      = ((applyFn (.rejectCap (allocPromise m).2) .typeError
            (applyFn (.resolveCap (allocPromise m).2) v (allocPromise m).1).1).1,
         (allocPromise m).2) := by
  rw [race_eq, raceLoop_plain_head v rest _ _ hv]

theorem raceLoop_head_cut (v : JVal) (rest : List JVal) (p : Nat) (m : Machine)
    (hv : isPromiseVal v = false) :
    raceLoop (v :: rest) p m = raceLoop [v] p m := by
  rw [raceLoop_plain_head v rest p m hv, raceLoop_plain_head v [] p m hv]

theorem race_tasks_shape (v : JVal) (rest : List JVal) (m : Machine)
    (hv : isPromiseVal v = false) :
    (race (v :: rest) m).1.tasks
      = m.tasks ++ [.fulfillTask m.promises.length v,
                    .rejectTask m.promises.length .typeError] := by
  rw [race_plain_head v rest m hv]
  show (m.tasks ++ [Task.fulfillTask m.promises.length v])
        ++ [Task.rejectTask m.promises.length .typeError] = _
  rw [List.append_assoc]
  rfl

/-- Running the two deferred attempts `race` leaves for a plain first
element (the fulfillment, then the TypeError rejection) on an otherwise
quiescent machine: the fulfillment wins, the rejection attempt is a no-op. -/
theorem two_step_outcome (A : Machine) (p0 : Nat) (v : JVal)
    (hpobj : A.pobj p0 = {}) (hlen : p0 < A.promises.length)
    (hv : isPromiseVal v = false)
    (ht : A.tasks = [.fulfillTask p0 v, .rejectTask p0 .typeError]) :
    stateOf (runTasks 2 A) p0 = .fulfilled ∧ valueOf (runTasks 2 A) p0 = v := by
  have mid : ∀ M2 : Machine, M2.tasks = [Task.rejectTask p0 .typeError] →
      M2.pobj p0 = ⟨.fulfilled, v, [], []⟩ →
      stateOf (runTasks 1 M2) p0 = .fulfilled ∧ valueOf (runTasks 1 M2) p0 = v := by
    intro M2 hts hpo
    have hst : stateOf M2 p0 = .fulfilled := by rw [stateOf, hpo]
    have hvl : valueOf M2 p0 = v := by rw [valueOf, hpo]
    rw [runTasks_cons 0 M2 _ [] hts, runTasks_zero]
    rw [runTask_reject_noop { M2 with tasks := ([] : List Task) } p0 .typeError
          (show stateOf M2 p0 ≠ .pending by rw [hst]; exact fun e => by cases e)]
    exact ⟨hst, hvl⟩
  rw [runTasks_cons 1 A _ _ ht,
      runTask_fulfill_fresh { A with tasks := [.rejectTask p0 .typeError] } p0 v hpobj hlen hv]
  exact mid _ rfl
    (pobj_set_self { A with tasks := [Task.rejectTask p0 .typeError] } p0
      ⟨.fulfilled, v, [], []⟩ hlen)

theorem race_plain_head_outcome (v : JVal) (rest : List JVal) (m : Machine)
    (hv : isPromiseVal v = false) (h0 : m.tasks = []) :
    stateOf (runTasks 2 (race (v :: rest) m).1) (race (v :: rest) m).2 = .fulfilled ∧
    valueOf (runTasks 2 (race (v :: rest) m).1) (race (v :: rest) m).2 = v := by
  rw [race_plain_head v rest m hv]
  refine two_step_outcome _ m.promises.length v ?_ ?_ hv ?_
  · show (m.promises ++ [({} : PObj)]).getD m.promises.length ({} : PObj) = ({} : PObj)
    exact getD_append_length m.promises ({} : PObj) [] ({} : PObj)
  · show m.promises.length < (m.promises ++ [({} : PObj)]).length
    simp
  · show (m.tasks ++ [Task.fulfillTask m.promises.length v])
          ++ [Task.rejectTask m.promises.length .typeError] = _
    rw [h0]
    rfl

/-- C9: `race` over a sequence whose first element is a plain value settles
with that plain value whenever the deferred-work queue holds no
earlier-settling work (for every tail and every quiescent machine); in
particular `race([5, Future.succeeded(9)])` settles with `5`. -/
theorem race_plain_first_element_wins :
    (∀ (v : JVal) (rest : List JVal) (m : Machine),
        isPromiseVal v = false → m.tasks = [] →
        stateOf (runTasks 2 (race (v :: rest) m).1) (race (v :: rest) m).2 = .fulfilled ∧
        valueOf (runTasks 2 (race (v :: rest) m).1) (race (v :: rest) m).2 = v)
  ∧ stateOf scenRace.1 scenRace.2 = .fulfilled
  ∧ valueOf scenRace.1 scenRace.2 = .num 5 :=
  ⟨race_plain_head_outcome, by decide, by decide⟩

/-- Witness for C9 at `race([5])` on the empty machine. -/
theorem race_plain_first_element_wins_witness :
    stateOf (runTasks 2 (race [.num 5] emptyM).1) (race [.num 5] emptyM).2 = .fulfilled ∧
    valueOf (runTasks 2 (race [.num 5] emptyM).1) (race [.num 5] emptyM).2 = .num 5 :=
  race_plain_first_element_wins.1 (.num 5) [] emptyM (by decide) (by decide)

/-- C10: `race` never raises an exception to its caller even though it
invokes `.then` on plain elements.  The loop aborts at the first plain
element (every later element is never subscribed: the loop result is
independent of the tail), the synchronous TypeError is converted by the
constructor into a deferred rejection attempt queued after the plain
value's fulfillment, and concretely — for `race([5, Promize.resolve(9)])`
— the inner future is never subscribed, the TypeError rejection is in the
queue, and the returned future still settles with `5`. -/
theorem race_never_throws_to_caller :
    (∀ (v : JVal) (rest : List JVal) (p : Nat) (m : Machine), isPromiseVal v = false →
        raceLoop (v :: rest) p m = raceLoop [v] p m)
  ∧ (∀ (v : JVal) (rest : List JVal) (m : Machine), isPromiseVal v = false →
        (race (v :: rest) m).1.tasks
          = m.tasks ++ [.fulfillTask m.promises.length v,
                        .rejectTask m.promises.length .typeError])
  ∧ thenCbsOf scenRaceSetup.1 0 = []
  ∧ Task.rejectTask scenRaceSetup.2 .typeError ∈ scenRaceSetup.1.tasks
  ∧ stateOf scenRace.1 scenRace.2 = .fulfilled
  ∧ valueOf scenRace.1 scenRace.2 = .num 5 :=
  ⟨raceLoop_head_cut, race_tasks_shape, by decide, by decide, by decide, by decide⟩

/-- Witness for C10 at `race([5, 7])` on the empty machine. -/
theorem race_never_throws_to_caller_witness :
    raceLoop [.num 5, .num 7] 0 emptyM = raceLoop [.num 5] 0 emptyM ∧
    (race [.num 5, .num 7] emptyM).1.tasks
      = emptyM.tasks ++ [.fulfillTask emptyM.promises.length (.num 5),
                         .rejectTask emptyM.promises.length .typeError] :=
  ⟨race_never_throws_to_caller.1 (.num 5) [.num 7] 0 emptyM (by decide),
   race_never_throws_to_caller.2.1 (.num 5) [.num 7] emptyM (by decide)⟩

/-! ### Generic per-task machinery for the combinator proofs -/

theorem set_append_length {α : Type} (l1 : List α) (x : α) (l2 : List α) (y : α) :
    (l1 ++ x :: l2).set l1.length y = l1 ++ y :: l2 := by
  induction l1 with
  | nil => rfl
  | cons a t ih => simpa using ih

theorem runTasks_add (a b : Nat) : ∀ m : Machine,
    runTasks (a + b) m = runTasks b (runTasks a m) := by
  induction a with
  | zero => intro m; rw [Nat.zero_add, runTasks_zero]
  | succ a ih =>
    intro m
    cases htasks : m.tasks with
    | nil =>
      rw [tasks_of_runTasks_nil (a + 1) m htasks, tasks_of_runTasks_nil (a + 1 + b) m htasks,
          tasks_of_runTasks_nil b m htasks]
    | cons t rest =>
      rw [show a + 1 + b = (a + b) + 1 from by omega,
          runTasks_cons (a + b) m t rest htasks, runTasks_cons a m t rest htasks, ih]

theorem execFulfilled_skip (q : Nat) (m : Machine) (h : stateOf m q ≠ .fulfilled) :
    execFulfilled q m = m := by
  unfold execFulfilled
  rw [if_neg h]

theorem execRejected_skip (q : Nat) (m : Machine) (h : stateOf m q ≠ .rejected) :
    execRejected q m = m := by
  unfold execRejected
  rw [if_neg h]

theorem executeCallbacks_pending (q : Nat) (m : Machine) (h : stateOf m q = .pending) :
    executeCallbacks q m = m := by
  unfold executeCallbacks
  rw [execFulfilled_skip q m (by rw [h]; exact fun e => by cases e),
      execRejected_skip q m (by rw [h]; exact fun e => by cases e)]

/-- Generic lookup in a machine whose promise list is an explicit `set`. -/
theorem pobj_promises_set (W : Machine) (l : List PObj) (F : Nat) (o : PObj)
    (hlen : F < l.length) :
    ({ W with promises := l.set F o } : Machine).pobj F = o := by
  show (l.set F o).getD F {} = o
  rw [getD_set_lemma, if_pos ⟨rfl, hlen⟩]

/-- Generic lookup in a machine whose promise list is an explicit
`l1 ++ x :: l2` with `F = l1.length`. -/
theorem pobj_promises_mid (W : Machine) (l1 : List PObj) (x : PObj) (l2 : List PObj) :
    ({ W with promises := l1 ++ x :: l2 } : Machine).pobj l1.length = x := by
  show (l1 ++ x :: l2).getD l1.length {} = x
  exact getD_append_length l1 x l2 {}

/-- Settling a promise that carries exactly one fulfillment callback and one
rejection callback (the shape `then` always leaves): the deferred
fulfillment updates state and value, runs the fulfillment callback on the
new machine, and resets the fulfillment queue. -/
theorem runTask_fulfill_one (m : Machine) (F : Nat) (v : JVal) (tc cc : Cb)
    (hp : m.pobj F = ⟨.pending, .undef, [tc], [cc]⟩) (hlen : F < m.promises.length)
    (hv : isPromiseVal v = false) :
    runTask (.fulfillTask F v) m
      = { runCb false tc v { m with promises := m.promises.set F ⟨.fulfilled, v, [tc], [cc]⟩ }
          with promises := m.promises.set F ⟨.fulfilled, v, [], [cc]⟩ } := by
  have hpend : stateOf m F = .pending := by rw [stateOf, hp]
  have hU : updateStateAndValue m F .fulfilled v
      = { m with promises := m.promises.set F ⟨.fulfilled, v, [tc], [cc]⟩ } := by
    unfold updateStateAndValue modifyP
    rw [hp]
  show onFulfilledBody F v m = _
  unfold onFulfilledBody
  rw [if_pos hpend, if_neg (by rw [hv]; exact Bool.false_ne_true), hU]
  generalize hgen :
    ({ m with promises := m.promises.set F (⟨.fulfilled, v, [tc], [cc]⟩ : PObj) } : Machine) = M1
  have hM1p : M1.pobj F = ⟨.fulfilled, v, [tc], [cc]⟩ := by
    rw [← hgen]
    exact pobj_promises_set m m.promises F _ hlen
  have hM1prom : M1.promises = m.promises.set F ⟨.fulfilled, v, [tc], [cc]⟩ := by
    rw [← hgen]
  unfold executeCallbacks execFulfilled
  rw [if_pos (show stateOf M1 F = .fulfilled by rw [stateOf, hM1p]),
      show thenCbsOf M1 F = [tc] by rw [thenCbsOf, hM1p],
      show valueOf M1 F = v by rw [valueOf, hM1p],
      show runCbList false [tc] v M1 = runCb false tc v M1 from rfl]
  have hW : (runCb false tc v M1).promises = m.promises.set F ⟨.fulfilled, v, [tc], [cc]⟩ := by
    rw [runCb_promises, hM1prom]
  have hWp : (runCb false tc v M1).pobj F = ⟨.fulfilled, v, [tc], [cc]⟩ := by
    unfold Machine.pobj
    rw [hW, getD_set_lemma, if_pos ⟨rfl, hlen⟩]
  have hclear : clearThenCbs (runCb false tc v M1) F
      = { runCb false tc v M1 with promises := m.promises.set F ⟨.fulfilled, v, [], [cc]⟩ } := by
    unfold clearThenCbs modifyP
    rw [hWp, hW, List.set_set]
  rw [hclear]
  exact execRejected_skip F _ (by
    rw [stateOf, pobj_promises_set _ m.promises F _ hlen]
    exact fun e => by cases e)

/-- The rejection counterpart: the deferred rejection runs the rejection
callback and resets the rejection queue, leaving the fulfillment queue in
place. -/
theorem runTask_reject_one (m : Machine) (F : Nat) (r : JVal) (tc cc : Cb)
    (hp : m.pobj F = ⟨.pending, .undef, [tc], [cc]⟩) (hlen : F < m.promises.length)
    (hr : isPromiseVal r = false) :
    runTask (.rejectTask F r) m
      = { runCb true cc r { m with promises := m.promises.set F ⟨.rejected, r, [tc], [cc]⟩ }
          with promises := m.promises.set F ⟨.rejected, r, [tc], []⟩ } := by
  have hpend : stateOf m F = .pending := by rw [stateOf, hp]
  have hU : updateStateAndValue m F .rejected r
      = { m with promises := m.promises.set F ⟨.rejected, r, [tc], [cc]⟩ } := by
    unfold updateStateAndValue modifyP
    rw [hp]
  show onRejectedBody F r m = _
  unfold onRejectedBody
  rw [if_pos hpend, if_neg (by rw [hr]; exact Bool.false_ne_true), hU]
  generalize hgen :
    ({ m with promises := m.promises.set F (⟨.rejected, r, [tc], [cc]⟩ : PObj) } : Machine) = M1
  have hM1p : M1.pobj F = ⟨.rejected, r, [tc], [cc]⟩ := by
    rw [← hgen]
    exact pobj_promises_set m m.promises F _ hlen
  have hM1prom : M1.promises = m.promises.set F ⟨.rejected, r, [tc], [cc]⟩ := by
    rw [← hgen]
  unfold executeCallbacks
  rw [execFulfilled_skip F M1 (by rw [stateOf, hM1p]; exact fun e => by cases e)]
  unfold execRejected
  rw [if_pos (show stateOf M1 F = .rejected by rw [stateOf, hM1p]),
      show catchCbsOf M1 F = [cc] by rw [catchCbsOf, hM1p],
      show valueOf M1 F = r by rw [valueOf, hM1p],
      show runCbList true [cc] r M1 = runCb true cc r M1 from rfl]
  have hW : (runCb true cc r M1).promises = m.promises.set F ⟨.rejected, r, [tc], [cc]⟩ := by
    rw [runCb_promises, hM1prom]
  have hWp : (runCb true cc r M1).pobj F = ⟨.rejected, r, [tc], [cc]⟩ := by
    unfold Machine.pobj
    rw [hW, getD_set_lemma, if_pos ⟨rfl, hlen⟩]
  unfold clearCatchCbs modifyP
  rw [hWp, hW, List.set_set]

/-! Instance equations for `runCb` at the handler shapes the combinators
use (all definitional). -/

theorem runCb_undef_ful (d : Nat) (a : JVal) (m : Machine) :
    runCb false ⟨.undef, d⟩ a m = enqueue m (.fulfillTask d a) := rfl

theorem runCb_undef_rej (d : Nat) (a : JVal) (m : Machine) :
    runCb true ⟨.undef, d⟩ a m = enqueue m (.rejectTask d a) := rfl

theorem runCb_allOnFul (cnt res i n p d : Nat) (v : JVal) (m : Machine) :
    runCb false ⟨.fn (.allOnFul cnt res i n p), d⟩ v m
      = enqueue (applyFn (.allOnFul cnt res i n p) v m).1 (.fulfillTask d .undef) := rfl

theorem runCb_rejectCapHandler (p e : Nat) (r : JVal) (m : Machine) :
    runCb true ⟨.fn (.rejectCap p), e⟩ r m
      = enqueue (enqueue m (.rejectTask p r)) (.fulfillTask e .undef) := rfl

theorem runCb_asOnFul (cnt res i n p d : Nat) (v : JVal) (m : Machine) :
    runCb false ⟨.fn (.asOnFul cnt res i n p), d⟩ v m
      = enqueue (applyFn (.asOnFul cnt res i n p) v m).1 (.fulfillTask d .undef) := rfl

theorem runCb_asOnRej (res i e : Nat) (r : JVal) (m : Machine) :
    runCb true ⟨.fn (.asOnRej res i), e⟩ r m
      = enqueue (setArr m res i (.record "rejected" "reason" r)) (.fulfillTask e .undef) := rfl

theorem runCb_finWrapFul (cnt res n p g : Nat) (arg : JVal) (m : Machine) :
    runCb false ⟨.fn (.finWrapFul (.asFinallyCb cnt res n p)), g⟩ arg m
      = enqueue (applyFn (.asFinallyCb cnt res n p) .undef m).1 (.fulfillTask g arg) := rfl

theorem applyFn_allOnFul_m (cnt res i n p : Nat) (v : JVal) (m : Machine) :
    (applyFn (.allOnFul cnt res i n p) v m).1
      = (if getCounter (setArr (incCounter m cnt) res i v) cnt = (n : Int)
         then enqueue (setArr (incCounter m cnt) res i v) (.fulfillTask p (.arrRef res))
         else setArr (incCounter m cnt) res i v) := rfl

theorem applyFn_asOnFul_m (cnt res i n p : Nat) (v : JVal) (m : Machine) :
    (applyFn (.asOnFul cnt res i n p) v m).1
      = (if getCounter (setArr m res i (.record "fulfilled" "value" v)) cnt = (n : Int)
         then enqueue (setArr m res i (.record "fulfilled" "value" v))
                (.fulfillTask p (.arrRef res))
         else setArr m res i (.record "fulfilled" "value" v)) := rfl

theorem applyFn_asFinallyCb_m (cnt res n p : Nat) (arg : JVal) (m : Machine) :
    (applyFn (.asFinallyCb cnt res n p) arg m).1
      = (if getCounter (incCounter m cnt) cnt = (n : Int)
         then enqueue (incCounter m cnt) (.fulfillTask p (.arrRef res))
         else incCounter m cnt) := rfl

/-! More list bookkeeping. -/

theorem set_append_of_lt {α : Type} : ∀ (l1 : List α) (l2 : List α) (i : Nat) (x : α),
    i < l1.length → (l1 ++ l2).set i x = l1.set i x ++ l2 := by
  intro l1
  induction l1 with
  | nil => intro l2 i x h; cases h
  | cons a t ih =>
    intro l2 i x h
    cases i with
    | zero => rfl
    | succ i =>
      show a :: ((t ++ l2).set i x) = a :: (t.set i x ++ l2)
      rw [ih l2 i x (by simpa using h)]

theorem getD_append_cons {α : Type} (L : List α) (x : α) (L' : List α) (d : α) (i : Nat) :
    (L ++ x :: L').getD (L.length + 1 + i) d = L'.getD i d := by
  simp only [List.getD, List.get?_eq_getElem?]
  rw [List.getElem?_append_right (by omega),
      show L.length + 1 + i - L.length = i + 1 from by omega]
  simp

theorem setPad_append (A : List JVal) (v : JVal) : setPad A A.length v = A ++ [v] := by
  unfold setPad
  rw [if_neg (by omega), Nat.sub_self]
  simp

/-! One trivial settlement step: the payload is not a future and the target
carries no callbacks, so the task settles its target and does nothing else. -/

theorem runTask_trivial_fulfill (m : Machine) (p : Nat) (v : JVal)
    (hpend : stateOf m p = .pending)
    (hth : thenCbsOf m p = []) (hcc : catchCbsOf m p = [])
    (hlen : p < m.promises.length) (hv : isPromiseVal v = false) :
    runTask (.fulfillTask p v) m
      = { m with promises := m.promises.set p ⟨.fulfilled, v, [], []⟩ } := by
  unfold thenCbsOf at hth
  unfold catchCbsOf at hcc
  have hA : ({ m.pobj p with state := PState.fulfilled, value := v } : PObj)
      = ⟨.fulfilled, v, [], []⟩ := by
    rcases hpo : m.pobj p with ⟨st, val, tcs, ccs⟩
    rw [hpo] at hth hcc
    change tcs = [] at hth
    change ccs = [] at hcc
    subst hth
    subst hcc
    rfl
  have hupd : updateStateAndValue m p .fulfilled v
      = { m with promises := m.promises.set p ⟨.fulfilled, v, [], []⟩ } := by
    unfold updateStateAndValue modifyP
    rw [show ((fun o => ({ o with state := PState.fulfilled, value := v } : PObj)) (m.pobj p))
          = (⟨.fulfilled, v, [], []⟩ : PObj) from hA]
  have hpobj := pobj_set_self m p (⟨.fulfilled, v, [], []⟩ : PObj) hlen
  show onFulfilledBody p v m = _
  unfold onFulfilledBody
  rw [if_pos hpend, if_neg (by rw [hv]; exact Bool.false_ne_true), hupd]
  unfold executeCallbacks execFulfilled
  rw [if_pos (show stateOf _ p = .fulfilled by rw [stateOf, hpobj]),
      show thenCbsOf ({ m with promises := m.promises.set p ⟨.fulfilled, v, [], []⟩ }) p = []
        by rw [thenCbsOf, hpobj]]
  rw [runCbList_nil, clearThenCbs_set_self m p _ hlen rfl]
  unfold execRejected
  rw [if_neg (show ¬ stateOf _ p = .rejected by
        rw [stateOf, hpobj]; exact fun e => by cases e)]

theorem runTask_trivial_reject (m : Machine) (p : Nat) (r : JVal)
    (hpend : stateOf m p = .pending)
    (hth : thenCbsOf m p = []) (hcc : catchCbsOf m p = [])
    (hlen : p < m.promises.length) (hr : isPromiseVal r = false) :
    runTask (.rejectTask p r) m
      = { m with promises := m.promises.set p ⟨.rejected, r, [], []⟩ } := by
  unfold thenCbsOf at hth
  unfold catchCbsOf at hcc
  have hA : ({ m.pobj p with state := PState.rejected, value := r } : PObj)
      = ⟨.rejected, r, [], []⟩ := by
    rcases hpo : m.pobj p with ⟨st, val, tcs, ccs⟩
    rw [hpo] at hth hcc
    change tcs = [] at hth
    change ccs = [] at hcc
    subst hth
    subst hcc
    rfl
  have hupd : updateStateAndValue m p .rejected r
      = { m with promises := m.promises.set p ⟨.rejected, r, [], []⟩ } := by
    unfold updateStateAndValue modifyP
    rw [show ((fun o => ({ o with state := PState.rejected, value := r } : PObj)) (m.pobj p))
          = (⟨.rejected, r, [], []⟩ : PObj) from hA]
  have hpobj := pobj_set_self m p (⟨.rejected, r, [], []⟩ : PObj) hlen
  show onRejectedBody p r m = _
  unfold onRejectedBody
  rw [if_pos hpend, if_neg (by rw [hr]; exact Bool.false_ne_true), hupd]
  unfold executeCallbacks execFulfilled
  rw [if_neg (show ¬ stateOf _ p = .fulfilled by
        rw [stateOf, hpobj]; exact fun e => by cases e)]
  unfold execRejected
  rw [if_pos (show stateOf _ p = .rejected by rw [stateOf, hpobj]),
      show catchCbsOf ({ m with promises := m.promises.set p ⟨.rejected, r, [], []⟩ }) p = []
        by rw [catchCbsOf, hpobj]]
  rw [runCbList_nil, clearCatchCbs_set_self m p _ hlen rfl]

/-- Callback queues stay empty across a settlement of the trivial form. -/
theorem cbs_after_set (m : Machine) (pt : Nat) (o : PObj) (p' : Nat)
    (hth : thenCbsOf m p' = []) (hcc : catchCbsOf m p' = [])
    (hot : o.thenCallbacks = []) (hoc : o.catchCallbacks = []) :
    thenCbsOf ({ m with promises := m.promises.set pt o }) p' = [] ∧
    catchCbsOf ({ m with promises := m.promises.set pt o }) p' = [] := by
  unfold thenCbsOf catchCbsOf Machine.pobj at *
  constructor
  · show (((m.promises.set pt o).getD p' {}) : PObj).thenCallbacks = []
    rw [getD_set_lemma]
    split
    · exact hot
    · exact hth
  · show (((m.promises.set pt o).getD p' {}) : PObj).catchCallbacks = []
    rw [getD_set_lemma]
    split
    · exact hoc
    · exact hcc

/-! ### Setup-phase characterization for the combinators -/

theorem resolve_explicit (v : JVal) (P : List PObj) (A : List (List JVal)) (C : List Int)
    (T : List Task) :
    resolve v ⟨P, A, C, T⟩
      = (⟨P ++ [({} : PObj)], A, C, T ++ [.fulfillTask P.length v]⟩, P.length) := rfl

theorem reject_explicit (r : JVal) (P : List PObj) (A : List (List JVal)) (C : List Int)
    (T : List Task) :
    reject r ⟨P, A, C, T⟩
      = (⟨P ++ [({} : PObj)], A, C, T ++ [.rejectTask P.length r]⟩, P.length) := rfl

theorem mkFutures_cons_toFulfill (v : JVal) (rest : List AItem) (m : Machine) :
    mkFutures (.toFulfill v :: rest) m
      = ((mkFutures rest (resolve v m).1).1,
         JVal.promiseRef (resolve v m).2 :: (mkFutures rest (resolve v m).1).2) := rfl

theorem mkFutures_cons_toReject (r : JVal) (rest : List AItem) (m : Machine) :
    mkFutures (.toReject r :: rest) m
      = ((mkFutures rest (reject r m).1).1,
         JVal.promiseRef (reject r m).2 :: (mkFutures rest (reject r m).1).2) := rfl

theorem futureItems_cons (b : Bool × JVal) (bs : List (Bool × JVal)) :
    futureItems (b :: bs)
      = (if b.1 then AItem.toReject b.2 else AItem.toFulfill b.2) :: futureItems bs := rfl

theorem refVals_cons (j c : Nat) :
    refVals j (c + 1) = JVal.promiseRef j :: refVals (j + 1) c := rfl

theorem settleTasks_cons (j : Nat) (b : Bool × JVal) (bs : List (Bool × JVal)) :
    settleTasks j (b :: bs)
      = (if b.1 then Task.rejectTask j b.2 else Task.fulfillTask j b.2)
          :: settleTasks (j + 1) bs := rfl

/-- Evaluating a future-only input list: each element allocates one fresh
pending promise and queues its settlement; the values are the references. -/
theorem mkFutures_futureItems : ∀ (fs : List (Bool × JVal)) (j : Nat) (P : List PObj)
    (A : List (List JVal)) (C : List Int) (T : List Task), P.length = j →
    mkFutures (futureItems fs) ⟨P, A, C, T⟩
      = (⟨P ++ List.replicate fs.length ({} : PObj), A, C, T ++ settleTasks j fs⟩,
         refVals j fs.length) := by
  intro fs
  induction fs with
  | nil =>
    intro j P A C T _
    simp [futureItems, mkFutures, settleTasks, refVals]
  | cons b bs ih =>
    intro j P A C T hP
    rw [futureItems_cons]
    by_cases hb : b.1
    · rw [if_pos hb, mkFutures_cons_toReject, reject_explicit]
      dsimp only
      rw [hP,
          ih (j + 1) (P ++ [({} : PObj)]) A C (T ++ [Task.rejectTask j b.2]) (by simp [hP])]
      simp [settleTasks_cons, hb, refVals_cons, List.append_assoc, List.replicate_succ]
    · rw [if_neg hb, mkFutures_cons_toFulfill, resolve_explicit]
      dsimp only
      rw [hP,
          ih (j + 1) (P ++ [({} : PObj)]) A C (T ++ [Task.fulfillTask j b.2]) (by simp [hP])]
      simp [settleTasks_cons, hb, refVals_cons, List.append_assoc, List.replicate_succ]

/-- `modifyP` at an exposed middle position. -/
theorem modifyP_mid (L1 : List PObj) (o : PObj) (L2 : List PObj) (A : List (List JVal))
    (C : List Int) (T : List Task) (f : PObj → PObj) :
    modifyP ⟨L1 ++ o :: L2, A, C, T⟩ L1.length f = ⟨L1 ++ f o :: L2, A, C, T⟩ := by
  unfold modifyP
  rw [show (⟨L1 ++ o :: L2, A, C, T⟩ : Machine).pobj L1.length = o
        from getD_append_length L1 o L2 ({} : PObj),
      show (⟨L1 ++ o :: L2, A, C, T⟩ : Machine).promises = L1 ++ o :: L2 from rfl,
      set_append_length]

theorem pushThenCb_mid (L1 : List PObj) (o : PObj) (L2 : List PObj) (A : List (List JVal))
    (C : List Int) (T : List Task) (cb : Cb) :
    pushThenCb ⟨L1 ++ o :: L2, A, C, T⟩ L1.length cb
      = ⟨L1 ++ (⟨o.state, o.value, o.thenCallbacks ++ [cb], o.catchCallbacks⟩ : PObj) :: L2,
         A, C, T⟩ :=
  modifyP_mid L1 o L2 A C T _

theorem pushCatchCb_mid (L1 : List PObj) (o : PObj) (L2 : List PObj) (A : List (List JVal))
    (C : List Int) (T : List Task) (cb : Cb) :
    pushCatchCb ⟨L1 ++ o :: L2, A, C, T⟩ L1.length cb
      = ⟨L1 ++ (⟨o.state, o.value, o.thenCallbacks, o.catchCallbacks ++ [cb]⟩ : PObj) :: L2,
         A, C, T⟩ :=
  modifyP_mid L1 o L2 A C T _

theorem executeCallbacks_mid_pending (L1 : List PObj) (o : PObj) (L2 : List PObj)
    (A : List (List JVal)) (C : List Int) (T : List Task) (ho : o.state = .pending) :
    executeCallbacks L1.length ⟨L1 ++ o :: L2, A, C, T⟩ = ⟨L1 ++ o :: L2, A, C, T⟩ :=
  executeCallbacks_pending L1.length _ (by
    rw [stateOf, show (⟨L1 ++ o :: L2, A, C, T⟩ : Machine).pobj L1.length = o
          from getD_append_length L1 o L2 ({} : PObj)]
    exact ho)

/-- `then` called on the pending promise at an exposed middle position of
the heap: the downstream promise `d` is appended at the end, one callback is
pushed on each queue, and `#executeCallbacks` does nothing. -/
theorem thenOn_mid (q d : Nat) (f g : JVal) (L1 : List PObj) (o : PObj) (L2 : List PObj)
    (A : List (List JVal)) (C : List Int) (T : List Task)
    (hq : L1.length = q) (hd : L1.length + L2.length + 1 = d) (ho : o.state = .pending) :
    thenOn q f g ⟨L1 ++ o :: L2, A, C, T⟩
      = (⟨L1 ++ (⟨o.state, o.value, o.thenCallbacks ++ [⟨f, d⟩],
                  o.catchCallbacks ++ [⟨g, d⟩]⟩ : PObj) :: (L2 ++ [({} : PObj)]),
          A, C, T⟩, d) := by
  subst hq
  subst hd
  rw [thenOn_eq]
  rw [show (allocPromise (⟨L1 ++ o :: L2, A, C, T⟩ : Machine)).2
        = L1.length + L2.length + 1 from by
      rw [allocPromise_snd]
      show (L1 ++ o :: L2).length = L1.length + L2.length + 1
      rw [List.length_append, List.length_cons]
      omega]
  rw [show (allocPromise (⟨L1 ++ o :: L2, A, C, T⟩ : Machine)).1
        = ⟨L1 ++ o :: (L2 ++ [({} : PObj)]), A, C, T⟩ from by
      rw [allocPromise_fst]
      show (⟨(L1 ++ o :: L2) ++ [({} : PObj)], A, C, T⟩ : Machine) = _
      simp]
  rw [pushThenCb_mid, pushCatchCb_mid]
  dsimp only
  rw [executeCallbacks_mid_pending L1
      (⟨o.state, o.value, o.thenCallbacks ++ [Cb.mk f (L1.length + L2.length + 1)],
        o.catchCallbacks ++ [Cb.mk g (L1.length + L2.length + 1)]⟩ : PObj)
      (L2 ++ [({} : PObj)]) A C T ho]

/-- `allLoop` steps an exposed promise element by two `then` calls. -/
theorem allLoop_cons_promise (q : Nat) (rest : List JVal) (i n cnt res p : Nat) (m : Machine) :
    allLoop (.promiseRef q :: rest) i n cnt res p m
      = allLoop rest (i + 1) n cnt res p
          (thenOn (thenOn q (.fn (.allOnFul cnt res i n p)) .undef m).2 .undef
             (.fn (.rejectCap p)) (thenOn q (.fn (.allOnFul cnt res i n p)) .undef m).1).1 := by
  simp only [allLoop, thenOn_eq]

/-- One iteration of the `all` loop over future `j`: future `j` gets its
two subscription callbacks, and the chain promises `d_j`, `e_j` are
allocated at the end of the heap. -/
theorem allLoop_step (k c j : Nat) (Fdone DEdone : List PObj) (A : List (List JVal))
    (C : List Int) (T : List Task)
    (hk : j + (c + 1) = k) (hF : Fdone.length = j) (hDE : DEdone.length = 2 * j) :
    (thenOn (thenOn j (.fn (.allOnFul 0 0 j k k)) .undef
        ⟨Fdone ++ List.replicate (c + 1) ({} : PObj) ++ ({} : PObj) :: DEdone, A, C, T⟩).2
        .undef (.fn (.rejectCap k))
        (thenOn j (.fn (.allOnFul 0 0 j k k)) .undef
        ⟨Fdone ++ List.replicate (c + 1) ({} : PObj) ++ ({} : PObj) :: DEdone, A, C, T⟩).1).1
      = ⟨(Fdone ++ [aF0 k j]) ++ List.replicate c ({} : PObj)
           ++ ({} : PObj) :: (DEdone ++ [aD0 k j, ({} : PObj)]), A, C, T⟩ := by
  subst hF
  have hm : (⟨Fdone ++ List.replicate (c + 1) ({} : PObj) ++ ({} : PObj) :: DEdone,
        A, C, T⟩ : Machine)
      = ⟨Fdone ++ ({} : PObj)
          :: (List.replicate c ({} : PObj) ++ ({} : PObj) :: DEdone), A, C, T⟩ := by
    rw [List.replicate_succ]
    simp
  rw [hm]
  have ht1 : thenOn Fdone.length (.fn (.allOnFul 0 0 Fdone.length k k)) .undef
        ⟨Fdone ++ ({} : PObj)
          :: (List.replicate c ({} : PObj) ++ ({} : PObj) :: DEdone), A, C, T⟩
      = (⟨Fdone ++ aF0 k Fdone.length
            :: (List.replicate c ({} : PObj) ++ ({} : PObj) :: (DEdone ++ [({} : PObj)])),
          A, C, T⟩, k + 1 + 2 * Fdone.length) := by
    rw [thenOn_mid Fdone.length (k + 1 + 2 * Fdone.length)
        (.fn (.allOnFul 0 0 Fdone.length k k)) .undef Fdone ({} : PObj)
        (List.replicate c ({} : PObj) ++ ({} : PObj) :: DEdone) A C T rfl
        (by simp [hDE]; omega) rfl]
    simp [aF0, List.append_assoc]
  rw [ht1]
  dsimp only
  have ht2 : thenOn (k + 1 + 2 * Fdone.length) .undef (.fn (.rejectCap k))
        ⟨Fdone ++ aF0 k Fdone.length
            :: (List.replicate c ({} : PObj) ++ ({} : PObj) :: (DEdone ++ [({} : PObj)])),
          A, C, T⟩
      = (⟨Fdone ++ aF0 k Fdone.length
            :: (List.replicate c ({} : PObj) ++ ({} : PObj)
                :: (DEdone ++ [aD0 k Fdone.length, ({} : PObj)])), A, C, T⟩,
         k + 2 + 2 * Fdone.length) := by
    rw [show (⟨Fdone ++ aF0 k Fdone.length
            :: (List.replicate c ({} : PObj) ++ ({} : PObj) :: (DEdone ++ [({} : PObj)])),
          A, C, T⟩ : Machine)
        = ⟨(Fdone ++ aF0 k Fdone.length
              :: (List.replicate c ({} : PObj) ++ ({} : PObj) :: DEdone))
            ++ ({} : PObj) :: ([] : List PObj), A, C, T⟩ from by simp]
    rw [thenOn_mid (k + 1 + 2 * Fdone.length) (k + 2 + 2 * Fdone.length) .undef
        (.fn (.rejectCap k))
        (Fdone ++ aF0 k Fdone.length
          :: (List.replicate c ({} : PObj) ++ ({} : PObj) :: DEdone)) ({} : PObj)
        ([] : List PObj) A C T (by simp [hDE]; omega) (by simp [hDE]; omega) rfl]
    simp [aD0, List.append_assoc]
  rw [ht2]
  simp [List.append_assoc]

/-- The `all` loop over a future-only reference list, from any loop index. -/
theorem allLoop_refVals (k : Nat) : ∀ (c j : Nat) (Fdone DEdone : List PObj)
    (A : List (List JVal)) (C : List Int) (T : List Task),
    j + c = k → Fdone.length = j → DEdone.length = 2 * j →
    allLoop (refVals j c) j k 0 0 k
        ⟨Fdone ++ List.replicate c ({} : PObj) ++ ({} : PObj) :: DEdone, A, C, T⟩
      = ⟨Fdone ++ aFBlock0 k j c ++ ({} : PObj) :: (DEdone ++ aDEBlock k j c),
         A, C, T⟩ := by
  intro c
  induction c with
  | zero =>
    intro j Fdone DEdone A C T _ _ _
    show (⟨Fdone ++ List.replicate 0 ({} : PObj) ++ ({} : PObj) :: DEdone, A, C, T⟩ : Machine)
        = _
    simp [aFBlock0, aDEBlock]
  | succ c ih =>
    intro j Fdone DEdone A C T hk hF hDE
    rw [refVals_cons, allLoop_cons_promise,
        allLoop_step k c j Fdone DEdone A C T hk hF hDE,
        ih (j + 1) (Fdone ++ [aF0 k j]) (DEdone ++ [aD0 k j, ({} : PObj)]) A C T
          (by omega) (by simp [hF]) (by simp [hDE]; omega)]
    simp [aFBlock0, aDEBlock, List.append_assoc]

/-! Unfolding equations for the block builders (all definitional). -/

theorem aFBlock0_cons (k j c : Nat) : aFBlock0 k j (c + 1) = aF0 k j :: aFBlock0 k (j + 1) c := rfl

theorem aFBlock1_cons (k j : Nat) (b : Bool × JVal) (bs : List (Bool × JVal)) :
    aFBlock1 k j (b :: bs) = aF1 k j b :: aFBlock1 k (j + 1) bs := rfl

theorem aDEBlock_cons (k j c : Nat) :
    aDEBlock k j (c + 1) = aD0 k j :: ({} : PObj) :: aDEBlock k (j + 1) c := rfl

theorem aDEBlock1_cons (k j : Nat) (b : Bool × JVal) (bs : List (Bool × JVal)) :
    aDEBlock1 k j (b :: bs) = aD1 k j b :: ({} : PObj) :: aDEBlock1 k (j + 1) bs := rfl

theorem dTasks_cons (k j : Nat) (b : Bool × JVal) (bs : List (Bool × JVal)) :
    dTasks k j (b :: bs)
      = (if b.1 then Task.rejectTask (k + 1 + 2 * j) b.2
         else Task.fulfillTask (k + 1 + 2 * j) .undef) :: dTasks k (j + 1) bs := rfl

theorem eTasks_cons (k j : Nat) (b : Bool × JVal) (bs : List (Bool × JVal)) :
    eTasks k j (b :: bs)
      = (if b.1 then [Task.rejectTask k b.2, Task.fulfillTask (k + 2 + 2 * j) .undef]
         else [Task.fulfillTask (k + 2 + 2 * j) .undef]) ++ eTasks k (j + 1) bs := rfl

theorem gen1Arr_cons (j : Nat) (b : Bool × JVal) (bs : List (Bool × JVal)) (A : List JVal) :
    gen1Arr j (b :: bs) A = gen1Arr (j + 1) bs (if b.1 then A else setPad A j b.2) := rfl

theorem fulCount_cons (b : Bool × JVal) (bs : List (Bool × JVal)) :
    fulCount (b :: bs) = if b.1 then fulCount bs else fulCount bs + 1 := rfl

theorem fulCount_nonneg : ∀ (bs : List (Bool × JVal)), 0 ≤ fulCount bs := by
  intro bs
  induction bs with
  | nil => exact le_refl 0
  | cons b bs ih =>
    rw [fulCount_cons]
    split
    · exact ih
    · omega

theorem refVals_length : ∀ (c j : Nat), (refVals j c).length = c := by
  intro c
  induction c with
  | zero => intro j; rfl
  | succ c ih =>
    intro j
    rw [refVals_cons, List.length_cons, ih (j + 1)]

theorem all_eq (vs : List JVal) (m : Machine) :
    all vs m
      = (allLoop vs 0 vs.length (allocCounter m).2 (allocArray (allocCounter m).1).2
           (allocPromise (allocArray (allocCounter m).1).1).2
           (allocPromise (allocArray (allocCounter m).1).1).1,
         (allocPromise (allocArray (allocCounter m).1).1).2) := rfl

/-- The machine right after `Promize.all` returns on a future-only input
evaluated on the empty machine: the futures carry their subscriptions, `P`
sits at index `k`, each chain pair `d_j`, `e_j` follows, and only the
settlement tasks are queued. -/
theorem all_setup (fs : List (Bool × JVal)) :
    all (mkFutures (futureItems fs) emptyM).2 (mkFutures (futureItems fs) emptyM).1
      = (⟨aFBlock0 fs.length 0 fs.length ++ ({} : PObj) :: aDEBlock fs.length 0 fs.length,
          [[]], [0], settleTasks 0 fs⟩, fs.length) := by
  rw [show (emptyM : Machine) = ⟨[], [], [], []⟩ from rfl,
      mkFutures_futureItems fs 0 [] [] [] [] rfl]
  dsimp only
  rw [show (⟨([] : List PObj) ++ List.replicate fs.length ({} : PObj), [], [],
        ([] : List Task) ++ settleTasks 0 fs⟩ : Machine)
      = ⟨List.replicate fs.length ({} : PObj), [], [], settleTasks 0 fs⟩ from by simp]
  rw [all_eq]
  dsimp only [allocCounter, allocArray, allocPromise]
  simp only [List.length_replicate, List.nil_append, refVals_length, List.length_nil]
  rw [show (⟨List.replicate fs.length ({} : PObj) ++ [({} : PObj)], [[]], [0],
        settleTasks 0 fs⟩ : Machine)
      = ⟨([] : List PObj) ++ List.replicate fs.length ({} : PObj)
          ++ ({} : PObj) :: ([] : List PObj), [[]], [0], settleTasks 0 fs⟩ from by simp]
  rw [allLoop_refVals fs.length fs.length 0 [] [] [[]] [0] (settleTasks 0 fs)
      (by omega) rfl rfl]
  simp

theorem runTasks_cons_lit (fuel : Nat) (P : List PObj) (A : List (List JVal)) (C : List Int)
    (t : Task) (rest : List Task) :
    runTasks (fuel + 1) ⟨P, A, C, t :: rest⟩ = runTasks fuel (runTask t ⟨P, A, C, rest⟩) :=
  runTasks_cons fuel ⟨P, A, C, t :: rest⟩ t rest rfl

/-- Generation 1, one rejecting future: the settlement runs the stored
rejection callback (handler `undefined`), which forwards the reason to the
chain promise `d_j` by queueing its rejection. -/
theorem all_gen1_step_rej (k : Nat) (b : Bool × JVal) (bs : List (Bool × JVal))
    (Fdone : List PObj) (A : List JVal) (c : Int) (acc : List Task)
    (hb : b.1 = true) (hnp : isPromiseVal b.2 = false) :
    runTask (Task.rejectTask Fdone.length b.2)
        ⟨Fdone ++ aF0 k Fdone.length :: (aFBlock0 k (Fdone.length + 1) bs.length
            ++ ({} : PObj) :: aDEBlock k 0 k), [A], [c],
         settleTasks (Fdone.length + 1) bs ++ acc⟩
      = ⟨(Fdone ++ [aF1 k Fdone.length b]) ++ aFBlock0 k (Fdone.length + 1) bs.length
            ++ ({} : PObj) :: aDEBlock k 0 k, [A], [c],
         settleTasks (Fdone.length + 1) bs
           ++ (acc ++ [Task.rejectTask (k + 1 + 2 * Fdone.length) b.2])⟩ := by
  have hp : (⟨Fdone ++ aF0 k Fdone.length :: (aFBlock0 k (Fdone.length + 1) bs.length
          ++ ({} : PObj) :: aDEBlock k 0 k), [A], [c],
        settleTasks (Fdone.length + 1) bs ++ acc⟩ : Machine).pobj Fdone.length
      = ⟨.pending, .undef,
         [⟨.fn (.allOnFul 0 0 Fdone.length k k), k + 1 + 2 * Fdone.length⟩],
         [⟨.undef, k + 1 + 2 * Fdone.length⟩]⟩ :=
    getD_append_length Fdone (aF0 k Fdone.length) _ ({} : PObj)
  rw [runTask_reject_one _ _ _ _ _ hp (by simp) hnp]
  rw [runCb_undef_rej]
  simp [enqueue, set_append_length, aF1, hb, List.append_assoc]

/-- Generation 1, one fulfilling future: the settlement runs `all`'s
fulfillment handler — counter bump, array write at the element's position,
no resolution of `P` while the counter is below `n` — then queues the
fulfillment of the chain promise `d_j`. -/
theorem all_gen1_step_ful (k : Nat) (b : Bool × JVal) (bs : List (Bool × JVal))
    (Fdone : List PObj) (A : List JVal) (c : Int) (acc : List Task)
    (hb : b.1 = false) (hnp : isPromiseVal b.2 = false)
    (hcnt : ¬ (c + 1 = (k : Int))) :
    runTask (Task.fulfillTask Fdone.length b.2)
        ⟨Fdone ++ aF0 k Fdone.length :: (aFBlock0 k (Fdone.length + 1) bs.length
            ++ ({} : PObj) :: aDEBlock k 0 k), [A], [c],
         settleTasks (Fdone.length + 1) bs ++ acc⟩
      = ⟨(Fdone ++ [aF1 k Fdone.length b]) ++ aFBlock0 k (Fdone.length + 1) bs.length
            ++ ({} : PObj) :: aDEBlock k 0 k, [setPad A Fdone.length b.2], [c + 1],
         settleTasks (Fdone.length + 1) bs
           ++ (acc ++ [Task.fulfillTask (k + 1 + 2 * Fdone.length) .undef])⟩ := by
  have hp : (⟨Fdone ++ aF0 k Fdone.length :: (aFBlock0 k (Fdone.length + 1) bs.length
          ++ ({} : PObj) :: aDEBlock k 0 k), [A], [c],
        settleTasks (Fdone.length + 1) bs ++ acc⟩ : Machine).pobj Fdone.length
      = ⟨.pending, .undef,
         [⟨.fn (.allOnFul 0 0 Fdone.length k k), k + 1 + 2 * Fdone.length⟩],
         [⟨.undef, k + 1 + 2 * Fdone.length⟩]⟩ :=
    getD_append_length Fdone (aF0 k Fdone.length) _ ({} : PObj)
  rw [runTask_fulfill_one _ _ _ _ _ hp (by simp) hnp]
  rw [runCb_allOnFul, applyFn_allOnFul_m]
  split
  · rename_i hcond
    exact absurd (show c + 1 = (k : Int) from hcond) hcnt
  · simp [enqueue, setArr, incCounter, getArr, set_append_length, aF1, hb,
      List.append_assoc]

/-- Generation 1 of `all` over a future-only input: while the counter
cannot reach `n`, each settlement task settles its future, records any
fulfillment value in the shared array, bumps the counter for fulfillments,
and queues one settlement task for its chain promise `d_j`. -/
theorem all_gen1 (k : Nat) : ∀ (todo : List (Bool × JVal)) (j : Nat) (Fdone : List PObj)
    (A : List JVal) (c : Int) (acc : List Task),
    Fdone.length = j →
    c + fulCount todo < (k : Int) →
    (∀ b ∈ todo, isPromiseVal b.2 = false) →
    runTasks todo.length
        ⟨Fdone ++ aFBlock0 k j todo.length ++ ({} : PObj) :: aDEBlock k 0 k,
         [A], [c], settleTasks j todo ++ acc⟩
      = ⟨Fdone ++ aFBlock1 k j todo ++ ({} : PObj) :: aDEBlock k 0 k,
         [gen1Arr j todo A], [c + fulCount todo], acc ++ dTasks k j todo⟩ := by
  intro todo
  induction todo with
  | nil =>
    intro j Fdone A c acc _ _ _
    show (⟨Fdone ++ aFBlock0 k j 0 ++ ({} : PObj) :: aDEBlock k 0 k, [A], [c],
        settleTasks j [] ++ acc⟩ : Machine) = _
    simp [aFBlock0, aFBlock1, gen1Arr, fulCount, dTasks, settleTasks]
  | cons b bs ih =>
    intro j Fdone A c acc hF hcnt hnp
    subst hF
    rw [show (b :: bs).length = bs.length + 1 from rfl,
        settleTasks_cons, aFBlock0_cons,
        List.append_assoc Fdone
          (aF0 k Fdone.length :: aFBlock0 k (Fdone.length + 1) bs.length)
          (({} : PObj) :: aDEBlock k 0 k),
        List.cons_append (aF0 k Fdone.length) (aFBlock0 k (Fdone.length + 1) bs.length)
          (({} : PObj) :: aDEBlock k 0 k),
        List.cons_append]
    by_cases hb : b.1 = true
    · rw [if_pos hb,
          runTasks_cons_lit bs.length _ _ _ _ _,
          all_gen1_step_rej k b bs Fdone A c acc hb (hnp b (by simp)),
          ih (Fdone.length + 1) (Fdone ++ [aF1 k Fdone.length b]) A c
            (acc ++ [Task.rejectTask (k + 1 + 2 * Fdone.length) b.2]) (by simp)
            (by rw [fulCount_cons, if_pos hb] at hcnt; exact hcnt)
            (fun b' hb' => hnp b' (by simp [hb']))]
      simp [aFBlock1_cons, gen1Arr_cons, fulCount_cons, dTasks_cons, hb,
        List.append_assoc]
    · have hb2 : b.1 = false := by simpa using hb
      rw [if_neg hb,
          runTasks_cons_lit bs.length _ _ _ _ _,
          all_gen1_step_ful k b bs Fdone A c acc hb2 (hnp b (by simp))
            (by have h0 := fulCount_nonneg bs
                rw [fulCount_cons, if_neg hb] at hcnt
                omega),
          ih (Fdone.length + 1) (Fdone ++ [aF1 k Fdone.length b])
            (setPad A Fdone.length b.2) (c + 1)
            (acc ++ [Task.fulfillTask (k + 1 + 2 * Fdone.length) .undef]) (by simp)
            (by rw [fulCount_cons, if_neg hb] at hcnt
                omega)
            (fun b' hb' => hnp b' (by simp [hb']))]
      simp [aFBlock1_cons, gen1Arr_cons, fulCount_cons, dTasks_cons, hb2,
        List.append_assoc]
      omega

/-! Block lengths. -/

theorem aFBlock1_length (k : Nat) : ∀ (bs : List (Bool × JVal)) (j : Nat),
    (aFBlock1 k j bs).length = bs.length := by
  intro bs
  induction bs with
  | nil => intro j; rfl
  | cons b bs ih =>
    intro j
    rw [aFBlock1_cons, List.length_cons, ih (j + 1), List.length_cons]

theorem aDEBlock1_length (k : Nat) : ∀ (bs : List (Bool × JVal)) (j : Nat),
    (aDEBlock1 k j bs).length = 2 * bs.length := by
  intro bs
  induction bs with
  | nil => intro j; rfl
  | cons b bs ih =>
    intro j
    rw [aDEBlock1_cons, List.length_cons, List.length_cons, ih (j + 1), List.length_cons]
    omega

theorem eTasks_length_le (k : Nat) : ∀ (bs : List (Bool × JVal)) (j : Nat),
    (eTasks k j bs).length ≤ 2 * bs.length := by
  intro bs
  induction bs with
  | nil => intro j; exact Nat.le_refl 0
  | cons b bs ih =>
    intro j
    rw [eTasks_cons]
    have h := ih (j + 1)
    by_cases hb : b.1 = true
    · rw [if_pos hb]
      simp only [List.length_append, List.length_cons]
      simp
      omega
    · rw [if_neg hb]
      simp only [List.length_append, List.length_cons]
      simp
      omega

theorem fulCount_le_length : ∀ (bs : List (Bool × JVal)), fulCount bs ≤ (bs.length : Int) := by
  intro bs
  induction bs with
  | nil => rw [show fulCount [] = 0 from rfl]; simp
  | cons b bs ih =>
    rw [fulCount_cons, List.length_cons]
    split
    · omega
    · omega

theorem firstRejReason_cons (b : Bool × JVal) (bs : List (Bool × JVal)) :
    firstRejReason (b :: bs) = if b.1 then some b.2 else firstRejReason bs := rfl

theorem fulCount_lt_of_reject : ∀ (bs : List (Bool × JVal)) (r : JVal),
    firstRejReason bs = some r → fulCount bs < (bs.length : Int) := by
  intro bs
  induction bs with
  | nil => intro r h; cases h
  | cons b bs ih =>
    intro r h
    rw [firstRejReason_cons] at h
    rw [fulCount_cons, List.length_cons]
    by_cases hb : b.1 = true
    · rw [if_pos hb]
      have := fulCount_le_length bs
      omega
    · rw [if_neg hb]
      rw [if_neg hb] at h
      have := ih r h
      omega

/-! Generation 2 of `all`: settling the chain promises `d_j`. -/

/-- A fulfilled chain: `d_j` settles fulfilled, its stored fulfillment
callback (handler `undefined`) forwards to `e_j`. -/
theorem all_gen2_step_ful (k j : Nat) (Pre DE : List PObj) (Ar : List (List JVal))
    (C : List Int) (T : List Task) (hPre : Pre.length = k + 1 + 2 * j) :
    runTask (Task.fulfillTask (k + 1 + 2 * j) .undef)
        ⟨Pre ++ aD0 k j :: ({} : PObj) :: DE, Ar, C, T⟩
      = ⟨(Pre ++ [(⟨.fulfilled, .undef, [],
            [⟨.fn (.rejectCap k), k + 2 + 2 * j⟩]⟩ : PObj), ({} : PObj)]) ++ DE, Ar, C,
         T ++ [Task.fulfillTask (k + 2 + 2 * j) .undef]⟩ := by
  rw [show k + 1 + 2 * j = Pre.length from hPre.symm]
  have hp : (⟨Pre ++ aD0 k j :: ({} : PObj) :: DE, Ar, C, T⟩ : Machine).pobj Pre.length
      = ⟨.pending, .undef, [⟨.undef, k + 2 + 2 * j⟩],
         [⟨.fn (.rejectCap k), k + 2 + 2 * j⟩]⟩ :=
    getD_append_length Pre (aD0 k j) _ ({} : PObj)
  rw [runTask_fulfill_one _ _ JVal.undef _ _ hp (by simp) rfl]
  rw [runCb_undef_ful]
  simp [enqueue, set_append_length, List.append_assoc]

/-- A rejected chain: `d_j` settles rejected, its stored rejection callback
(the `reject` capability of `P`) queues the deferred rejection of `P`, then
forwards to `e_j`. -/
theorem all_gen2_step_rej (k j : Nat) (r : JVal) (Pre DE : List PObj)
    (Ar : List (List JVal)) (C : List Int) (T : List Task)
    (hPre : Pre.length = k + 1 + 2 * j) (hnp : isPromiseVal r = false) :
    runTask (Task.rejectTask (k + 1 + 2 * j) r)
        ⟨Pre ++ aD0 k j :: ({} : PObj) :: DE, Ar, C, T⟩
      = ⟨(Pre ++ [(⟨.rejected, r, [⟨.undef, k + 2 + 2 * j⟩], []⟩ : PObj), ({} : PObj)]) ++ DE,
         Ar, C, T ++ [Task.rejectTask k r, Task.fulfillTask (k + 2 + 2 * j) .undef]⟩ := by
  rw [show k + 1 + 2 * j = Pre.length from hPre.symm]
  have hp : (⟨Pre ++ aD0 k j :: ({} : PObj) :: DE, Ar, C, T⟩ : Machine).pobj Pre.length
      = ⟨.pending, .undef, [⟨.undef, k + 2 + 2 * j⟩],
         [⟨.fn (.rejectCap k), k + 2 + 2 * j⟩]⟩ :=
    getD_append_length Pre (aD0 k j) _ ({} : PObj)
  rw [runTask_reject_one _ _ _ _ _ hp (by simp) hnp]
  rw [runCb_rejectCapHandler]
  simp [enqueue, set_append_length, List.append_assoc]

/-- Generation 2 of `all` in the mixed case: each `d_j` settles like its
future, rejected chains queue a rejection of `P` followed by `e_j`'s
fulfillment, fulfilled chains only the latter. -/
theorem all_gen2 (k : Nat) : ∀ (todo : List (Bool × JVal)) (j : Nat) (Pre : List PObj)
    (Ar : List (List JVal)) (C : List Int) (acc : List Task),
    Pre.length = k + 1 + 2 * j →
    (∀ b ∈ todo, isPromiseVal b.2 = false) →
    runTasks todo.length ⟨Pre ++ aDEBlock k j todo.length, Ar, C, dTasks k j todo ++ acc⟩
      = ⟨Pre ++ aDEBlock1 k j todo, Ar, C, acc ++ eTasks k j todo⟩ := by
  intro todo
  induction todo with
  | nil =>
    intro j Pre Ar C acc _ _
    show (⟨Pre ++ aDEBlock k j 0, Ar, C, dTasks k j [] ++ acc⟩ : Machine) = _
    simp [aDEBlock, aDEBlock1, dTasks, eTasks]
  | cons b bs ih =>
    intro j Pre Ar C acc hPre hnp
    rw [show (b :: bs).length = bs.length + 1 from rfl, dTasks_cons, aDEBlock_cons]
    by_cases hb : b.1 = true
    · rw [if_pos hb, List.cons_append,
          runTasks_cons_lit bs.length _ _ _ _ _,
          all_gen2_step_rej k j b.2 Pre (aDEBlock k (j + 1) bs.length) Ar C
            (dTasks k (j + 1) bs ++ acc) hPre (hnp b (by simp)),
          List.append_assoc (dTasks k (j + 1) bs) acc
            [Task.rejectTask k b.2, Task.fulfillTask (k + 2 + 2 * j) .undef],
          ih (j + 1)
            (Pre ++ [(⟨.rejected, b.2, [⟨.undef, k + 2 + 2 * j⟩], []⟩ : PObj), ({} : PObj)])
            Ar C
            (acc ++ [Task.rejectTask k b.2, Task.fulfillTask (k + 2 + 2 * j) .undef])
            (by simp [hPre]; omega)
            (fun b' hb' => hnp b' (by simp [hb']))]
      simp [aDEBlock1_cons, eTasks_cons, aD1, hb, List.append_assoc]
    · rw [if_neg hb, List.cons_append,
          runTasks_cons_lit bs.length _ _ _ _ _,
          all_gen2_step_ful k j Pre (aDEBlock k (j + 1) bs.length) Ar C
            (dTasks k (j + 1) bs ++ acc) hPre,
          List.append_assoc (dTasks k (j + 1) bs) acc
            [Task.fulfillTask (k + 2 + 2 * j) .undef],
          ih (j + 1)
            (Pre ++ [(⟨.fulfilled, .undef, [],
               [⟨.fn (.rejectCap k), k + 2 + 2 * j⟩]⟩ : PObj), ({} : PObj)])
            Ar C (acc ++ [Task.fulfillTask (k + 2 + 2 * j) .undef])
            (by simp [hPre]; omega)
            (fun b' hb' => hnp b' (by simp [hb']))]
      simp [aDEBlock1_cons, eTasks_cons, aD1, hb, List.append_assoc]

theorem getD_append_right2 {α : Type} (L L' : List α) (d : α) (n : Nat) :
    (L ++ L').getD (L.length + n) d = L'.getD n d := by
  simp only [List.getD, List.get?_eq_getElem?]
  rw [List.getElem?_append_right (by omega),
      show L.length + n - L.length = n from by omega]

theorem aDEBlock1_getD_odd (k : Nat) : ∀ (bs : List (Bool × JVal)) (j i : Nat),
    i < bs.length →
    (aDEBlock1 k j bs).getD (2 * i + 1) ({} : PObj) = ({} : PObj) := by
  intro bs
  induction bs with
  | nil => intro j i h; cases h
  | cons b bs ih =>
    intro j i h
    rw [aDEBlock1_cons]
    cases i with
    | zero => rfl
    | succ i =>
      rw [show 2 * (i + 1) + 1 = (2 * i + 1) + 1 + 1 from by omega,
          List.getD_cons_succ, List.getD_cons_succ]
      exact ih (j + 1) i (by simpa using h)

theorem firstFor_cons (q : Nat) (t : Task) (ts : List Task) :
    firstFor q (t :: ts) = if taskTarget t = q then some t else firstFor q ts := rfl

/-- Shape of the generation-3 queue of `all`: deferred rejections of `P`
from the rejected chains, and `e_j` settlements. -/
theorem eTasks_mem (k : Nat) : ∀ (bs : List (Bool × JVal)) (j : Nat) (t : Task),
    t ∈ eTasks k j bs →
    (∃ b, b ∈ bs ∧ b.1 = true ∧ t = Task.rejectTask k b.2) ∨
    (∃ i, j ≤ i ∧ i < j + bs.length ∧ t = Task.fulfillTask (k + 2 + 2 * i) .undef) := by
  intro bs
  induction bs with
  | nil => intro j t h; cases h
  | cons b bs ih =>
    intro j t h
    rw [eTasks_cons] at h
    by_cases hb : b.1 = true
    · rw [if_pos hb] at h
      rcases List.mem_append.mp h with h1 | h2
      · simp only [List.mem_cons, List.mem_singleton, List.not_mem_nil, or_false] at h1
        rcases h1 with rfl | rfl
        · exact Or.inl ⟨b, by simp, hb, rfl⟩
        · exact Or.inr ⟨j, le_refl j, by simp, rfl⟩
      · rcases ih (j + 1) t h2 with ⟨b', hmem, hb', ht⟩ | ⟨i, hi1, hi2, ht⟩
        · exact Or.inl ⟨b', by simp [hmem], hb', ht⟩
        · exact Or.inr ⟨i, by omega, by simp only [List.length_cons]; omega, ht⟩
    · rw [if_neg hb] at h
      rcases List.mem_append.mp h with h1 | h2
      · simp only [List.mem_singleton] at h1
        exact Or.inr ⟨j, le_refl j, by simp, h1⟩
      · rcases ih (j + 1) t h2 with ⟨b', hmem, hb', ht⟩ | ⟨i, hi1, hi2, ht⟩
        · exact Or.inl ⟨b', by simp [hmem], hb', ht⟩
        · exact Or.inr ⟨i, by omega, by simp only [List.length_cons]; omega, ht⟩

/-- The first task in the generation-3 queue that targets `P` is the
deferred rejection carrying the first rejecting element's reason. -/
theorem firstFor_eTasks (k : Nat) : ∀ (bs : List (Bool × JVal)) (j : Nat) (r : JVal),
    firstRejReason bs = some r →
    firstFor k (eTasks k j bs) = some (Task.rejectTask k r) := by
  intro bs
  induction bs with
  | nil => intro j r h; cases h
  | cons b bs ih =>
    intro j r h
    rw [firstRejReason_cons] at h
    rw [eTasks_cons]
    by_cases hb : b.1 = true
    · rw [if_pos hb] at h
      have h2 : r = b.2 := by
        injection h with hx
        exact hx.symm
      subst h2
      rw [if_pos hb, List.cons_append, firstFor_cons,
          if_pos (show taskTarget (Task.rejectTask k b.2) = k from rfl)]
    · rw [if_neg hb] at h
      rw [if_neg hb, List.singleton_append, firstFor_cons,
          if_neg (show ¬ taskTarget (Task.fulfillTask (k + 2 + 2 * j) .undef) = k from by
            show ¬ (k + 2 + 2 * j = k)
            omega)]
      exact ih (j + 1) r h

theorem futureItems_length (fs : List (Bool × JVal)) :
    (futureItems fs).length = fs.length := by
  simp [futureItems]

theorem allScen_eq (items : List AItem) :
    allScen items
      = (runTasks (8 * items.length + 8)
           (all (mkFutures items emptyM).2 (mkFutures items emptyM).1).1,
         (all (mkFutures items emptyM).2 (mkFutures items emptyM).1).2) := rfl

/-- The returned promise of the `allScen` scenario is `P = k`. -/
theorem allScen_snd (fs : List (Bool × JVal)) :
    (allScen (futureItems fs)).2 = fs.length := by
  rw [allScen_eq]
  dsimp only
  rw [all_setup fs]

/-- A settled promise keeps its state and value across any queue drain. -/
theorem settled_preserve_pair (n : Nat) (M : Machine) (p : Nat) (st : PState) (v : JVal)
    (h1 : stateOf M p = st) (h2 : valueOf M p = v) (hst : st ≠ .pending) :
    stateOf (runTasks n M) p = st ∧ valueOf (runTasks n M) p = v := by
  have h := runTasks_preserves_settled n M p (by rw [h1]; exact hst)
  exact ⟨by rw [h.1, h1], by rw [h.2, h2]⟩

/-- Draining a queue of trivial tasks: the watched pending promise `q` ends
up settled by the first task that targets it. -/
theorem runTasks_trivial_drain (q : Nat) : ∀ (ts : List Task) (m : Machine),
    m.tasks = ts → (∀ t ∈ ts, trivialTask m t) →
    (∀ t ∈ ts, taskTarget t < m.promises.length) → q < m.promises.length →
    stateOf m q = .pending →
    ((∀ v, firstFor q ts = some (.fulfillTask q v) →
        stateOf (runTasks ts.length m) q = .fulfilled ∧
        valueOf (runTasks ts.length m) q = v)
  ∧ (∀ r, firstFor q ts = some (.rejectTask q r) →
        stateOf (runTasks ts.length m) q = .rejected ∧
        valueOf (runTasks ts.length m) q = r)) := by
  intro ts
  induction ts with
  | nil =>
    intro m _ _ _ _ _
    exact ⟨fun v h => (nomatch h), fun r h => (nomatch h)⟩
  | cons t rest ih =>
    intro m hts htriv htargets hlen hqpend
    have hrun : runTasks (rest.length + 1) m
        = runTasks rest.length (runTask t { m with tasks := rest }) :=
      runTasks_cons rest.length m t rest hts
    have httriv : trivialTask m t := htriv t (by simp)
    have htlen : taskTarget t < m.promises.length := htargets t (by simp)
    simp only [List.length_cons]
    by_cases hpend : stateOf m (taskTarget t) = .pending
    · -- The head task settles its own target.
      cases t with
      | fulfillTask pt v =>
        have httriv2 : isPromiseVal v = false ∧ thenCbsOf m pt = [] ∧ catchCbsOf m pt = [] :=
          httriv
        rcases httriv2 with ⟨hv, hth, hcc⟩
        have hstep := runTask_trivial_fulfill { m with tasks := rest } pt v hpend hth hcc htlen hv
        rw [hrun, hstep]
        by_cases hptq : pt = q
        · subst hptq
          refine ⟨fun v' hff => ?_, fun r' hff => ?_⟩ <;>
            rw [show firstFor pt (Task.fulfillTask pt v :: rest)
                  = some (.fulfillTask pt v) from by simp [firstFor, taskTarget]] at hff
          · cases hff
            exact settled_preserve_pair rest.length _ pt .fulfilled v
              (by show ((m.promises.set pt
                      (⟨.fulfilled, v, [], []⟩ : PObj)).getD pt ({} : PObj)).state
                    = PState.fulfilled
                  rw [getD_set_lemma, if_pos ⟨rfl, hlen⟩])
              (by show ((m.promises.set pt
                      (⟨.fulfilled, v, [], []⟩ : PObj)).getD pt ({} : PObj)).value = v
                  rw [getD_set_lemma, if_pos ⟨rfl, hlen⟩])
              (fun e => by cases e)
          · cases hff
        · have hffstep : ∀ t0, firstFor q (Task.fulfillTask pt v :: rest) = t0 →
              firstFor q rest = t0 := by
            intro t0 h
            rw [show firstFor q (Task.fulfillTask pt v :: rest)
                  = if taskTarget (Task.fulfillTask pt v) = q
                    then some (Task.fulfillTask pt v) else firstFor q rest from rfl,
                if_neg (show ¬ taskTarget (Task.fulfillTask pt v) = q from hptq)] at h
            exact h
          refine ⟨fun v' hff => (ih _ rfl ?_ ?_ ?_ ?_).1 v' (hffstep _ hff),
                  fun r' hff => (ih _ rfl ?_ ?_ ?_ ?_).2 r' (hffstep _ hff)⟩ <;>
          · first
            | -- triviality of the remaining tasks
              (intro t' ht'
               have h0 := htriv t' (by simp [ht'])
               cases t' with
               | fulfillTask p' v' =>
                 have h0f : isPromiseVal v' = false ∧ thenCbsOf m p' = [] ∧
                     catchCbsOf m p' = [] := h0
                 exact ⟨h0f.1, cbs_after_set { m with tasks := rest } pt _ p'
                          h0f.2.1 h0f.2.2 rfl rfl⟩
               | rejectTask p' r' =>
                 have h0r : isPromiseVal r' = false ∧ thenCbsOf m p' = [] ∧
                     catchCbsOf m p' = [] := h0
                 exact ⟨h0r.1, cbs_after_set { m with tasks := rest } pt _ p'
                          h0r.2.1 h0r.2.2 rfl rfl⟩)
            | -- targets stay in range
              (intro t' ht'
               show taskTarget t' < (m.promises.set pt (⟨.fulfilled, v, [], []⟩ : PObj)).length
               simpa using htargets t' (by simp [ht']))
            | -- the watched promise stays in range
              (show q < (m.promises.set pt (⟨.fulfilled, v, [], []⟩ : PObj)).length
               simpa using hlen)
            | -- the watched promise stays pending
              (show ((m.promises.set pt
                    (⟨.fulfilled, v, [], []⟩ : PObj)).getD q ({} : PObj)).state = PState.pending
               rw [getD_set_lemma, if_neg (fun hand => hptq hand.1.symm)]
               exact hqpend)
      | rejectTask pt r =>
        have httriv2 : isPromiseVal r = false ∧ thenCbsOf m pt = [] ∧ catchCbsOf m pt = [] :=
          httriv
        rcases httriv2 with ⟨hv, hth, hcc⟩
        have hstep := runTask_trivial_reject { m with tasks := rest } pt r hpend hth hcc htlen hv
        rw [hrun, hstep]
        by_cases hptq : pt = q
        · subst hptq
          refine ⟨fun v' hff => ?_, fun r' hff => ?_⟩ <;>
            rw [show firstFor pt (Task.rejectTask pt r :: rest)
                  = some (.rejectTask pt r) from by simp [firstFor, taskTarget]] at hff
          · cases hff
          · cases hff
            exact settled_preserve_pair rest.length _ pt .rejected r
              (by show ((m.promises.set pt
                      (⟨.rejected, r, [], []⟩ : PObj)).getD pt ({} : PObj)).state
                    = PState.rejected
                  rw [getD_set_lemma, if_pos ⟨rfl, hlen⟩])
              (by show ((m.promises.set pt
                      (⟨.rejected, r, [], []⟩ : PObj)).getD pt ({} : PObj)).value = r
                  rw [getD_set_lemma, if_pos ⟨rfl, hlen⟩])
              (fun e => by cases e)
        · have hffstep : ∀ t0, firstFor q (Task.rejectTask pt r :: rest) = t0 →
              firstFor q rest = t0 := by
            intro t0 h
            rw [show firstFor q (Task.rejectTask pt r :: rest)
                  = if taskTarget (Task.rejectTask pt r) = q
                    then some (Task.rejectTask pt r) else firstFor q rest from rfl,
                if_neg (show ¬ taskTarget (Task.rejectTask pt r) = q from hptq)] at h
            exact h
          refine ⟨fun v' hff => (ih _ rfl ?_ ?_ ?_ ?_).1 v' (hffstep _ hff),
                  fun r' hff => (ih _ rfl ?_ ?_ ?_ ?_).2 r' (hffstep _ hff)⟩ <;>
          · first
            | (intro t' ht'
               have h0 := htriv t' (by simp [ht'])
               cases t' with
               | fulfillTask p' v' =>
                 have h0f : isPromiseVal v' = false ∧ thenCbsOf m p' = [] ∧
                     catchCbsOf m p' = [] := h0
                 exact ⟨h0f.1, cbs_after_set { m with tasks := rest } pt _ p'
                          h0f.2.1 h0f.2.2 rfl rfl⟩
               | rejectTask p' r' =>
                 have h0r : isPromiseVal r' = false ∧ thenCbsOf m p' = [] ∧
                     catchCbsOf m p' = [] := h0
                 exact ⟨h0r.1, cbs_after_set { m with tasks := rest } pt _ p'
                          h0r.2.1 h0r.2.2 rfl rfl⟩)
            | (intro t' ht'
               show taskTarget t' < (m.promises.set pt (⟨.rejected, r, [], []⟩ : PObj)).length
               simpa using htargets t' (by simp [ht']))
            | (show q < (m.promises.set pt (⟨.rejected, r, [], []⟩ : PObj)).length
               simpa using hlen)
            | (show ((m.promises.set pt
                    (⟨.rejected, r, [], []⟩ : PObj)).getD q ({} : PObj)).state = PState.pending
               rw [getD_set_lemma, if_neg (fun hand => hptq hand.1.symm)]
               exact hqpend)
    · -- The head task's target is already settled: the task is a no-op.
      have hnoop : runTask t { m with tasks := rest } = { m with tasks := rest } := by
        cases t with
        | fulfillTask pt v => exact runTask_fulfill_noop _ pt v hpend
        | rejectTask pt r => exact runTask_reject_noop _ pt r hpend
      rw [hrun, hnoop]
      have htriv2 : ∀ t' ∈ rest, trivialTask { m with tasks := rest } t' := by
        intro t' ht'
        exact htriv t' (by simp [ht'])
      have htargets2 : ∀ t' ∈ rest,
          taskTarget t' < ({ m with tasks := rest } : Machine).promises.length := by
        intro t' ht'
        exact htargets t' (by simp [ht'])
      have hrec := ih { m with tasks := rest } rfl htriv2 htargets2 hlen hqpend
      have htq : taskTarget t ≠ q := by
        intro he
        rw [he] at hpend
        exact hpend hqpend
      have hffstep : ∀ t0, firstFor q (t :: rest) = t0 → firstFor q rest = t0 := by
        intro t0 h
        rw [show firstFor q (t :: rest)
              = if taskTarget t = q then some t else firstFor q rest from by
            cases t <;> rfl,
            if_neg htq] at h
        exact h
      exact ⟨fun v' hff => hrec.1 v' (hffstep _ hff),
             fun r hff => hrec.2 r (hffstep _ hff)⟩

/-- End-to-end run of `Promize.all` over a future-only input containing a
rejecting element: the returned promise `P` ends up rejected with the first
rejecting element's reason. -/
theorem all_mixed_outcome (fs : List (Bool × JVal)) (r : JVal)
    (hnp : ∀ b ∈ fs, isPromiseVal b.2 = false)
    (hrej : firstRejReason fs = some r) :
    stateOf (allScen (futureItems fs)).1 fs.length = .rejected ∧
    valueOf (allScen (futureItems fs)).1 fs.length = r := by
  rw [allScen_eq]
  dsimp only
  rw [futureItems_length, all_setup fs]
  dsimp only
  rw [show 8 * fs.length + 8
        = fs.length + (fs.length + ((eTasks fs.length 0 fs).length
            + (8 * fs.length + 8 - fs.length - fs.length
               - (eTasks fs.length 0 fs).length)))
      from by have := eTasks_length_le fs.length fs 0; omega]
  rw [runTasks_add, runTasks_add, runTasks_add]
  rw [show (⟨aFBlock0 fs.length 0 fs.length
          ++ ({} : PObj) :: aDEBlock fs.length 0 fs.length, [[]], [0],
        settleTasks 0 fs⟩ : Machine)
      = ⟨([] : List PObj) ++ aFBlock0 fs.length 0 fs.length
          ++ ({} : PObj) :: aDEBlock fs.length 0 fs.length, [[]], [(0 : Int)],
         settleTasks 0 fs ++ ([] : List Task)⟩ from by simp]
  rw [all_gen1 fs.length fs 0 [] [] 0 [] rfl
      (by have := fulCount_lt_of_reject fs r hrej; omega) hnp]
  rw [show (⟨([] : List PObj) ++ aFBlock1 fs.length 0 fs
          ++ ({} : PObj) :: aDEBlock fs.length 0 fs.length, [gen1Arr 0 fs []],
         [0 + fulCount fs], ([] : List Task) ++ dTasks fs.length 0 fs⟩ : Machine)
      = ⟨(aFBlock1 fs.length 0 fs ++ [({} : PObj)]) ++ aDEBlock fs.length 0 fs.length,
         [gen1Arr 0 fs []], [0 + fulCount fs],
         dTasks fs.length 0 fs ++ ([] : List Task)⟩ from by simp]
  rw [all_gen2 fs.length fs 0 (aFBlock1 fs.length 0 fs ++ [({} : PObj)])
      [gen1Arr 0 fs []] [0 + fulCount fs] []
      (by simp [aFBlock1_length]) hnp]
  have hPk2 : (⟨(aFBlock1 fs.length 0 fs ++ [({} : PObj)]) ++ aDEBlock1 fs.length 0 fs,
        [gen1Arr 0 fs []], [0 + fulCount fs],
        ([] : List Task) ++ eTasks fs.length 0 fs⟩ : Machine).pobj fs.length
      = ({} : PObj) := by
    show ((aFBlock1 fs.length 0 fs ++ [({} : PObj)])
        ++ aDEBlock1 fs.length 0 fs).getD fs.length ({} : PObj) = ({} : PObj)
    rw [getD_append_left _ _ _ _ (by simp [aFBlock1_length])]
    have hx := getD_append_length (aFBlock1 fs.length 0 fs) ({} : PObj) []
      ({} : PObj)
    rw [aFBlock1_length] at hx
    exact hx
  have hodd : ∀ i, i < fs.length →
      (⟨(aFBlock1 fs.length 0 fs ++ [({} : PObj)]) ++ aDEBlock1 fs.length 0 fs,
        [gen1Arr 0 fs []], [0 + fulCount fs],
        ([] : List Task) ++ eTasks fs.length 0 fs⟩ : Machine).pobj
          (fs.length + 2 + 2 * i) = ({} : PObj) := by
    intro i hi
    show ((aFBlock1 fs.length 0 fs ++ [({} : PObj)])
        ++ aDEBlock1 fs.length 0 fs).getD (fs.length + 2 + 2 * i) ({} : PObj)
        = ({} : PObj)
    rw [show fs.length + 2 + 2 * i
          = (aFBlock1 fs.length 0 fs ++ [({} : PObj)]).length + (2 * i + 1)
        from by simp [aFBlock1_length]; omega]
    rw [getD_append_right2]
    exact aDEBlock1_getD_odd fs.length fs 0 i hi
  have hdrain := runTasks_trivial_drain fs.length (eTasks fs.length 0 fs)
      ⟨(aFBlock1 fs.length 0 fs ++ [({} : PObj)]) ++ aDEBlock1 fs.length 0 fs,
       [gen1Arr 0 fs []], [0 + fulCount fs], ([] : List Task) ++ eTasks fs.length 0 fs⟩
      (by simp)
      (by intro t ht
          rcases eTasks_mem fs.length fs 0 t ht with ⟨b, hbmem, hb1, rfl⟩
            | ⟨i, hi1, hi2, rfl⟩
          · exact ⟨hnp b hbmem,
              by rw [thenCbsOf, hPk2], by rw [catchCbsOf, hPk2]⟩
          · exact ⟨rfl,
              by rw [thenCbsOf, hodd i (by omega)],
              by rw [catchCbsOf, hodd i (by omega)]⟩)
      (by intro t ht
          rcases eTasks_mem fs.length fs 0 t ht with ⟨b, hbmem, hb1, rfl⟩
            | ⟨i, hi1, hi2, rfl⟩
          · show fs.length < ((aFBlock1 fs.length 0 fs ++ [({} : PObj)])
              ++ aDEBlock1 fs.length 0 fs).length
            simp [aFBlock1_length, aDEBlock1_length]
          · show fs.length + 2 + 2 * i < ((aFBlock1 fs.length 0 fs ++ [({} : PObj)])
              ++ aDEBlock1 fs.length 0 fs).length
            simp [aFBlock1_length, aDEBlock1_length]
            omega)
      (by show fs.length < ((aFBlock1 fs.length 0 fs ++ [({} : PObj)])
            ++ aDEBlock1 fs.length 0 fs).length
          simp [aFBlock1_length, aDEBlock1_length])
      (by rw [stateOf, hPk2])
  have hout := hdrain.2 r (firstFor_eTasks fs.length fs 0 r hrej)
  exact settled_preserve_pair _ _ fs.length .rejected r hout.1 hout.2
    (fun e => by cases e)


/-- C6: `allOf` rejects with the reason of the first element to reject.
For every future-only input (with non-future payloads) containing a
rejecting element, the returned future ends up Rejected with the first
rejecting element's reason once the deferred-work queue drains — the
remaining elements' settlements are ignored for this outcome; concretely,
`allOf([Future.succeeded(1), Future.failed("boom"), Future.succeeded(3)])`
rejects with `"boom"`. -/
theorem all_rejects_with_first_rejection :
    (∀ (fs : List (Bool × JVal)) (r : JVal),
        (∀ b ∈ fs, isPromiseVal b.2 = false) →
        firstRejReason fs = some r →
        stateOf (allScen (futureItems fs)).1 (allScen (futureItems fs)).2 = .rejected ∧
        valueOf (allScen (futureItems fs)).1 (allScen (futureItems fs)).2 = r)
  ∧ stateOf (allScen [.toFulfill (.num 1), .toReject (.str "boom"), .toFulfill (.num 3)]).1
      (allScen [.toFulfill (.num 1), .toReject (.str "boom"), .toFulfill (.num 3)]).2
      = .rejected
  ∧ valueOf (allScen [.toFulfill (.num 1), .toReject (.str "boom"), .toFulfill (.num 3)]).1
      (allScen [.toFulfill (.num 1), .toReject (.str "boom"), .toFulfill (.num 3)]).2
      = .str "boom" := by
  refine ⟨fun fs r hnp hrej => ?_, by decide, by decide⟩
  rw [allScen_snd fs]
  exact all_mixed_outcome fs r hnp hrej

/-- Witness for C6 at `all([failed "e"])`. -/
theorem all_rejects_with_first_rejection_witness :
    stateOf (allScen (futureItems [(true, JVal.str "e")])).1
        (allScen (futureItems [(true, JVal.str "e")])).2 = .rejected ∧
    valueOf (allScen (futureItems [(true, JVal.str "e")])).1
        (allScen (futureItems [(true, JVal.str "e")])).2 = .str "e" :=
  all_rejects_with_first_rejection.1 [(true, .str "e")] (.str "e") (by decide) (by decide)

/-! ### Infrastructure for C7: `all` over an all-fulfilling input -/

theorem aFBlock0_length (k : Nat) : ∀ (c j : Nat), (aFBlock0 k j c).length = c := by
  intro c
  induction c with
  | zero => intro j; rfl
  | succ c ih =>
    intro j
    rw [aFBlock0_cons, List.length_cons, ih (j + 1)]

theorem aFBlock0_split (k : Nat) : ∀ (a j b : Nat),
    aFBlock0 k j (a + b) = aFBlock0 k j a ++ aFBlock0 k (j + a) b := by
  intro a
  induction a with
  | zero =>
    intro j b
    rw [Nat.zero_add, Nat.add_zero, show aFBlock0 k j 0 = [] from rfl, List.nil_append]
  | succ a ih =>
    intro j b
    rw [show a + 1 + b = (a + b) + 1 from by omega, aFBlock0_cons, aFBlock0_cons,
        ih (j + 1) b, show j + (a + 1) = j + 1 + a from by omega, List.cons_append]

theorem settleTasks_append : ∀ (l1 : List (Bool × JVal)) (j : Nat) (l2 : List (Bool × JVal)),
    settleTasks j (l1 ++ l2) = settleTasks j l1 ++ settleTasks (j + l1.length) l2 := by
  intro l1
  induction l1 with
  | nil =>
    intro j l2
    rw [List.nil_append, show settleTasks j ([] : List (Bool × JVal)) = [] from rfl,
        List.nil_append, List.length_nil, Nat.add_zero]
  | cons b bs ih =>
    intro j l2
    rw [List.cons_append, settleTasks_cons, settleTasks_cons, ih (j + 1) l2,
        List.cons_append, List.length_cons,
        show j + (bs.length + 1) = j + 1 + bs.length from by omega]

theorem fulCount_of_ful : ∀ (fs : List (Bool × JVal)),
    (∀ b ∈ fs, b.1 = false) → fulCount fs = (fs.length : Int) := by
  intro fs
  induction fs with
  | nil => intro _; simp [fulCount]
  | cons b bs ih =>
    intro h
    rw [fulCount_cons, if_neg (by simp [h b (by simp)]),
        ih (fun b' hb' => h b' (by simp [hb'])), List.length_cons]
    push_cast
    ring

theorem gen1Arr_ful : ∀ (fs : List (Bool × JVal)) (A : List JVal),
    (∀ b ∈ fs, b.1 = false) → gen1Arr A.length fs A = A ++ fs.map Prod.snd := by
  intro fs
  induction fs with
  | nil => intro A _; simp [gen1Arr]
  | cons b bs ih =>
    intro A h
    rw [gen1Arr_cons, if_neg (by simp [h b (by simp)]), setPad_append,
        show A.length + 1 = (A ++ [b.2]).length from by simp,
        ih (A ++ [b.2]) (fun b' hb' => h b' (by simp [hb']))]
    simp

theorem g2QueueFul_cons (k j c : Nat) :
    g2QueueFul k j (c + 1)
      = (if c = 0 then [Task.fulfillTask k (.arrRef 0)] else [])
          ++ Task.fulfillTask (k + 1 + 2 * j) .undef :: g2QueueFul k (j + 1) c := rfl

theorem allFulDE_cons (k j c : Nat) :
    allFulDE k j (c + 1) = allFulD k j :: ({} : PObj) :: allFulDE k (j + 1) c := rfl

theorem allFulDE2_cons (k j c : Nat) :
    allFulDE2 k j (c + 1)
      = allFulD k j :: (⟨.fulfilled, .undef, [], []⟩ : PObj) :: allFulDE2 k (j + 1) c := rfl

theorem eTasksFul_cons (k j c : Nat) :
    eTasksFul k j (c + 1) = Task.fulfillTask (k + 2 + 2 * j) .undef :: eTasksFul k (j + 1) c := rfl

theorem dTasks_ful_g2 (k : Nat) : ∀ (bs : List (Bool × JVal)) (j : Nat),
    (∀ b ∈ bs, b.1 = false) →
    dTasks k j bs ++ [Task.fulfillTask k (.arrRef 0),
        Task.fulfillTask (k + 1 + 2 * (j + bs.length)) .undef]
      = g2QueueFul k j (bs.length + 1) := by
  intro bs
  induction bs with
  | nil =>
    intro j _
    rw [show dTasks k j ([] : List (Bool × JVal)) = [] from rfl, List.nil_append,
        List.length_nil, g2QueueFul_cons k j 0, if_pos rfl]
    simp [show g2QueueFul k (j + 1) 0 = ([] : List Task) from rfl]
  | cons b bs ih =>
    intro j h
    rw [dTasks_cons, if_neg (by simp [h b (by simp)]), List.cons_append,
        show j + (b :: bs).length = (j + 1) + bs.length from by
          simp only [List.length_cons]; omega,
        ih (j + 1) (fun b' hb' => h b' (by simp [hb'])),
        show (b :: bs).length + 1 = (bs.length + 1) + 1 from by
          simp only [List.length_cons],
        g2QueueFul_cons k j (bs.length + 1), if_neg (by omega)]
    simp

/-- Generation 1 of `all` with an arbitrary promise-list tail after the
still-pending futures: one rejecting future's settlement. -/
theorem all_gen1_step_rej_g (k : Nat) (b : Bool × JVal) (bs : List (Bool × JVal))
    (Fdone TAIL : List PObj) (A : List JVal) (c : Int) (acc : List Task)
    (hb : b.1 = true) (hnp : isPromiseVal b.2 = false) :
    runTask (Task.rejectTask Fdone.length b.2)
        ⟨Fdone ++ aF0 k Fdone.length :: (aFBlock0 k (Fdone.length + 1) bs.length ++ TAIL),
         [A], [c], settleTasks (Fdone.length + 1) bs ++ acc⟩
      = ⟨(Fdone ++ [aF1 k Fdone.length b]) ++ aFBlock0 k (Fdone.length + 1) bs.length ++ TAIL,
         [A], [c],
         settleTasks (Fdone.length + 1) bs
           ++ (acc ++ [Task.rejectTask (k + 1 + 2 * Fdone.length) b.2])⟩ := by
  have hp : (⟨Fdone ++ aF0 k Fdone.length :: (aFBlock0 k (Fdone.length + 1) bs.length
          ++ TAIL), [A], [c],
        settleTasks (Fdone.length + 1) bs ++ acc⟩ : Machine).pobj Fdone.length
      = ⟨.pending, .undef,
         [⟨.fn (.allOnFul 0 0 Fdone.length k k), k + 1 + 2 * Fdone.length⟩],
         [⟨.undef, k + 1 + 2 * Fdone.length⟩]⟩ :=
    getD_append_length Fdone (aF0 k Fdone.length) _ ({} : PObj)
  rw [runTask_reject_one _ _ _ _ _ hp (by simp) hnp]
  rw [runCb_undef_rej]
  simp [enqueue, set_append_length, aF1, hb, List.append_assoc]

/-- Generation 1 of `all` with an arbitrary tail: one fulfilling future's
settlement while the counter stays below `n`. -/
theorem all_gen1_step_ful_g (k : Nat) (b : Bool × JVal) (bs : List (Bool × JVal))
    (Fdone TAIL : List PObj) (A : List JVal) (c : Int) (acc : List Task)
    (hb : b.1 = false) (hnp : isPromiseVal b.2 = false)
    (hcnt : ¬ (c + 1 = (k : Int))) :
    runTask (Task.fulfillTask Fdone.length b.2)
        ⟨Fdone ++ aF0 k Fdone.length :: (aFBlock0 k (Fdone.length + 1) bs.length ++ TAIL),
         [A], [c], settleTasks (Fdone.length + 1) bs ++ acc⟩
      = ⟨(Fdone ++ [aF1 k Fdone.length b]) ++ aFBlock0 k (Fdone.length + 1) bs.length ++ TAIL,
         [setPad A Fdone.length b.2], [c + 1],
         settleTasks (Fdone.length + 1) bs
           ++ (acc ++ [Task.fulfillTask (k + 1 + 2 * Fdone.length) .undef])⟩ := by
  have hp : (⟨Fdone ++ aF0 k Fdone.length :: (aFBlock0 k (Fdone.length + 1) bs.length
          ++ TAIL), [A], [c],
        settleTasks (Fdone.length + 1) bs ++ acc⟩ : Machine).pobj Fdone.length
      = ⟨.pending, .undef,
         [⟨.fn (.allOnFul 0 0 Fdone.length k k), k + 1 + 2 * Fdone.length⟩],
         [⟨.undef, k + 1 + 2 * Fdone.length⟩]⟩ :=
    getD_append_length Fdone (aF0 k Fdone.length) _ ({} : PObj)
  rw [runTask_fulfill_one _ _ _ _ _ hp (by simp) hnp]
  rw [runCb_allOnFul, applyFn_allOnFul_m]
  split
  · rename_i hcond
    exact absurd (show c + 1 = (k : Int) from hcond) hcnt
  · simp [enqueue, setArr, incCounter, getArr, set_append_length, aF1, hb,
      List.append_assoc]

/-- Generation 1 of `all` over the already-settling prefix of a future-only
input, with the rest of the promise list arbitrary: each settlement task
settles its future and queues its chain promise's settlement; the counter
cannot reach `n`. -/
theorem all_gen1_pre (k : Nat) : ∀ (todo : List (Bool × JVal)) (j : Nat)
    (Fdone TAIL : List PObj) (A : List JVal) (c : Int) (acc : List Task),
    Fdone.length = j →
    c + fulCount todo < (k : Int) →
    (∀ b ∈ todo, isPromiseVal b.2 = false) →
    runTasks todo.length
        ⟨Fdone ++ aFBlock0 k j todo.length ++ TAIL, [A], [c], settleTasks j todo ++ acc⟩
      = ⟨Fdone ++ aFBlock1 k j todo ++ TAIL,
         [gen1Arr j todo A], [c + fulCount todo], acc ++ dTasks k j todo⟩ := by
  intro todo
  induction todo with
  | nil =>
    intro j Fdone TAIL A c acc _ _ _
    show (⟨Fdone ++ aFBlock0 k j 0 ++ TAIL, [A], [c],
        settleTasks j [] ++ acc⟩ : Machine) = _
    simp [aFBlock0, aFBlock1, gen1Arr, fulCount, dTasks, settleTasks]
  | cons b bs ih =>
    intro j Fdone TAIL A c acc hF hcnt hnp
    subst hF
    rw [show (b :: bs).length = bs.length + 1 from rfl,
        settleTasks_cons, aFBlock0_cons,
        List.append_assoc Fdone
          (aF0 k Fdone.length :: aFBlock0 k (Fdone.length + 1) bs.length) TAIL,
        List.cons_append (aF0 k Fdone.length) (aFBlock0 k (Fdone.length + 1) bs.length)
          TAIL,
        List.cons_append]
    by_cases hb : b.1 = true
    · rw [if_pos hb,
          runTasks_cons_lit bs.length _ _ _ _ _,
          all_gen1_step_rej_g k b bs Fdone TAIL A c acc hb (hnp b (by simp)),
          ih (Fdone.length + 1) (Fdone ++ [aF1 k Fdone.length b]) TAIL A c
            (acc ++ [Task.rejectTask (k + 1 + 2 * Fdone.length) b.2]) (by simp)
            (by rw [fulCount_cons, if_pos hb] at hcnt; exact hcnt)
            (fun b' hb' => hnp b' (by simp [hb']))]
      simp [aFBlock1_cons, gen1Arr_cons, fulCount_cons, dTasks_cons, hb,
        List.append_assoc]
    · have hb2 : b.1 = false := by simpa using hb
      rw [if_neg hb,
          runTasks_cons_lit bs.length _ _ _ _ _,
          all_gen1_step_ful_g k b bs Fdone TAIL A c acc hb2 (hnp b (by simp))
            (by have h0 := fulCount_nonneg bs
                rw [fulCount_cons, if_neg hb] at hcnt
                omega),
          ih (Fdone.length + 1) (Fdone ++ [aF1 k Fdone.length b]) TAIL
            (setPad A Fdone.length b.2) (c + 1)
            (acc ++ [Task.fulfillTask (k + 1 + 2 * Fdone.length) .undef]) (by simp)
            (by rw [fulCount_cons, if_neg hb] at hcnt
                omega)
            (fun b' hb' => hnp b' (by simp [hb']))]
      simp [aFBlock1_cons, gen1Arr_cons, fulCount_cons, dTasks_cons, hb2,
        List.append_assoc]
      omega

/-- The last fulfilling future's settlement in the all-fulfilling case: the
counter reaches `n`, so `all`'s handler also queues the resolution of `P`
with the shared result array, just before the chain promise's settlement. -/
theorem all_gen1_step_last (k jl : Nat) (z : Bool × JVal) (Fdone : List PObj)
    (A : List JVal) (c : Int) (acc : List Task)
    (hF : Fdone.length = jl) (hz : z.1 = false) (hnp : isPromiseVal z.2 = false)
    (hcnt : c + 1 = (k : Int)) :
    runTask (Task.fulfillTask jl z.2)
        ⟨Fdone ++ aF0 k jl :: ({} : PObj) :: aDEBlock k 0 k, [A], [c], acc⟩
      = ⟨(Fdone ++ [aF1 k jl z]) ++ ({} : PObj) :: aDEBlock k 0 k,
         [setPad A jl z.2], [c + 1],
         acc ++ [Task.fulfillTask k (.arrRef 0),
                 Task.fulfillTask (k + 1 + 2 * jl) .undef]⟩ := by
  subst hF
  have hp : (⟨Fdone ++ aF0 k Fdone.length :: ({} : PObj) :: aDEBlock k 0 k,
        [A], [c], acc⟩ : Machine).pobj Fdone.length
      = ⟨.pending, .undef,
         [⟨.fn (.allOnFul 0 0 Fdone.length k k), k + 1 + 2 * Fdone.length⟩],
         [⟨.undef, k + 1 + 2 * Fdone.length⟩]⟩ :=
    getD_append_length Fdone (aF0 k Fdone.length) _ ({} : PObj)
  rw [runTask_fulfill_one _ _ _ _ _ hp (by simp) hnp]
  rw [runCb_allOnFul, applyFn_allOnFul_m]
  split
  · simp [enqueue, setArr, incCounter, getArr, set_append_length, aF1, hz,
      List.append_assoc]
  · rename_i hcond
    refine absurd ?_ hcond
    show c + 1 = (k : Int)
    exact hcnt

/-- The deferred resolution of `P` with the shared result array: `P` is the
pending callback-free object at position `k`, so the task just settles it. -/
theorem all_gen2_step_P (k : Nat) (Pre DE : List PObj) (Ar : List (List JVal))
    (Cn : List Int) (T : List Task)
    (hk : k < Pre.length) (hPk : Pre.getD k ({} : PObj) = ({} : PObj)) :
    runTask (Task.fulfillTask k (.arrRef 0)) ⟨Pre ++ DE, Ar, Cn, T⟩
      = ⟨Pre.set k ⟨.fulfilled, .arrRef 0, [], []⟩ ++ DE, Ar, Cn, T⟩ := by
  have hp : (⟨Pre ++ DE, Ar, Cn, T⟩ : Machine).pobj k = ({} : PObj) := by
    show (Pre ++ DE).getD k ({} : PObj) = ({} : PObj)
    rw [getD_append_left Pre DE ({} : PObj) k hk]
    exact hPk
  rw [runTask_trivial_fulfill _ k (.arrRef 0)
      (by rw [stateOf, hp]) (by rw [thenCbsOf, hp]) (by rw [catchCbsOf, hp])
      (by simp; omega) rfl]
  rw [show (Pre ++ DE).set k (⟨.fulfilled, .arrRef 0, [], []⟩ : PObj)
        = Pre.set k (⟨.fulfilled, .arrRef 0, [], []⟩ : PObj) ++ DE
      from set_append_of_lt Pre DE k _ hk]

/-- One `e_j` settlement in generation 3 of `all`: `e_j` is the pending
callback-free object right after `d_j`, so the task just settles it. -/
theorem all_gen3_step (k j : Nat) (Pre DE : List PObj) (Ar : List (List JVal))
    (Cn : List Int) (T : List Task) (hPre : Pre.length = k + 1 + 2 * j) :
    runTask (Task.fulfillTask (k + 2 + 2 * j) .undef)
        ⟨Pre ++ allFulD k j :: ({} : PObj) :: DE, Ar, Cn, T⟩
      = ⟨(Pre ++ [allFulD k j, (⟨.fulfilled, .undef, [], []⟩ : PObj)]) ++ DE,
         Ar, Cn, T⟩ := by
  have hp : (⟨Pre ++ allFulD k j :: ({} : PObj) :: DE, Ar, Cn, T⟩ : Machine).pobj
      (k + 2 + 2 * j) = ({} : PObj) := by
    show (Pre ++ allFulD k j :: ({} : PObj) :: DE).getD (k + 2 + 2 * j) ({} : PObj)
        = ({} : PObj)
    rw [show k + 2 + 2 * j = Pre.length + 1 + 0 from by omega, getD_append_cons]
    rfl
  rw [runTask_trivial_fulfill _ (k + 2 + 2 * j) JVal.undef
      (by rw [stateOf, hp]) (by rw [thenCbsOf, hp]) (by rw [catchCbsOf, hp])
      (by simp; omega) rfl]
  rw [show Pre ++ allFulD k j :: ({} : PObj) :: DE
        = (Pre ++ [allFulD k j]) ++ ({} : PObj) :: DE from by simp,
      show k + 2 + 2 * j = (Pre ++ [allFulD k j]).length from by simp [hPre]; omega,
      set_append_length]
  simp [List.append_assoc]

/-- Generation 2 of `all` in the all-fulfilling case: every `d_j` settles
fulfilled and forwards to `e_j`; the resolution of `P` (queued just before
the last `d`) settles `P` with the shared result array on the way. -/
theorem all_gen2_ful (k : Nat) : ∀ (c j : Nat) (Pre : List PObj)
    (Ar : List (List JVal)) (Cn : List Int) (acc : List Task),
    Pre.length = k + 1 + 2 * j → k < Pre.length →
    Pre.getD k ({} : PObj) = ({} : PObj) →
    runTasks (c + 1 + 1)
        ⟨Pre ++ aDEBlock k j (c + 1), Ar, Cn, g2QueueFul k j (c + 1) ++ acc⟩
      = ⟨Pre.set k ⟨.fulfilled, .arrRef 0, [], []⟩ ++ allFulDE k j (c + 1), Ar, Cn,
         acc ++ eTasksFul k j (c + 1)⟩ := by
  intro c
  induction c with
  | zero =>
    intro j Pre Ar Cn acc hPre hk hPk
    rw [aDEBlock_cons, g2QueueFul_cons, if_pos rfl]
    rw [show ([Task.fulfillTask k (.arrRef 0)]
            ++ Task.fulfillTask (k + 1 + 2 * j) .undef :: g2QueueFul k (j + 1) 0) ++ acc
          = Task.fulfillTask k (.arrRef 0)
              :: (Task.fulfillTask (k + 1 + 2 * j) .undef :: acc)
        from by simp [show g2QueueFul k (j + 1) 0 = ([] : List Task) from rfl]]
    rw [runTasks_cons_lit (0 + 1) _ _ _ _ _]
    rw [all_gen2_step_P k Pre (aD0 k j :: ({} : PObj) :: aDEBlock k (j + 1) 0) Ar Cn
        (Task.fulfillTask (k + 1 + 2 * j) .undef :: acc) hk hPk]
    rw [runTasks_cons_lit 0 _ _ _ _ _, runTasks_zero]
    rw [all_gen2_step_ful k j (Pre.set k ⟨.fulfilled, .arrRef 0, [], []⟩)
        (aDEBlock k (j + 1) 0) Ar Cn acc (by simp [hPre])]
    simp [allFulDE_cons, eTasksFul_cons, allFulD, List.append_assoc,
          show aDEBlock k (j + 1) 0 = ([] : List PObj) from rfl,
          show allFulDE k (j + 1) 0 = ([] : List PObj) from rfl,
          show eTasksFul k (j + 1) 0 = ([] : List Task) from rfl]
  | succ c ih =>
    intro j Pre Ar Cn acc hPre hk hPk
    rw [aDEBlock_cons, g2QueueFul_cons, if_neg (by omega), List.nil_append,
        List.cons_append,
        runTasks_cons_lit (c + 1 + 1) _ _ _ _ _,
        all_gen2_step_ful k j Pre (aDEBlock k (j + 1) (c + 1)) Ar Cn
          (g2QueueFul k (j + 1) (c + 1) ++ acc) hPre,
        List.append_assoc (g2QueueFul k (j + 1) (c + 1)) acc
          [Task.fulfillTask (k + 2 + 2 * j) .undef],
        ih (j + 1)
          (Pre ++ [(⟨.fulfilled, .undef, [],
              [⟨.fn (.rejectCap k), k + 2 + 2 * j⟩]⟩ : PObj), ({} : PObj)])
          Ar Cn (acc ++ [Task.fulfillTask (k + 2 + 2 * j) .undef])
          (by simp [hPre]; omega)
          (by rw [List.length_append]; omega)
          (by rw [getD_append_left _ _ _ _ hk]; exact hPk)]
    rw [set_append_of_lt Pre _ k _ hk]
    simp [allFulDE_cons, eTasksFul_cons, allFulD, List.append_assoc]

/-- Generation 3 of `all` in the all-fulfilling case: every `e_j` settles
fulfilled with `undefined`; nothing further is queued. -/
theorem all_gen3_ful (k : Nat) : ∀ (c j : Nat) (Pre : List PObj)
    (Ar : List (List JVal)) (Cn : List Int),
    Pre.length = k + 1 + 2 * j →
    runTasks c ⟨Pre ++ allFulDE k j c, Ar, Cn, eTasksFul k j c⟩
      = ⟨Pre ++ allFulDE2 k j c, Ar, Cn, []⟩ := by
  intro c
  induction c with
  | zero =>
    intro j Pre Ar Cn _
    show (⟨Pre ++ allFulDE k j 0, Ar, Cn, eTasksFul k j 0⟩ : Machine) = _
    simp [show allFulDE k j 0 = ([] : List PObj) from rfl,
          show allFulDE2 k j 0 = ([] : List PObj) from rfl,
          show eTasksFul k j 0 = ([] : List Task) from rfl]
  | succ c ih =>
    intro j Pre Ar Cn hPre
    rw [allFulDE_cons, eTasksFul_cons,
        runTasks_cons_lit c _ _ _ _ _,
        all_gen3_step k j Pre (allFulDE k (j + 1) c) Ar Cn (eTasksFul k (j + 1) c) hPre,
        ih (j + 1) (Pre ++ [allFulD k j, (⟨.fulfilled, .undef, [], []⟩ : PObj)]) Ar Cn
          (by simp [hPre, allFulD]; omega)]
    simp [allFulDE2_cons, List.append_assoc]

/-- While any element's settlement task has not yet run, the promise `P`
returned by `all` is still pending: its resolution is gated on the counter
reaching the input length. -/
theorem all_prefix_pending (pre suf : List (Bool × JVal))
    (hnp : ∀ b ∈ pre, isPromiseVal b.2 = false) (hs : 0 < suf.length) :
    stateOf (runTasks pre.length
        (all (mkFutures (futureItems (pre ++ suf)) emptyM).2
             (mkFutures (futureItems (pre ++ suf)) emptyM).1).1)
      (pre ++ suf).length = .pending := by
  rw [all_setup (pre ++ suf)]
  dsimp only
  rw [List.length_append]
  rw [show (⟨aFBlock0 (pre.length + suf.length) 0 (pre.length + suf.length)
          ++ ({} : PObj) :: aDEBlock (pre.length + suf.length) 0
               (pre.length + suf.length),
        [[]], [0], settleTasks 0 (pre ++ suf)⟩ : Machine)
      = ⟨([] : List PObj) ++ aFBlock0 (pre.length + suf.length) 0 pre.length
          ++ (aFBlock0 (pre.length + suf.length) pre.length suf.length
              ++ ({} : PObj) :: aDEBlock (pre.length + suf.length) 0
                   (pre.length + suf.length)),
         [[]], [(0 : Int)],
         settleTasks 0 pre ++ (settleTasks pre.length suf ++ ([] : List Task))⟩
      from by
        rw [aFBlock0_split (pre.length + suf.length) pre.length 0 suf.length,
            settleTasks_append pre 0 suf]
        simp [List.append_assoc]]
  rw [all_gen1_pre (pre.length + suf.length) pre 0 []
      (aFBlock0 (pre.length + suf.length) pre.length suf.length
        ++ ({} : PObj) :: aDEBlock (pre.length + suf.length) 0 (pre.length + suf.length))
      [] 0 (settleTasks pre.length suf ++ ([] : List Task)) rfl
      (by have h1 := fulCount_le_length pre
          push_cast
          omega)
      hnp]
  have hPk : (⟨([] : List PObj) ++ aFBlock1 (pre.length + suf.length) 0 pre
        ++ (aFBlock0 (pre.length + suf.length) pre.length suf.length
            ++ ({} : PObj) :: aDEBlock (pre.length + suf.length) 0
                 (pre.length + suf.length)),
       [gen1Arr 0 pre []], [0 + fulCount pre],
       (settleTasks pre.length suf ++ ([] : List Task))
         ++ dTasks (pre.length + suf.length) 0 pre⟩
        : Machine).pobj (pre.length + suf.length) = ({} : PObj) := by
    show (([] : List PObj) ++ aFBlock1 (pre.length + suf.length) 0 pre
        ++ (aFBlock0 (pre.length + suf.length) pre.length suf.length
            ++ ({} : PObj) :: aDEBlock (pre.length + suf.length) 0
                 (pre.length + suf.length))).getD
        (pre.length + suf.length) ({} : PObj) = ({} : PObj)
    rw [List.nil_append, ← List.append_assoc]
    have hx := getD_append_length
      (aFBlock1 (pre.length + suf.length) 0 pre
        ++ aFBlock0 (pre.length + suf.length) pre.length suf.length) ({} : PObj)
      (aDEBlock (pre.length + suf.length) 0 (pre.length + suf.length)) ({} : PObj)
    rw [List.length_append, aFBlock1_length, aFBlock0_length] at hx
    exact hx
  rw [stateOf, hPk]

/-- End-to-end run of `Promize.all` over an all-fulfilling future-only
input: the returned promise `P` ends up fulfilled with the shared result
array, whose contents are the input payloads in input order. -/
theorem all_ful_outcome (fs : List (Bool × JVal))
    (hful : ∀ b ∈ fs, b.1 = false) (hnp : ∀ b ∈ fs, isPromiseVal b.2 = false)
    (hne : fs ≠ []) :
    stateOf (allScen (futureItems fs)).1 fs.length = .fulfilled ∧
    valueOf (allScen (futureItems fs)).1 fs.length = .arrRef 0 ∧
    getArr (allScen (futureItems fs)).1 0 = fs.map Prod.snd := by
  obtain ⟨L, z, rfl⟩ : ∃ L z, fs = L ++ [z] := by
    rcases List.eq_nil_or_concat fs with h | ⟨L, z, h⟩
    · exact absurd h hne
    · exact ⟨L, z, by simpa [List.concat_eq_append] using h⟩
  have hz : z.1 = false := hful z (by simp)
  have hfulL : ∀ b ∈ L, b.1 = false := fun b hb => hful b (by simp [hb])
  have hnpL : ∀ b ∈ L, isPromiseVal b.2 = false := fun b hb => hnp b (by simp [hb])
  have hnpz : isPromiseVal z.2 = false := hnp z (by simp)
  rw [allScen_eq]
  dsimp only
  rw [futureItems_length, all_setup (L ++ [z])]
  dsimp only
  rw [show (L ++ [z]).length = L.length + 1 from by simp]
  rw [show 8 * (L.length + 1) + 8
        = L.length + ((0 + 1) + ((L.length + 1 + 1)
            + ((L.length + 1) + (5 * L.length + 12))))
      from by omega,
      runTasks_add, runTasks_add, runTasks_add, runTasks_add]
  rw [show (⟨aFBlock0 (L.length + 1) 0 (L.length + 1)
          ++ ({} : PObj) :: aDEBlock (L.length + 1) 0 (L.length + 1), [[]], [0],
        settleTasks 0 (L ++ [z])⟩ : Machine)
      = ⟨([] : List PObj) ++ aFBlock0 (L.length + 1) 0 L.length
          ++ (aF0 (L.length + 1) L.length
              :: ({} : PObj) :: aDEBlock (L.length + 1) 0 (L.length + 1)),
         [[]], [(0 : Int)],
         settleTasks 0 L ++ (settleTasks L.length [z] ++ ([] : List Task))⟩
      from by
        rw [show L.length + 1 = L.length + 1 from rfl,
            aFBlock0_split (L.length + 1) L.length 0 1, settleTasks_append L 0 [z]]
        simp [List.append_assoc,
          show ∀ jj, aFBlock0 (L.length + 1) jj 1
            = [aF0 (L.length + 1) jj] from fun jj => rfl]]
  rw [all_gen1_pre (L.length + 1) L 0 []
      (aF0 (L.length + 1) L.length
        :: ({} : PObj) :: aDEBlock (L.length + 1) 0 (L.length + 1))
      [] 0 (settleTasks L.length [z] ++ ([] : List Task)) rfl
      (by have h1 := fulCount_le_length L
          push_cast
          omega)
      hnpL]
  rw [show (⟨([] : List PObj) ++ aFBlock1 (L.length + 1) 0 L
          ++ (aF0 (L.length + 1) L.length
              :: ({} : PObj) :: aDEBlock (L.length + 1) 0 (L.length + 1)),
        [gen1Arr 0 L []], [0 + fulCount L],
        (settleTasks L.length [z] ++ ([] : List Task))
          ++ dTasks (L.length + 1) 0 L⟩ : Machine)
      = ⟨aFBlock1 (L.length + 1) 0 L
          ++ aF0 (L.length + 1) L.length
              :: ({} : PObj) :: aDEBlock (L.length + 1) 0 (L.length + 1),
         [gen1Arr 0 L []], [0 + fulCount L],
         Task.fulfillTask L.length z.2 :: dTasks (L.length + 1) 0 L⟩
      from by
        rw [settleTasks_cons, if_neg (by simp [hz])]
        simp [show settleTasks (L.length + 1) ([] : List (Bool × JVal)) = [] from rfl]]
  rw [runTasks_cons_lit 0 _ _ _ _ _, runTasks_zero]
  rw [all_gen1_step_last (L.length + 1) L.length z (aFBlock1 (L.length + 1) 0 L)
      (gen1Arr 0 L []) (0 + fulCount L) (dTasks (L.length + 1) 0 L)
      (aFBlock1_length (L.length + 1) L 0) hz hnpz
      (by rw [fulCount_of_ful L hfulL]
          push_cast
          omega)]
  rw [show (⟨(aFBlock1 (L.length + 1) 0 L ++ [aF1 (L.length + 1) L.length z])
          ++ ({} : PObj) :: aDEBlock (L.length + 1) 0 (L.length + 1),
        [setPad (gen1Arr 0 L []) L.length z.2], [0 + fulCount L + 1],
        dTasks (L.length + 1) 0 L
          ++ [Task.fulfillTask (L.length + 1) (.arrRef 0),
              Task.fulfillTask (L.length + 1 + 1 + 2 * L.length) .undef]⟩ : Machine)
      = ⟨((aFBlock1 (L.length + 1) 0 L ++ [aF1 (L.length + 1) L.length z])
            ++ [({} : PObj)])
          ++ aDEBlock (L.length + 1) 0 (L.length + 1),
         [setPad (gen1Arr 0 L []) L.length z.2], [0 + fulCount L + 1],
         g2QueueFul (L.length + 1) 0 (L.length + 1) ++ ([] : List Task)⟩
      from by
        rw [← dTasks_ful_g2 (L.length + 1) L 0 hfulL]
        simp [List.append_assoc]]
  have hlen1 : (aFBlock1 (L.length + 1) 0 L ++ [aF1 (L.length + 1) L.length z]).length
      = L.length + 1 := by simp [aFBlock1_length]
  rw [all_gen2_ful (L.length + 1) L.length 0
      ((aFBlock1 (L.length + 1) 0 L ++ [aF1 (L.length + 1) L.length z]) ++ [({} : PObj)])
      [setPad (gen1Arr 0 L []) L.length z.2] [0 + fulCount L + 1] ([] : List Task)
      (by rw [List.length_append, hlen1]; simp)
      (by rw [List.length_append, hlen1]; simp)
      (by have hx := getD_append_length
            (aFBlock1 (L.length + 1) 0 L ++ [aF1 (L.length + 1) L.length z])
            ({} : PObj) [] ({} : PObj)
          rw [hlen1] at hx
          exact hx)]
  rw [show ((aFBlock1 (L.length + 1) 0 L ++ [aF1 (L.length + 1) L.length z])
          ++ [({} : PObj)]).set (L.length + 1)
          (⟨.fulfilled, .arrRef 0, [], []⟩ : PObj)
        = (aFBlock1 (L.length + 1) 0 L ++ [aF1 (L.length + 1) L.length z])
            ++ [(⟨.fulfilled, .arrRef 0, [], []⟩ : PObj)]
      from by
        have hx := set_append_length
          (aFBlock1 (L.length + 1) 0 L ++ [aF1 (L.length + 1) L.length z]) ({} : PObj) []
          (⟨.fulfilled, .arrRef 0, [], []⟩ : PObj)
        rw [hlen1] at hx
        exact hx]
  rw [show ([] : List Task) ++ eTasksFul (L.length + 1) 0 (L.length + 1)
        = eTasksFul (L.length + 1) 0 (L.length + 1) from List.nil_append _]
  rw [all_gen3_ful (L.length + 1) (L.length + 1) 0
      ((aFBlock1 (L.length + 1) 0 L ++ [aF1 (L.length + 1) L.length z])
        ++ [(⟨.fulfilled, .arrRef 0, [], []⟩ : PObj)])
      [setPad (gen1Arr 0 L []) L.length z.2] [0 + fulCount L + 1]
      (by rw [List.length_append, hlen1]; simp)]
  rw [tasks_of_runTasks_nil (5 * L.length + 12) _ rfl]
  have hobj : (⟨((aFBlock1 (L.length + 1) 0 L ++ [aF1 (L.length + 1) L.length z])
          ++ [(⟨.fulfilled, .arrRef 0, [], []⟩ : PObj)])
          ++ allFulDE2 (L.length + 1) 0 (L.length + 1),
        [setPad (gen1Arr 0 L []) L.length z.2], [0 + fulCount L + 1],
        ([] : List Task)⟩ : Machine).pobj (L.length + 1)
      = (⟨.fulfilled, .arrRef 0, [], []⟩ : PObj) := by
    show (((aFBlock1 (L.length + 1) 0 L ++ [aF1 (L.length + 1) L.length z])
          ++ [(⟨.fulfilled, .arrRef 0, [], []⟩ : PObj)])
          ++ allFulDE2 (L.length + 1) 0 (L.length + 1)).getD (L.length + 1) ({} : PObj)
        = (⟨.fulfilled, .arrRef 0, [], []⟩ : PObj)
    rw [getD_append_left _ _ _ _ (by rw [List.length_append, hlen1]; simp)]
    have hx := getD_append_length
      (aFBlock1 (L.length + 1) 0 L ++ [aF1 (L.length + 1) L.length z])
      (⟨.fulfilled, .arrRef 0, [], []⟩ : PObj) [] ({} : PObj)
    rw [hlen1] at hx
    exact hx
  refine ⟨?_, ?_, ?_⟩
  · rw [stateOf, hobj]
  · rw [valueOf, hobj]
  · show setPad (gen1Arr 0 L []) L.length z.2 = (L ++ [z]).map Prod.snd
    rw [show gen1Arr 0 L [] = ([] : List JVal) ++ L.map Prod.snd
          from gen1Arr_ful L [] hfulL,
        List.nil_append,
        show L.length = (List.map Prod.snd L).length from by simp,
        setPad_append]
    simp

/-- C7: `allOf` fulfills only once every element has fulfilled, with an
ordered result sequence positionally aligned with the inputs. For every
nonempty all-fulfilling future-only input the returned future ends up
Fulfilled with the shared result array holding the payloads in input
order; for every decomposition of the input into a prefix and a nonempty
suffix, after only the prefix's settlement tasks have run the returned
future is still Pending (it cannot fulfill before every element has);
and concretely `allOf([Future.succeeded(1), 2, Future.succeeded(3)])`
(a plain value counting as already fulfilled with itself) fulfills with
`[1, 2, 3]`. -/
theorem all_fulfills_in_input_order :
    (∀ (fs : List (Bool × JVal)),
        (∀ b ∈ fs, b.1 = false) →
        (∀ b ∈ fs, isPromiseVal b.2 = false) →
        fs ≠ [] →
        stateOf (allScen (futureItems fs)).1 (allScen (futureItems fs)).2 = .fulfilled ∧
        valueOf (allScen (futureItems fs)).1 (allScen (futureItems fs)).2 = .arrRef 0 ∧
        getArr (allScen (futureItems fs)).1 0 = fs.map Prod.snd)
  ∧ (∀ (pre suf : List (Bool × JVal)),
        (∀ b ∈ pre, isPromiseVal b.2 = false) → 0 < suf.length →
        stateOf (runTasks pre.length
            (all (mkFutures (futureItems (pre ++ suf)) emptyM).2
                 (mkFutures (futureItems (pre ++ suf)) emptyM).1).1)
          (pre ++ suf).length = .pending)
  ∧ stateOf (allScen [.toFulfill (.num 1), .plain (.num 2), .toFulfill (.num 3)]).1
        (allScen [.toFulfill (.num 1), .plain (.num 2), .toFulfill (.num 3)]).2
      = .fulfilled
  ∧ valueOf (allScen [.toFulfill (.num 1), .plain (.num 2), .toFulfill (.num 3)]).1
        (allScen [.toFulfill (.num 1), .plain (.num 2), .toFulfill (.num 3)]).2
      = .arrRef 0
  ∧ getArr (allScen [.toFulfill (.num 1), .plain (.num 2), .toFulfill (.num 3)]).1 0
      = [.num 1, .num 2, .num 3] := by
  refine ⟨fun fs hful hnp hne => ?_,
          fun pre suf h1 h2 => all_prefix_pending pre suf h1 h2,
          by decide, by decide, by decide⟩
  rw [allScen_snd fs]
  exact all_ful_outcome fs hful hnp hne

/-- Witness for C7 at `all([succeeded 7])` and the prefix split
`[] ++ [succeeded 7]`. -/
theorem all_fulfills_in_input_order_witness :
    (stateOf (allScen (futureItems [(false, JVal.num 7)])).1
        (allScen (futureItems [(false, JVal.num 7)])).2 = .fulfilled ∧
     valueOf (allScen (futureItems [(false, JVal.num 7)])).1
        (allScen (futureItems [(false, JVal.num 7)])).2 = .arrRef 0 ∧
     getArr (allScen (futureItems [(false, JVal.num 7)])).1 0 = [JVal.num 7]) ∧
    stateOf (runTasks (List.length ([] : List (Bool × JVal)))
        (all (mkFutures (futureItems (([] : List (Bool × JVal)) ++ [(false, JVal.num 7)]))
              emptyM).2
             (mkFutures (futureItems (([] : List (Bool × JVal)) ++ [(false, JVal.num 7)]))
              emptyM).1).1)
      (([] : List (Bool × JVal)) ++ [(false, JVal.num 7)]).length = .pending :=
  ⟨all_fulfills_in_input_order.1 [(false, .num 7)] (by decide) (by decide) (by decide),
   all_fulfills_in_input_order.2.1 [] [(false, .num 7)] (by decide) (by decide)⟩

/-! ### Infrastructure for C8: `allSettled` -/

theorem sFBlock0_cons (k j c : Nat) :
    sFBlock0 k j (c + 1) = sF0 k j :: sFBlock0 k (j + 1) c := rfl

theorem sFBlock1_cons (k j : Nat) (b : Bool × JVal) (bs : List (Bool × JVal)) :
    sFBlock1 k j (b :: bs) = sF1 k j b :: sFBlock1 k (j + 1) bs := rfl

theorem sDEGBlock_cons (k j c : Nat) :
    sDEGBlock k j (c + 1) = sD0 k j :: sE0 k j :: ({} : PObj) :: sDEGBlock k (j + 1) c := rfl

theorem sDEGBlock1_cons (k j : Nat) (b : Bool × JVal) (bs : List (Bool × JVal)) :
    sDEGBlock1 k j (b :: bs)
      = sD1 k j b :: sE0 k j :: ({} : PObj) :: sDEGBlock1 k (j + 1) bs := rfl

theorem sDEGBlock2_cons (k j : Nat) (b : Bool × JVal) (bs : List (Bool × JVal)) :
    sDEGBlock2 k j (b :: bs)
      = sD1 k j b :: sE1 k j :: ({} : PObj) :: sDEGBlock2 k (j + 1) bs := rfl

theorem sDEGBlock3_cons (k j : Nat) (b : Bool × JVal) (bs : List (Bool × JVal)) :
    sDEGBlock3 k j (b :: bs)
      = sD1 k j b :: sE1 k j :: (⟨.fulfilled, .undef, [], []⟩ : PObj)
          :: sDEGBlock3 k (j + 1) bs := rfl

theorem sDTasks_cons (k j : Nat) (b : Bool × JVal) (bs : List (Bool × JVal)) :
    sDTasks k j (b :: bs)
      = (if b.1 then Task.rejectTask (k + 1 + 3 * j) b.2
         else Task.fulfillTask (k + 1 + 3 * j) .undef) :: sDTasks k (j + 1) bs := rfl

theorem sETasks_cons (k j c : Nat) :
    sETasks k j (c + 1) = Task.fulfillTask (k + 2 + 3 * j) .undef :: sETasks k (j + 1) c := rfl

theorem sGTasks_cons (k j c : Nat) :
    sGTasks k j (c + 1)
      = (if c = 0 then [Task.fulfillTask k (.arrRef 0)] else [])
          ++ Task.fulfillTask (k + 3 + 3 * j) .undef :: sGTasks k (j + 1) c := rfl

theorem sGen1Arr_cons (j : Nat) (b : Bool × JVal) (bs : List (Bool × JVal)) (A : List JVal) :
    sGen1Arr j (b :: bs) A
      = sGen1Arr (j + 1) bs
          (if b.1 then A else setPad A j (.record "fulfilled" "value" b.2)) := rfl

theorem sGen2Arr_cons (j : Nat) (b : Bool × JVal) (bs : List (Bool × JVal)) (A : List JVal) :
    sGen2Arr j (b :: bs) A
      = sGen2Arr (j + 1) bs
          (if b.1 then setPad A j (.record "rejected" "reason" b.2) else A) := rfl

theorem sFBlock1_length (k : Nat) : ∀ (bs : List (Bool × JVal)) (j : Nat),
    (sFBlock1 k j bs).length = bs.length := by
  intro bs
  induction bs with
  | nil => intro j; rfl
  | cons b bs ih =>
    intro j
    rw [sFBlock1_cons, List.length_cons, ih (j + 1), List.length_cons]

/-- JavaScript array writes at distinct indices commute (including the
`undefined`-padding behaviour). -/
theorem setPad_comm (A : List JVal) (j p : Nat) (r v : JVal) (hjp : j < p) :
    setPad (setPad A p v) j r = setPad (setPad A j r) p v := by
  by_cases hp : p < A.length
  · have hj : j < A.length := by omega
    have h1 : setPad A p v = A.set p v := by rw [setPad, if_pos hp]
    have h2 : setPad A j r = A.set j r := by rw [setPad, if_pos hj]
    rw [h1, h2, setPad, if_pos (by simp; omega), setPad, if_pos (by simp; omega)]
    exact List.set_comm v r A (by omega)
  · by_cases hj : j < A.length
    · have h1 : setPad A p v
          = (A ++ List.replicate (p - A.length) JVal.undef) ++ [v] := by
        rw [setPad, if_neg hp]
      have h2 : setPad A j r = A.set j r := by rw [setPad, if_pos hj]
      rw [h1, h2, setPad, if_pos (by simp; omega), setPad, if_neg (by simp; omega)]
      rw [set_append_of_lt _ _ _ _ (by simp; omega), set_append_of_lt _ _ _ _ hj]
      simp
    · have h1 : setPad A p v
          = (A ++ List.replicate (p - A.length) JVal.undef) ++ [v] := by
        rw [setPad, if_neg hp]
      have h2 : setPad A j r
          = (A ++ List.replicate (j - A.length) JVal.undef) ++ [r] := by
        rw [setPad, if_neg hj]
      have hsplit : List.replicate (p - A.length) JVal.undef
          = List.replicate (j - A.length) JVal.undef
            ++ JVal.undef :: List.replicate (p - j - 1) JVal.undef := by
        rw [show p - A.length = (j - A.length) + ((p - j - 1) + 1) from by omega,
            List.replicate_add, List.replicate_succ]
      rw [h1, h2, setPad, if_pos (by simp; omega), setPad, if_neg (by simp; omega)]
      rw [hsplit]
      rw [set_append_of_lt _ _ _ _ (by simp; omega)]
      rw [show A ++ (List.replicate (j - A.length) JVal.undef
              ++ JVal.undef :: List.replicate (p - j - 1) JVal.undef)
            = (A ++ List.replicate (j - A.length) JVal.undef)
                ++ JVal.undef :: List.replicate (p - j - 1) JVal.undef from by
          simp [List.append_assoc]]
      have hx := set_append_length (A ++ List.replicate (j - A.length) JVal.undef)
        JVal.undef (List.replicate (p - j - 1) JVal.undef) r
      rw [show (A ++ List.replicate (j - A.length) JVal.undef).length = j from by
            simp; omega] at hx
      rw [hx]
      rw [show p - ((A ++ List.replicate (j - A.length) JVal.undef) ++ [r]).length
            = p - j - 1 from by simp; omega]
      simp [List.append_assoc]

theorem sGen1Arr_setPad_comm : ∀ (bs : List (Bool × JVal)) (i j : Nat)
    (A : List JVal) (r : JVal),
    j < i → setPad (sGen1Arr i bs A) j r = sGen1Arr i bs (setPad A j r) := by
  intro bs
  induction bs with
  | nil => intro i j A r _; rfl
  | cons b bs ih =>
    intro i j A r hji
    rw [sGen1Arr_cons, sGen1Arr_cons]
    by_cases hb : b.1 = true
    · rw [if_pos hb, if_pos hb]
      exact ih (i + 1) j A r (by omega)
    · rw [if_neg hb, if_neg hb,
          ih (i + 1) j (setPad A i (.record "fulfilled" "value" b.2)) r (by omega),
          setPad_comm A j i r _ hji]

/-- The two generations of array writes of `allSettled` fill the result
array with the outcome records, in input order. -/
theorem sGenArr_comp : ∀ (fs : List (Bool × JVal)) (j : Nat) (A : List JVal),
    A.length = j → sGen2Arr j fs (sGen1Arr j fs A) = A ++ fs.map settledRecord := by
  intro fs
  induction fs with
  | nil => intro j A _; simp [sGen1Arr, sGen2Arr]
  | cons b bs ih =>
    intro j A hA
    rw [sGen1Arr_cons, sGen2Arr_cons]
    by_cases hb : b.1 = true
    · rw [if_pos hb, if_pos hb,
          sGen1Arr_setPad_comm bs (j + 1) j A _ (by omega),
          show setPad A j (.record "rejected" "reason" b.2)
              = A ++ [.record "rejected" "reason" b.2] from by
            rw [← hA]; exact setPad_append A _,
          ih (j + 1) (A ++ [JVal.record "rejected" "reason" b.2]) (by simp [hA])]
      simp [settledRecord, hb]
    · rw [if_neg hb, if_neg hb,
          show setPad A j (.record "fulfilled" "value" b.2)
              = A ++ [.record "fulfilled" "value" b.2] from by
            rw [← hA]; exact setPad_append A _,
          ih (j + 1) (A ++ [JVal.record "fulfilled" "value" b.2]) (by simp [hA])]
      simp [settledRecord, hb]

/-- `asLoop` steps an exposed promise element by three `then` calls
(`then`, `catch`, `finally`). -/
theorem asLoop_cons_promise (q : Nat) (rest : List JVal) (i n cnt res p : Nat) (m : Machine) :
    asLoop (.promiseRef q :: rest) i n cnt res p m
      = asLoop rest (i + 1) n cnt res p
          (thenOn (thenOn (thenOn q (.fn (.asOnFul cnt res i n p)) .undef m).2 .undef
               (.fn (.asOnRej res i))
               (thenOn q (.fn (.asOnFul cnt res i n p)) .undef m).1).2
             (.fn (.finWrapFul (.asFinallyCb cnt res n p)))
             (.fn (.finWrapRej (.asFinallyCb cnt res n p)))
             (thenOn (thenOn q (.fn (.asOnFul cnt res i n p)) .undef m).2 .undef
               (.fn (.asOnRej res i))
               (thenOn q (.fn (.asOnFul cnt res i n p)) .undef m).1).1).1 := by
  simp only [asLoop, thenOn_eq]

/-- One iteration of the `allSettled` loop over future `j`: future `j` gets
its two subscription callbacks and the chain promises `d_j`, `e_j`, `g_j`
are allocated at the end of the heap. -/
theorem asLoop_step (k c j : Nat) (Fdone DEGdone : List PObj) (A : List (List JVal))
    (C : List Int) (T : List Task)
    (hk : j + (c + 1) = k) (hF : Fdone.length = j) (hDEG : DEGdone.length = 3 * j) :
    (thenOn (thenOn (thenOn j (.fn (.asOnFul 0 0 j k k)) .undef
          ⟨Fdone ++ List.replicate (c + 1) ({} : PObj) ++ ({} : PObj) :: DEGdone,
           A, C, T⟩).2 .undef
        (.fn (.asOnRej 0 j))
        (thenOn j (.fn (.asOnFul 0 0 j k k)) .undef
          ⟨Fdone ++ List.replicate (c + 1) ({} : PObj) ++ ({} : PObj) :: DEGdone,
           A, C, T⟩).1).2
      (.fn (.finWrapFul (.asFinallyCb 0 0 k k)))
      (.fn (.finWrapRej (.asFinallyCb 0 0 k k)))
      (thenOn (thenOn j (.fn (.asOnFul 0 0 j k k)) .undef
          ⟨Fdone ++ List.replicate (c + 1) ({} : PObj) ++ ({} : PObj) :: DEGdone,
           A, C, T⟩).2 .undef
        (.fn (.asOnRej 0 j))
        (thenOn j (.fn (.asOnFul 0 0 j k k)) .undef
          ⟨Fdone ++ List.replicate (c + 1) ({} : PObj) ++ ({} : PObj) :: DEGdone,
           A, C, T⟩).1).1).1
      = ⟨(Fdone ++ [sF0 k j]) ++ List.replicate c ({} : PObj)
           ++ ({} : PObj) :: (DEGdone ++ [sD0 k j, sE0 k j, ({} : PObj)]), A, C, T⟩ := by
  subst hF
  have hm : (⟨Fdone ++ List.replicate (c + 1) ({} : PObj) ++ ({} : PObj) :: DEGdone,
        A, C, T⟩ : Machine)
      = ⟨Fdone ++ ({} : PObj)
          :: (List.replicate c ({} : PObj) ++ ({} : PObj) :: DEGdone), A, C, T⟩ := by
    rw [List.replicate_succ]
    simp
  rw [hm]
  have ht1 : thenOn Fdone.length (.fn (.asOnFul 0 0 Fdone.length k k)) .undef
        ⟨Fdone ++ ({} : PObj)
          :: (List.replicate c ({} : PObj) ++ ({} : PObj) :: DEGdone), A, C, T⟩
      = (⟨Fdone ++ sF0 k Fdone.length
            :: (List.replicate c ({} : PObj) ++ ({} : PObj) :: (DEGdone ++ [({} : PObj)])),
          A, C, T⟩, k + 1 + 3 * Fdone.length) := by
    rw [thenOn_mid Fdone.length (k + 1 + 3 * Fdone.length)
        (.fn (.asOnFul 0 0 Fdone.length k k)) .undef Fdone ({} : PObj)
        (List.replicate c ({} : PObj) ++ ({} : PObj) :: DEGdone) A C T rfl
        (by simp [hDEG]; omega) rfl]
    simp [sF0, List.append_assoc]
  rw [ht1]
  dsimp only
  have ht2 : thenOn (k + 1 + 3 * Fdone.length) .undef (.fn (.asOnRej 0 Fdone.length))
        ⟨Fdone ++ sF0 k Fdone.length
            :: (List.replicate c ({} : PObj) ++ ({} : PObj) :: (DEGdone ++ [({} : PObj)])),
          A, C, T⟩
      = (⟨Fdone ++ sF0 k Fdone.length
            :: (List.replicate c ({} : PObj) ++ ({} : PObj)
                :: (DEGdone ++ [sD0 k Fdone.length, ({} : PObj)])), A, C, T⟩,
         k + 2 + 3 * Fdone.length) := by
    rw [show (⟨Fdone ++ sF0 k Fdone.length
            :: (List.replicate c ({} : PObj) ++ ({} : PObj) :: (DEGdone ++ [({} : PObj)])),
          A, C, T⟩ : Machine)
        = ⟨(Fdone ++ sF0 k Fdone.length
              :: (List.replicate c ({} : PObj) ++ ({} : PObj) :: DEGdone))
            ++ ({} : PObj) :: ([] : List PObj), A, C, T⟩ from by simp]
    rw [thenOn_mid (k + 1 + 3 * Fdone.length) (k + 2 + 3 * Fdone.length) .undef
        (.fn (.asOnRej 0 Fdone.length))
        (Fdone ++ sF0 k Fdone.length
          :: (List.replicate c ({} : PObj) ++ ({} : PObj) :: DEGdone)) ({} : PObj)
        ([] : List PObj) A C T (by simp [hDEG]; omega) (by simp [hDEG]; omega) rfl]
    simp [sD0, List.append_assoc]
  rw [ht2]
  dsimp only
  have ht3 : thenOn (k + 2 + 3 * Fdone.length)
        (.fn (.finWrapFul (.asFinallyCb 0 0 k k)))
        (.fn (.finWrapRej (.asFinallyCb 0 0 k k)))
        ⟨Fdone ++ sF0 k Fdone.length
            :: (List.replicate c ({} : PObj) ++ ({} : PObj)
                :: (DEGdone ++ [sD0 k Fdone.length, ({} : PObj)])), A, C, T⟩
      = (⟨Fdone ++ sF0 k Fdone.length
            :: (List.replicate c ({} : PObj) ++ ({} : PObj)
                :: (DEGdone ++ [sD0 k Fdone.length, sE0 k Fdone.length, ({} : PObj)])),
          A, C, T⟩,
         k + 3 + 3 * Fdone.length) := by
    rw [show (⟨Fdone ++ sF0 k Fdone.length
            :: (List.replicate c ({} : PObj) ++ ({} : PObj)
                :: (DEGdone ++ [sD0 k Fdone.length, ({} : PObj)])), A, C, T⟩ : Machine)
        = ⟨(Fdone ++ sF0 k Fdone.length
              :: (List.replicate c ({} : PObj) ++ ({} : PObj)
                  :: (DEGdone ++ [sD0 k Fdone.length])))
            ++ ({} : PObj) :: ([] : List PObj), A, C, T⟩ from by simp]
    rw [thenOn_mid (k + 2 + 3 * Fdone.length) (k + 3 + 3 * Fdone.length)
        (.fn (.finWrapFul (.asFinallyCb 0 0 k k)))
        (.fn (.finWrapRej (.asFinallyCb 0 0 k k)))
        (Fdone ++ sF0 k Fdone.length
          :: (List.replicate c ({} : PObj) ++ ({} : PObj)
              :: (DEGdone ++ [sD0 k Fdone.length]))) ({} : PObj)
        ([] : List PObj) A C T (by simp [hDEG]; omega) (by simp [hDEG]; omega) rfl]
    simp [sE0, List.append_assoc]
  rw [ht3]
  simp [List.append_assoc]

/-- The `allSettled` loop over a future-only reference list, from any loop
index. -/
theorem asLoop_refVals (k : Nat) : ∀ (c j : Nat) (Fdone DEGdone : List PObj)
    (A : List (List JVal)) (C : List Int) (T : List Task),
    j + c = k → Fdone.length = j → DEGdone.length = 3 * j →
    asLoop (refVals j c) j k 0 0 k
        ⟨Fdone ++ List.replicate c ({} : PObj) ++ ({} : PObj) :: DEGdone, A, C, T⟩
      = ⟨Fdone ++ sFBlock0 k j c ++ ({} : PObj) :: (DEGdone ++ sDEGBlock k j c),
         A, C, T⟩ := by
  intro c
  induction c with
  | zero =>
    intro j Fdone DEGdone A C T _ _ _
    show (⟨Fdone ++ List.replicate 0 ({} : PObj) ++ ({} : PObj) :: DEGdone, A, C, T⟩
        : Machine) = _
    simp [sFBlock0, sDEGBlock]
  | succ c ih =>
    intro j Fdone DEGdone A C T hk hF hDEG
    rw [refVals_cons, asLoop_cons_promise,
        asLoop_step k c j Fdone DEGdone A C T hk hF hDEG,
        ih (j + 1) (Fdone ++ [sF0 k j])
          (DEGdone ++ [sD0 k j, sE0 k j, ({} : PObj)]) A C T
          (by omega) (by simp [hF]) (by simp [hDEG]; omega)]
    simp [sFBlock0, sDEGBlock, List.append_assoc]

theorem allSettled_eq (vs : List JVal) (m : Machine) :
    allSettled vs m
      = (asLoop vs 0 vs.length (allocCounter m).2 (allocArray (allocCounter m).1).2
           (allocPromise (allocArray (allocCounter m).1).1).2
           (allocPromise (allocArray (allocCounter m).1).1).1,
         (allocPromise (allocArray (allocCounter m).1).1).2) := rfl

/-- The machine right after `Promize.allSettled` returns on a future-only
input evaluated on the empty machine. -/
theorem as_setup (fs : List (Bool × JVal)) :
    allSettled (mkFutures (futureItems fs) emptyM).2 (mkFutures (futureItems fs) emptyM).1
      = (⟨sFBlock0 fs.length 0 fs.length
            ++ ({} : PObj) :: sDEGBlock fs.length 0 fs.length,
          [[]], [0], settleTasks 0 fs⟩, fs.length) := by
  rw [show (emptyM : Machine) = ⟨[], [], [], []⟩ from rfl,
      mkFutures_futureItems fs 0 [] [] [] [] rfl]
  dsimp only
  rw [show (⟨([] : List PObj) ++ List.replicate fs.length ({} : PObj), [], [],
        ([] : List Task) ++ settleTasks 0 fs⟩ : Machine)
      = ⟨List.replicate fs.length ({} : PObj), [], [], settleTasks 0 fs⟩ from by simp]
  rw [allSettled_eq]
  dsimp only [allocCounter, allocArray, allocPromise]
  simp only [List.length_replicate, List.nil_append, refVals_length, List.length_nil]
  rw [show (⟨List.replicate fs.length ({} : PObj) ++ [({} : PObj)], [[]], [0],
        settleTasks 0 fs⟩ : Machine)
      = ⟨([] : List PObj) ++ List.replicate fs.length ({} : PObj)
          ++ ({} : PObj) :: ([] : List PObj), [[]], [0], settleTasks 0 fs⟩ from by simp]
  rw [asLoop_refVals fs.length fs.length 0 [] [] [[]] [0] (settleTasks 0 fs)
      (by omega) rfl rfl]
  simp

theorem allSettledScen_eq (items : List AItem) :
    allSettledScen items
      = (runTasks (8 * items.length + 8)
           (allSettled (mkFutures items emptyM).2 (mkFutures items emptyM).1).1,
         (allSettled (mkFutures items emptyM).2 (mkFutures items emptyM).1).2) := rfl

/-- The returned promise of the `allSettledScen` scenario is `P = k`. -/
theorem allSettledScen_snd (fs : List (Bool × JVal)) :
    (allSettledScen (futureItems fs)).2 = fs.length := by
  rw [allSettledScen_eq]
  dsimp only
  rw [as_setup fs]

/-- Generation 1 of `allSettled`, one fulfilling future: the settlement runs
the stored fulfillment handler — a fulfilled-record write at the element's
position, no counter change, no resolution while the counter is below `n` —
then queues the fulfillment of the chain promise `d_j`. -/
theorem as_gen1_step_ful (k : Nat) (b : Bool × JVal) (bs : List (Bool × JVal))
    (Fdone : List PObj) (A : List JVal) (c : Int) (acc : List Task)
    (hb : b.1 = false) (hnp : isPromiseVal b.2 = false)
    (hc : ¬ (c = (k : Int))) :
    runTask (Task.fulfillTask Fdone.length b.2)
        ⟨Fdone ++ sF0 k Fdone.length :: (sFBlock0 k (Fdone.length + 1) bs.length
            ++ ({} : PObj) :: sDEGBlock k 0 k), [A], [c],
         settleTasks (Fdone.length + 1) bs ++ acc⟩
      = ⟨(Fdone ++ [sF1 k Fdone.length b]) ++ sFBlock0 k (Fdone.length + 1) bs.length
            ++ ({} : PObj) :: sDEGBlock k 0 k,
         [setPad A Fdone.length (.record "fulfilled" "value" b.2)], [c],
         settleTasks (Fdone.length + 1) bs
           ++ (acc ++ [Task.fulfillTask (k + 1 + 3 * Fdone.length) .undef])⟩ := by
  have hp : (⟨Fdone ++ sF0 k Fdone.length :: (sFBlock0 k (Fdone.length + 1) bs.length
          ++ ({} : PObj) :: sDEGBlock k 0 k), [A], [c],
        settleTasks (Fdone.length + 1) bs ++ acc⟩ : Machine).pobj Fdone.length
      = ⟨.pending, .undef,
         [⟨.fn (.asOnFul 0 0 Fdone.length k k), k + 1 + 3 * Fdone.length⟩],
         [⟨.undef, k + 1 + 3 * Fdone.length⟩]⟩ :=
    getD_append_length Fdone (sF0 k Fdone.length) _ ({} : PObj)
  rw [runTask_fulfill_one _ _ _ _ _ hp (by simp) hnp]
  rw [runCb_asOnFul, applyFn_asOnFul_m]
  split
  · rename_i hcond
    exact absurd (show c = (k : Int) from hcond) hc
  · simp [enqueue, setArr, getArr, set_append_length, sF1, hb, List.append_assoc]

/-- Generation 1 of `allSettled`, one rejecting future: the settlement runs
the stored rejection callback (handler `undefined`), which forwards the
reason to the chain promise `d_j`. -/
theorem as_gen1_step_rej (k : Nat) (b : Bool × JVal) (bs : List (Bool × JVal))
    (Fdone : List PObj) (A : List JVal) (c : Int) (acc : List Task)
    (hb : b.1 = true) (hnp : isPromiseVal b.2 = false) :
    runTask (Task.rejectTask Fdone.length b.2)
        ⟨Fdone ++ sF0 k Fdone.length :: (sFBlock0 k (Fdone.length + 1) bs.length
            ++ ({} : PObj) :: sDEGBlock k 0 k), [A], [c],
         settleTasks (Fdone.length + 1) bs ++ acc⟩
      = ⟨(Fdone ++ [sF1 k Fdone.length b]) ++ sFBlock0 k (Fdone.length + 1) bs.length
            ++ ({} : PObj) :: sDEGBlock k 0 k, [A], [c],
         settleTasks (Fdone.length + 1) bs
           ++ (acc ++ [Task.rejectTask (k + 1 + 3 * Fdone.length) b.2])⟩ := by
  have hp : (⟨Fdone ++ sF0 k Fdone.length :: (sFBlock0 k (Fdone.length + 1) bs.length
          ++ ({} : PObj) :: sDEGBlock k 0 k), [A], [c],
        settleTasks (Fdone.length + 1) bs ++ acc⟩ : Machine).pobj Fdone.length
      = ⟨.pending, .undef,
         [⟨.fn (.asOnFul 0 0 Fdone.length k k), k + 1 + 3 * Fdone.length⟩],
         [⟨.undef, k + 1 + 3 * Fdone.length⟩]⟩ :=
    getD_append_length Fdone (sF0 k Fdone.length) _ ({} : PObj)
  rw [runTask_reject_one _ _ _ _ _ hp (by simp) hnp]
  rw [runCb_undef_rej]
  simp [enqueue, set_append_length, sF1, hb, List.append_assoc]

/-- Generation 1 of `allSettled` over a future-only input: each settlement
task settles its future, records any fulfillment as a fulfilled record in
the shared array, and queues one settlement task for its chain promise
`d_j`; the counter does not move. -/
theorem as_gen1 (k : Nat) : ∀ (todo : List (Bool × JVal)) (j : Nat) (Fdone : List PObj)
    (A : List JVal) (c : Int) (acc : List Task),
    Fdone.length = j →
    ¬ (c = (k : Int)) →
    (∀ b ∈ todo, isPromiseVal b.2 = false) →
    runTasks todo.length
        ⟨Fdone ++ sFBlock0 k j todo.length ++ ({} : PObj) :: sDEGBlock k 0 k,
         [A], [c], settleTasks j todo ++ acc⟩
      = ⟨Fdone ++ sFBlock1 k j todo ++ ({} : PObj) :: sDEGBlock k 0 k,
         [sGen1Arr j todo A], [c], acc ++ sDTasks k j todo⟩ := by
  intro todo
  induction todo with
  | nil =>
    intro j Fdone A c acc _ _ _
    show (⟨Fdone ++ sFBlock0 k j 0 ++ ({} : PObj) :: sDEGBlock k 0 k, [A], [c],
        settleTasks j [] ++ acc⟩ : Machine) = _
    simp [sFBlock0, sFBlock1, sGen1Arr, sDTasks, settleTasks]
  | cons b bs ih =>
    intro j Fdone A c acc hF hc hnp
    subst hF
    rw [show (b :: bs).length = bs.length + 1 from rfl,
        settleTasks_cons, sFBlock0_cons,
        List.append_assoc Fdone
          (sF0 k Fdone.length :: sFBlock0 k (Fdone.length + 1) bs.length)
          (({} : PObj) :: sDEGBlock k 0 k),
        List.cons_append (sF0 k Fdone.length) (sFBlock0 k (Fdone.length + 1) bs.length)
          (({} : PObj) :: sDEGBlock k 0 k),
        List.cons_append]
    by_cases hb : b.1 = true
    · rw [if_pos hb,
          runTasks_cons_lit bs.length _ _ _ _ _,
          as_gen1_step_rej k b bs Fdone A c acc hb (hnp b (by simp)),
          ih (Fdone.length + 1) (Fdone ++ [sF1 k Fdone.length b]) A c
            (acc ++ [Task.rejectTask (k + 1 + 3 * Fdone.length) b.2]) (by simp) hc
            (fun b' hb' => hnp b' (by simp [hb']))]
      simp [sFBlock1_cons, sGen1Arr_cons, sDTasks_cons, hb, List.append_assoc]
    · have hb2 : b.1 = false := by simpa using hb
      rw [if_neg hb,
          runTasks_cons_lit bs.length _ _ _ _ _,
          as_gen1_step_ful k b bs Fdone A c acc hb2 (hnp b (by simp)) hc,
          ih (Fdone.length + 1) (Fdone ++ [sF1 k Fdone.length b])
            (setPad A Fdone.length (.record "fulfilled" "value" b.2)) c
            (acc ++ [Task.fulfillTask (k + 1 + 3 * Fdone.length) .undef]) (by simp) hc
            (fun b' hb' => hnp b' (by simp [hb']))]
      simp [sFBlock1_cons, sGen1Arr_cons, sDTasks_cons, hb2, List.append_assoc]

/-- Generation 2 of `allSettled`, a fulfilled chain: `d_j` settles
fulfilled, its stored fulfillment callback (handler `undefined`) forwards
to `e_j`. -/
theorem as_gen2_step_ful (k j : Nat) (Pre DEG : List PObj) (A : List JVal)
    (Cn : List Int) (T : List Task) (hPre : Pre.length = k + 1 + 3 * j) :
    runTask (Task.fulfillTask (k + 1 + 3 * j) .undef)
        ⟨Pre ++ sD0 k j :: sE0 k j :: ({} : PObj) :: DEG, [A], Cn, T⟩
      = ⟨(Pre ++ [(⟨.fulfilled, .undef, [],
            [Cb.mk (.fn (.asOnRej 0 j)) (k + 2 + 3 * j)]⟩ : PObj),
            sE0 k j, ({} : PObj)]) ++ DEG, [A], Cn,
         T ++ [Task.fulfillTask (k + 2 + 3 * j) .undef]⟩ := by
  rw [show k + 1 + 3 * j = Pre.length from hPre.symm]
  have hp : (⟨Pre ++ sD0 k j :: sE0 k j :: ({} : PObj) :: DEG, [A], Cn, T⟩
        : Machine).pobj Pre.length
      = ⟨.pending, .undef, [⟨.undef, k + 2 + 3 * j⟩],
         [⟨.fn (.asOnRej 0 j), k + 2 + 3 * j⟩]⟩ :=
    getD_append_length Pre (sD0 k j) _ ({} : PObj)
  rw [runTask_fulfill_one _ _ JVal.undef _ _ hp (by simp) rfl]
  rw [runCb_undef_ful]
  simp [enqueue, set_append_length, List.append_assoc]

/-- Generation 2 of `allSettled`, a rejected chain: `d_j` settles rejected,
its stored rejection handler writes the rejected record into the shared
array, then forwards to `e_j` along the fulfillment path. -/
theorem as_gen2_step_rej (k j : Nat) (r : JVal) (Pre DEG : List PObj) (A : List JVal)
    (Cn : List Int) (T : List Task)
    (hPre : Pre.length = k + 1 + 3 * j) (hnp : isPromiseVal r = false) :
    runTask (Task.rejectTask (k + 1 + 3 * j) r)
        ⟨Pre ++ sD0 k j :: sE0 k j :: ({} : PObj) :: DEG, [A], Cn, T⟩
      = ⟨(Pre ++ [(⟨.rejected, r, [Cb.mk .undef (k + 2 + 3 * j)], []⟩ : PObj),
            sE0 k j, ({} : PObj)]) ++ DEG,
         [setPad A j (.record "rejected" "reason" r)], Cn,
         T ++ [Task.fulfillTask (k + 2 + 3 * j) .undef]⟩ := by
  rw [show k + 1 + 3 * j = Pre.length from hPre.symm]
  have hp : (⟨Pre ++ sD0 k j :: sE0 k j :: ({} : PObj) :: DEG, [A], Cn, T⟩
        : Machine).pobj Pre.length
      = ⟨.pending, .undef, [⟨.undef, k + 2 + 3 * j⟩],
         [⟨.fn (.asOnRej 0 j), k + 2 + 3 * j⟩]⟩ :=
    getD_append_length Pre (sD0 k j) _ ({} : PObj)
  rw [runTask_reject_one _ _ _ _ _ hp (by simp) hnp]
  rw [runCb_asOnRej]
  simp [enqueue, setArr, getArr, set_append_length, List.append_assoc]

/-- Generation 2 of `allSettled`: each `d_j` settles like its future,
rejected chains write their rejected record, and every chain forwards to
`e_j` along the fulfillment path. -/
theorem as_gen2 (k : Nat) : ∀ (todo : List (Bool × JVal)) (j : Nat) (Pre : List PObj)
    (A : List JVal) (Cn : List Int) (acc : List Task),
    Pre.length = k + 1 + 3 * j →
    (∀ b ∈ todo, isPromiseVal b.2 = false) →
    runTasks todo.length
        ⟨Pre ++ sDEGBlock k j todo.length, [A], Cn, sDTasks k j todo ++ acc⟩
      = ⟨Pre ++ sDEGBlock1 k j todo, [sGen2Arr j todo A], Cn,
         acc ++ sETasks k j todo.length⟩ := by
  intro todo
  induction todo with
  | nil =>
    intro j Pre A Cn acc _ _
    show (⟨Pre ++ sDEGBlock k j 0, [A], Cn, sDTasks k j [] ++ acc⟩ : Machine) = _
    simp [sDEGBlock, sDEGBlock1, sDTasks, sETasks, sGen2Arr]
  | cons b bs ih =>
    intro j Pre A Cn acc hPre hnp
    rw [show (b :: bs).length = bs.length + 1 from rfl, sDTasks_cons, sDEGBlock_cons]
    by_cases hb : b.1 = true
    · rw [if_pos hb, List.cons_append,
          runTasks_cons_lit bs.length _ _ _ _ _,
          as_gen2_step_rej k j b.2 Pre (sDEGBlock k (j + 1) bs.length) A Cn
            (sDTasks k (j + 1) bs ++ acc) hPre (hnp b (by simp)),
          List.append_assoc (sDTasks k (j + 1) bs) acc
            [Task.fulfillTask (k + 2 + 3 * j) .undef],
          ih (j + 1)
            (Pre ++ [(⟨.rejected, b.2, [Cb.mk .undef (k + 2 + 3 * j)], []⟩ : PObj),
               sE0 k j, ({} : PObj)])
            (setPad A j (.record "rejected" "reason" b.2)) Cn
            (acc ++ [Task.fulfillTask (k + 2 + 3 * j) .undef])
            (by simp [hPre]; omega)
            (fun b' hb' => hnp b' (by simp [hb']))]
      simp [sDEGBlock1_cons, sETasks_cons, sGen2Arr_cons, sD1, hb, List.append_assoc]
    · rw [if_neg hb, List.cons_append,
          runTasks_cons_lit bs.length _ _ _ _ _,
          as_gen2_step_ful k j Pre (sDEGBlock k (j + 1) bs.length) A Cn
            (sDTasks k (j + 1) bs ++ acc) hPre,
          List.append_assoc (sDTasks k (j + 1) bs) acc
            [Task.fulfillTask (k + 2 + 3 * j) .undef],
          ih (j + 1)
            (Pre ++ [(⟨.fulfilled, .undef, [],
               [Cb.mk (.fn (.asOnRej 0 j)) (k + 2 + 3 * j)]⟩ : PObj),
               sE0 k j, ({} : PObj)])
            A Cn (acc ++ [Task.fulfillTask (k + 2 + 3 * j) .undef])
            (by simp [hPre]; omega)
            (fun b' hb' => hnp b' (by simp [hb']))]
      simp [sDEGBlock1_cons, sETasks_cons, sGen2Arr_cons, sD1, hb, List.append_assoc]

/-- Generation 3 of `allSettled`, one chain, counter below `n` after the
bump: `e_j` settles fulfilled, the `finally` wrapper bumps the counter and
forwards the value to `g_j`. -/
theorem as_gen3_step (k j : Nat) (b : Bool × JVal) (Pre DEG : List PObj)
    (A : List JVal) (c : Int) (T : List Task)
    (hPre : Pre.length = k + 1 + 3 * j) (hc : ¬ (c + 1 = (k : Int))) :
    runTask (Task.fulfillTask (k + 2 + 3 * j) .undef)
        ⟨Pre ++ sD1 k j b :: sE0 k j :: ({} : PObj) :: DEG, [A], [c], T⟩
      = ⟨(Pre ++ [sD1 k j b, sE1 k j, ({} : PObj)]) ++ DEG, [A], [c + 1],
         T ++ [Task.fulfillTask (k + 3 + 3 * j) .undef]⟩ := by
  rw [show Pre ++ sD1 k j b :: sE0 k j :: ({} : PObj) :: DEG
        = (Pre ++ [sD1 k j b]) ++ sE0 k j :: ({} : PObj) :: DEG from by simp,
      show k + 2 + 3 * j = (Pre ++ [sD1 k j b]).length from by simp [hPre]; omega]
  have hp : (⟨(Pre ++ [sD1 k j b]) ++ sE0 k j :: ({} : PObj) :: DEG, [A], [c], T⟩
        : Machine).pobj (Pre ++ [sD1 k j b]).length
      = ⟨.pending, .undef,
         [⟨.fn (.finWrapFul (.asFinallyCb 0 0 k k)), k + 3 + 3 * j⟩],
         [⟨.fn (.finWrapRej (.asFinallyCb 0 0 k k)), k + 3 + 3 * j⟩]⟩ :=
    getD_append_length (Pre ++ [sD1 k j b]) (sE0 k j) _ ({} : PObj)
  rw [runTask_fulfill_one _ _ JVal.undef _ _ hp (by simp) rfl]
  rw [runCb_finWrapFul, applyFn_asFinallyCb_m]
  split
  · rename_i hcond
    refine absurd ?_ hc
    show c + 1 = (k : Int)
    exact hcond
  · simp [enqueue, incCounter, set_append_length, sE1, List.append_assoc]

/-- Generation 3 of `allSettled`, the last chain: the counter bump reaches
`n`, so the `finally` callback also queues the resolution of `P` with the
shared result array, just before `g_j`'s settlement. -/
theorem as_gen3_step_last (k j : Nat) (b : Bool × JVal) (Pre DEG : List PObj)
    (A : List JVal) (c : Int) (T : List Task)
    (hPre : Pre.length = k + 1 + 3 * j) (hc : c + 1 = (k : Int)) :
    runTask (Task.fulfillTask (k + 2 + 3 * j) .undef)
        ⟨Pre ++ sD1 k j b :: sE0 k j :: ({} : PObj) :: DEG, [A], [c], T⟩
      = ⟨(Pre ++ [sD1 k j b, sE1 k j, ({} : PObj)]) ++ DEG, [A], [c + 1],
         T ++ [Task.fulfillTask k (.arrRef 0),
               Task.fulfillTask (k + 3 + 3 * j) .undef]⟩ := by
  rw [show Pre ++ sD1 k j b :: sE0 k j :: ({} : PObj) :: DEG
        = (Pre ++ [sD1 k j b]) ++ sE0 k j :: ({} : PObj) :: DEG from by simp,
      show k + 2 + 3 * j = (Pre ++ [sD1 k j b]).length from by simp [hPre]; omega]
  have hp : (⟨(Pre ++ [sD1 k j b]) ++ sE0 k j :: ({} : PObj) :: DEG, [A], [c], T⟩
        : Machine).pobj (Pre ++ [sD1 k j b]).length
      = ⟨.pending, .undef,
         [⟨.fn (.finWrapFul (.asFinallyCb 0 0 k k)), k + 3 + 3 * j⟩],
         [⟨.fn (.finWrapRej (.asFinallyCb 0 0 k k)), k + 3 + 3 * j⟩]⟩ :=
    getD_append_length (Pre ++ [sD1 k j b]) (sE0 k j) _ ({} : PObj)
  rw [runTask_fulfill_one _ _ JVal.undef _ _ hp (by simp) rfl]
  rw [runCb_finWrapFul, applyFn_asFinallyCb_m]
  split
  · simp [enqueue, incCounter, set_append_length, sE1, List.append_assoc]
  · rename_i hcond
    refine absurd ?_ hcond
    show c + 1 = (k : Int)
    exact hc

/-- Generation 3 of `allSettled`: every `e_j` settles fulfilled, the
`finally` wrapper bumps the counter once per chain, and the last bump
(counter reaching `n`) queues the resolution of `P` just before the last
`g` settlement. -/
theorem as_gen3_ful (k : Nat) : ∀ (todo : List (Bool × JVal)) (j : Nat) (Pre : List PObj)
    (A : List JVal) (c : Int) (acc : List Task),
    Pre.length = k + 1 + 3 * j → c + (todo.length : Int) = (k : Int) → todo ≠ [] →
    runTasks todo.length
        ⟨Pre ++ sDEGBlock1 k j todo, [A], [c], sETasks k j todo.length ++ acc⟩
      = ⟨Pre ++ sDEGBlock2 k j todo, [A], [c + (todo.length : Int)],
         acc ++ sGTasks k j todo.length⟩ := by
  intro todo
  induction todo with
  | nil => intro j Pre A c acc _ _ hne; exact absurd rfl hne
  | cons b bs ih =>
    intro j Pre A c acc hPre hcnt _
    cases bs with
    | nil =>
      rw [show (b :: ([] : List (Bool × JVal))).length = 0 + 1 from rfl,
          sDEGBlock1_cons, sETasks_cons, List.cons_append,
          runTasks_cons_lit 0 _ _ _ _ _, runTasks_zero]
      rw [show sETasks k (j + 1) 0 ++ acc = acc from by
            rw [show sETasks k (j + 1) 0 = ([] : List Task) from rfl, List.nil_append]]
      rw [as_gen3_step_last k j b Pre (sDEGBlock1 k (j + 1) []) A c acc hPre
            (by simp at hcnt; omega)]
      simp [sDEGBlock2_cons, sGTasks_cons,
            show sDEGBlock1 k (j + 1) ([] : List (Bool × JVal)) = [] from rfl,
            show sDEGBlock2 k (j + 1) ([] : List (Bool × JVal)) = [] from rfl,
            show sGTasks k (j + 1) 0 = ([] : List Task) from rfl,
            List.append_assoc]
    | cons b2 bs2 =>
      rw [show (b :: b2 :: bs2).length = (b2 :: bs2).length + 1 from rfl,
          sDEGBlock1_cons, sETasks_cons, List.cons_append,
          runTasks_cons_lit (b2 :: bs2).length _ _ _ _ _,
          as_gen3_step k j b Pre (sDEGBlock1 k (j + 1) (b2 :: bs2)) A c
            (sETasks k (j + 1) (b2 :: bs2).length ++ acc) hPre
            (by simp only [List.length_cons] at hcnt; push_cast at hcnt; omega),
          List.append_assoc (sETasks k (j + 1) (b2 :: bs2).length) acc
            [Task.fulfillTask (k + 3 + 3 * j) .undef],
          ih (j + 1) (Pre ++ [sD1 k j b, sE1 k j, ({} : PObj)]) A (c + 1)
            (acc ++ [Task.fulfillTask (k + 3 + 3 * j) .undef])
            (by simp [hPre]; omega)
            (by simp only [List.length_cons] at hcnt ⊢; push_cast at hcnt ⊢; omega)
            (by simp)]
      simp [sDEGBlock2_cons, sGTasks_cons, List.append_assoc]
      omega

/-- One `g_j` settlement in generation 4 of `allSettled`: `g_j` is the
pending callback-free object after `e_j`, so the task just settles it. -/
theorem as_gen4_step_g (k j : Nat) (b : Bool × JVal) (Pre DEG : List PObj)
    (Ar : List (List JVal)) (Cn : List Int) (T : List Task)
    (hPre : Pre.length = k + 1 + 3 * j) :
    runTask (Task.fulfillTask (k + 3 + 3 * j) .undef)
        ⟨Pre ++ sD1 k j b :: sE1 k j :: ({} : PObj) :: DEG, Ar, Cn, T⟩
      = ⟨(Pre ++ [sD1 k j b, sE1 k j, (⟨.fulfilled, .undef, [], []⟩ : PObj)]) ++ DEG,
         Ar, Cn, T⟩ := by
  have hp : (⟨Pre ++ sD1 k j b :: sE1 k j :: ({} : PObj) :: DEG, Ar, Cn, T⟩
        : Machine).pobj (k + 3 + 3 * j) = ({} : PObj) := by
    show (Pre ++ sD1 k j b :: sE1 k j :: ({} : PObj) :: DEG).getD (k + 3 + 3 * j)
        ({} : PObj) = ({} : PObj)
    rw [show k + 3 + 3 * j = Pre.length + 1 + 1 from by omega, getD_append_cons]
    rfl
  rw [runTask_trivial_fulfill _ (k + 3 + 3 * j) JVal.undef
      (by rw [stateOf, hp]) (by rw [thenCbsOf, hp]) (by rw [catchCbsOf, hp])
      (by simp; omega) rfl]
  rw [show Pre ++ sD1 k j b :: sE1 k j :: ({} : PObj) :: DEG
        = (Pre ++ [sD1 k j b, sE1 k j]) ++ ({} : PObj) :: DEG from by simp,
      show k + 3 + 3 * j = (Pre ++ [sD1 k j b, sE1 k j]).length from by
        simp [hPre]; omega,
      set_append_length]
  simp [List.append_assoc]

/-- Generation 4 of `allSettled`: the deferred resolution of `P` (queued
just before the last `g`) settles `P` with the shared result array, and
every `g_j` settles fulfilled; nothing further is queued. -/
theorem as_gen4 (k : Nat) : ∀ (todo : List (Bool × JVal)) (j : Nat) (Pre : List PObj)
    (Ar : List (List JVal)) (Cn : List Int) (acc : List Task),
    Pre.length = k + 1 + 3 * j → k < Pre.length →
    Pre.getD k ({} : PObj) = ({} : PObj) → todo ≠ [] →
    runTasks (todo.length + 1)
        ⟨Pre ++ sDEGBlock2 k j todo, Ar, Cn, sGTasks k j todo.length ++ acc⟩
      = ⟨Pre.set k ⟨.fulfilled, .arrRef 0, [], []⟩ ++ sDEGBlock3 k j todo, Ar, Cn,
         acc⟩ := by
  intro todo
  induction todo with
  | nil => intro j Pre Ar Cn acc _ _ _ hne; exact absurd rfl hne
  | cons b bs ih =>
    intro j Pre Ar Cn acc hPre hk hPk _
    cases bs with
    | nil =>
      rw [show (b :: ([] : List (Bool × JVal))).length = 0 + 1 from rfl,
          sDEGBlock2_cons, sGTasks_cons, if_pos rfl]
      rw [show ([Task.fulfillTask k (.arrRef 0)]
              ++ Task.fulfillTask (k + 3 + 3 * j) .undef :: sGTasks k (j + 1) 0) ++ acc
            = Task.fulfillTask k (.arrRef 0)
                :: (Task.fulfillTask (k + 3 + 3 * j) .undef :: acc)
          from by simp [show sGTasks k (j + 1) 0 = ([] : List Task) from rfl]]
      rw [runTasks_cons_lit (0 + 1) _ _ _ _ _]
      rw [all_gen2_step_P k Pre
          (sD1 k j b :: sE1 k j :: ({} : PObj) :: sDEGBlock2 k (j + 1) []) Ar Cn
          (Task.fulfillTask (k + 3 + 3 * j) .undef :: acc) hk hPk]
      rw [runTasks_cons_lit 0 _ _ _ _ _, runTasks_zero]
      rw [as_gen4_step_g k j b (Pre.set k ⟨.fulfilled, .arrRef 0, [], []⟩)
          (sDEGBlock2 k (j + 1) []) Ar Cn acc (by simp [hPre])]
      simp [sDEGBlock3_cons,
            show sDEGBlock2 k (j + 1) ([] : List (Bool × JVal)) = [] from rfl,
            show sDEGBlock3 k (j + 1) ([] : List (Bool × JVal)) = [] from rfl,
            List.append_assoc]
    | cons b2 bs2 =>
      rw [show (b :: b2 :: bs2).length = (b2 :: bs2).length + 1 from rfl,
          sDEGBlock2_cons, sGTasks_cons, if_neg (by simp), List.nil_append,
          List.cons_append,
          runTasks_cons_lit ((b2 :: bs2).length + 1) _ _ _ _ _,
          as_gen4_step_g k j b Pre (sDEGBlock2 k (j + 1) (b2 :: bs2)) Ar Cn
            (sGTasks k (j + 1) (b2 :: bs2).length ++ acc) hPre,
          ih (j + 1)
            (Pre ++ [sD1 k j b, sE1 k j, (⟨.fulfilled, .undef, [], []⟩ : PObj)])
            Ar Cn acc (by simp [hPre]; omega) (by rw [List.length_append]; omega)
            (by rw [getD_append_left _ _ _ _ hk]; exact hPk) (by simp)]
      rw [set_append_of_lt Pre _ k _ hk]
      simp [sDEGBlock3_cons, List.append_assoc]

/-- End-to-end run of `Promize.allSettled` over a nonempty future-only
input: the returned promise `P` always ends up fulfilled with the shared
result array, whose contents are the outcome records in input order. -/
theorem allSettled_outcome (fs : List (Bool × JVal))
    (hnp : ∀ b ∈ fs, isPromiseVal b.2 = false) (hne : fs ≠ []) :
    stateOf (allSettledScen (futureItems fs)).1 fs.length = .fulfilled ∧
    valueOf (allSettledScen (futureItems fs)).1 fs.length = .arrRef 0 ∧
    getArr (allSettledScen (futureItems fs)).1 0 = fs.map settledRecord := by
  have hk1 : 0 < fs.length := by
    cases fs with
    | nil => exact absurd rfl hne
    | cons b bs => simp
  rw [allSettledScen_eq]
  dsimp only
  rw [futureItems_length, as_setup fs]
  dsimp only
  rw [show 8 * fs.length + 8
        = fs.length + (fs.length + (fs.length + ((fs.length + 1)
            + (4 * fs.length + 7))))
      from by omega,
      runTasks_add, runTasks_add, runTasks_add, runTasks_add]
  rw [show (⟨sFBlock0 fs.length 0 fs.length
          ++ ({} : PObj) :: sDEGBlock fs.length 0 fs.length, [[]], [0],
        settleTasks 0 fs⟩ : Machine)
      = ⟨([] : List PObj) ++ sFBlock0 fs.length 0 fs.length
          ++ ({} : PObj) :: sDEGBlock fs.length 0 fs.length, [[]], [(0 : Int)],
         settleTasks 0 fs ++ ([] : List Task)⟩ from by simp]
  rw [as_gen1 fs.length fs 0 [] [] 0 [] rfl (by omega) hnp]
  rw [show (⟨([] : List PObj) ++ sFBlock1 fs.length 0 fs
          ++ ({} : PObj) :: sDEGBlock fs.length 0 fs.length, [sGen1Arr 0 fs []],
         [(0 : Int)], ([] : List Task) ++ sDTasks fs.length 0 fs⟩ : Machine)
      = ⟨(sFBlock1 fs.length 0 fs ++ [({} : PObj)]) ++ sDEGBlock fs.length 0 fs.length,
         [sGen1Arr 0 fs []], [(0 : Int)], sDTasks fs.length 0 fs ++ ([] : List Task)⟩
      from by simp]
  rw [as_gen2 fs.length fs 0 (sFBlock1 fs.length 0 fs ++ [({} : PObj)])
      (sGen1Arr 0 fs []) [(0 : Int)] []
      (by simp [sFBlock1_length]) hnp]
  rw [show ([] : List Task) ++ sETasks fs.length 0 fs.length
        = sETasks fs.length 0 fs.length ++ ([] : List Task) from by simp]
  rw [as_gen3_ful fs.length fs 0 (sFBlock1 fs.length 0 fs ++ [({} : PObj)])
      (sGen2Arr 0 fs (sGen1Arr 0 fs [])) 0 []
      (by simp [sFBlock1_length]) (by omega) hne]
  rw [show ([] : List Task) ++ sGTasks fs.length 0 fs.length
        = sGTasks fs.length 0 fs.length ++ ([] : List Task) from by simp]
  have hlen1 : (sFBlock1 fs.length 0 fs).length = fs.length := sFBlock1_length fs.length fs 0
  rw [as_gen4 fs.length fs 0 (sFBlock1 fs.length 0 fs ++ [({} : PObj)])
      [sGen2Arr 0 fs (sGen1Arr 0 fs [])] [0 + (fs.length : Int)] []
      (by simp [sFBlock1_length])
      (by rw [List.length_append, hlen1]; simp)
      (by have hx := getD_append_length (sFBlock1 fs.length 0 fs) ({} : PObj) []
            ({} : PObj)
          rw [hlen1] at hx
          exact hx)
      hne]
  rw [tasks_of_runTasks_nil (4 * fs.length + 7) _ rfl]
  rw [show (sFBlock1 fs.length 0 fs ++ [({} : PObj)]).set fs.length
          (⟨.fulfilled, .arrRef 0, [], []⟩ : PObj)
        = sFBlock1 fs.length 0 fs ++ [(⟨.fulfilled, .arrRef 0, [], []⟩ : PObj)]
      from by
        have hx := set_append_length (sFBlock1 fs.length 0 fs) ({} : PObj) []
          (⟨.fulfilled, .arrRef 0, [], []⟩ : PObj)
        rw [hlen1] at hx
        exact hx]
  have hobj : (⟨(sFBlock1 fs.length 0 fs ++ [(⟨.fulfilled, .arrRef 0, [], []⟩ : PObj)])
          ++ sDEGBlock3 fs.length 0 fs,
        [sGen2Arr 0 fs (sGen1Arr 0 fs [])], [0 + (fs.length : Int)],
        ([] : List Task)⟩ : Machine).pobj fs.length
      = (⟨.fulfilled, .arrRef 0, [], []⟩ : PObj) := by
    show ((sFBlock1 fs.length 0 fs ++ [(⟨.fulfilled, .arrRef 0, [], []⟩ : PObj)])
        ++ sDEGBlock3 fs.length 0 fs).getD fs.length ({} : PObj)
        = (⟨.fulfilled, .arrRef 0, [], []⟩ : PObj)
    rw [getD_append_left _ _ _ _ (by rw [List.length_append, hlen1]; simp)]
    have hx := getD_append_length (sFBlock1 fs.length 0 fs)
      (⟨.fulfilled, .arrRef 0, [], []⟩ : PObj) [] ({} : PObj)
    rw [hlen1] at hx
    exact hx
  refine ⟨?_, ?_, ?_⟩
  · rw [stateOf, hobj]
  · rw [valueOf, hobj]
  · show sGen2Arr 0 fs (sGen1Arr 0 fs []) = fs.map settledRecord
    have h := sGenArr_comp fs 0 [] rfl
    simpa using h

/-- Counterexample to C8 as stated: `allSettled([])` never fulfills.  The
executor loop body never runs for an empty input, so `resolve` is never
called: the returned future is still Pending with an empty deferred-work
queue after the scenario's full drain. -/
theorem allSettled_empty_pending :
    (allSettledScen []).1.tasks = [] ∧
    stateOf (allSettledScen []).1 (allSettledScen []).2 = .pending :=
  ⟨by decide, by decide⟩

/-- C8 (amended to nonempty inputs): `allSettled` always fulfills, never
rejects, once every element has settled, with an ordered sequence of
outcome records positionally aligned with the inputs — a fulfilled-tagged
record holding the value, or a rejected-tagged record holding the reason.
For every nonempty future-only input (with non-future payloads) the
returned future ends up Fulfilled with the shared result array holding the
records in input order; concretely
`allSettled([Future.succeeded(1), Future.failed("e")])` fulfills with
`[{status:"fulfilled", value:1}, {status:"rejected", reason:"e"}]`.
(The empty input stays Pending forever — the loop never runs — so the
original "for every input sequence" claim fails on `[]`.) -/
theorem allSettled_always_fulfills_with_records :
    (∀ (fs : List (Bool × JVal)),
        (∀ b ∈ fs, isPromiseVal b.2 = false) → fs ≠ [] →
        stateOf (allSettledScen (futureItems fs)).1
            (allSettledScen (futureItems fs)).2 = .fulfilled ∧
        valueOf (allSettledScen (futureItems fs)).1
            (allSettledScen (futureItems fs)).2 = .arrRef 0 ∧
        getArr (allSettledScen (futureItems fs)).1 0 = fs.map settledRecord)
  ∧ stateOf (allSettledScen [.toFulfill (.num 1), .toReject (.str "e")]).1
        (allSettledScen [.toFulfill (.num 1), .toReject (.str "e")]).2 = .fulfilled
  ∧ valueOf (allSettledScen [.toFulfill (.num 1), .toReject (.str "e")]).1
        (allSettledScen [.toFulfill (.num 1), .toReject (.str "e")]).2 = .arrRef 0
  ∧ getArr (allSettledScen [.toFulfill (.num 1), .toReject (.str "e")]).1 0
      = [.record "fulfilled" "value" (.num 1), .record "rejected" "reason" (.str "e")] := by
  refine ⟨fun fs hnp hne => ?_, by decide, by decide, by decide⟩
  rw [allSettledScen_snd fs]
  exact allSettled_outcome fs hnp hne

/-- Witness for C8 at `allSettled([failed "x"])`. -/
theorem allSettled_always_fulfills_with_records_witness :
    stateOf (allSettledScen (futureItems [(true, JVal.str "x")])).1
        (allSettledScen (futureItems [(true, JVal.str "x")])).2 = .fulfilled ∧
    valueOf (allSettledScen (futureItems [(true, JVal.str "x")])).1
        (allSettledScen (futureItems [(true, JVal.str "x")])).2 = .arrRef 0 ∧
    getArr (allSettledScen (futureItems [(true, JVal.str "x")])).1 0
      = [JVal.record "rejected" "reason" (.str "x")] :=
  allSettled_always_fulfills_with_records.1 [(true, .str "x")] (by decide) (by decide)

end Promize
